import Mathlib

/-!
Verification of the core image-segmentation algorithms of the
js-segment-annotator repository.

The development shallowly embeds the JavaScript sources:

* the graph-based Felzenszwalb–Huttenlocher segmenter
  (`createGaussian`, `convolveEven`, `createEdges`, `createUniverse`,
  `findNode`, `joinNode`, `segmentGraph`, `createIndexMap`,
  `computeSegmentation`, `PFSegmentation`);
* the SLIC/SLICO superpixel segmenter
  (`assignSuperpixelLabel`, `updateClusterParams`, `computeCenters`,
  `eliminateSmallRegions`, `computeSLICSegmentation`, `remapLabels`,
  `SLICSegmentation`);
* the pre-segmentation import path (`computePreSegmentation`) and the
  label byte-packing used by `getDataURL`.

Modelling conventions:

* JavaScript numbers are modelled by `ℚ` (exact rational arithmetic);
  typed-array indices by `ℕ`.  Where the code calls the transcendental
  library functions `Math.sqrt`, `Math.exp` and `Math.pow`, the embedding
  is parametrised by an abstract function (`sqrtQ`, `expQ`, ...): every
  theorem quantifying over such a parameter in particular covers the
  value computed by the JavaScript library functions.
* Mutable typed arrays become total functions `ℕ → _` updated with
  `Function.update`; only the indices below the stated length are ever
  relevant, matching the allocated array length in the source.
* Unbounded `while` loops become fuelled recursions whose fuel is large
  enough for every state reachable in the actual program (proved where a
  claim depends on it).
-/

namespace JsSeg

/-! ### Label compaction

`remapLabels` (identical in slic-segmentation.js, the SLIC source file and
pre-segmentation.js) renumbers the labels of an array into dense ids
`0, 1, 2, ...` in first-seen order and returns the number of distinct
labels.  The graph-based `createIndexMap` performs the same compaction on
the union-find roots; it is related to `remapLabels` later in this file. -/

/-- State of the `remapLabels` loop: the (partial) raw-label → dense-id
map, the next unused dense id, and the output list written so far. -/
structure RemapSt where
  map : ℕ → Option ℕ
  index : ℕ
  out : List ℕ

/-- One iteration of the `remapLabels` loop:
`if (map[label] === undefined) map[label] = index++; segmentation[i] = map[label];`. -/
def remapStep (st : RemapSt) (label : ℕ) : RemapSt :=
  match st.map label with
  | some v => { st with out := st.out ++ [v] }
  | none =>
    { map := Function.update st.map label (some st.index)
      index := st.index + 1
      out := st.out ++ [st.index] }

def remapInit : RemapSt := ⟨fun _ => none, 0, []⟩

/-- `remapLabels(segmentation)`: returns the rewritten label array and the
number of distinct labels (`index`). -/
def remapLabels (s : List ℕ) : List ℕ × ℕ :=
  let st := s.foldl remapStep remapInit
  (st.out, st.index)

theorem remapStep_some {st : RemapSt} {label v : ℕ} (h : st.map label = some v) :
    remapStep st label = { st with out := st.out ++ [v] } := by
  simp [remapStep, h]

theorem remapStep_none {st : RemapSt} {label : ℕ} (h : st.map label = none) :
    remapStep st label =
      { map := Function.update st.map label (some st.index)
        index := st.index + 1
        out := st.out ++ [st.index] } := by
  simp [remapStep, h]

/-- Loop invariant of `remapLabels` over the processed prefix. -/
structure RemapInv (st : RemapSt) (processed : List ℕ) : Prop where
  mem_iff : ∀ l, (st.map l).isSome ↔ l ∈ processed
  lt_index : ∀ l v, st.map l = some v → v < st.index
  inj : ∀ l l' v, st.map l = some v → st.map l' = some v → l = l'
  card_eq : st.index = processed.toFinset.card
  out_len : st.out.length = processed.length
  mem_out : ∀ v, v ∈ st.out ↔ v < st.index
  count_spec : ∀ v, st.out.count v = processed.countP (fun l => st.map l = some v)
  headD_eq : st.out.headD 0 = 0

theorem remapInv_init : RemapInv remapInit [] := by
  constructor <;> simp [remapInit]

theorem remapInv_step {st : RemapSt} {processed : List ℕ}
    (h : RemapInv st processed) (label : ℕ) :
    RemapInv (remapStep st label) (processed ++ [label]) := by
  rcases hm : st.map label with _ | v
  · -- first occurrence of `label`
    have hnotmem : label ∉ processed := by
      intro hmem
      have := (h.mem_iff label).mpr hmem
      rw [hm] at this
      simp at this
    rw [remapStep_none hm]
    constructor
    · intro l
      by_cases hl : l = label
      · subst hl
        simp [Function.update_same]
      · simp [Function.update_noteq hl, h.mem_iff l, hl]
    · intro l v hv
      simp only at hv ⊢
      by_cases hl : l = label
      · subst hl
        rw [Function.update_same] at hv
        simp only [Option.some.injEq] at hv
        omega
      · rw [Function.update_noteq hl] at hv
        have := h.lt_index l v hv
        omega
    · intro l l' v hv hv'
      simp only at hv hv'
      by_cases hl : l = label <;> by_cases hl' : l' = label
      · rw [hl, hl']
      · subst hl
        rw [Function.update_same] at hv
        rw [Function.update_noteq hl'] at hv'
        have := h.lt_index l' v hv'
        simp only [Option.some.injEq] at hv
        omega
      · subst hl'
        rw [Function.update_same] at hv'
        rw [Function.update_noteq hl] at hv
        have := h.lt_index l v hv
        simp only [Option.some.injEq] at hv'
        omega
      · rw [Function.update_noteq hl] at hv
        rw [Function.update_noteq hl'] at hv'
        exact h.inj l l' v hv hv'
    · simp only [List.toFinset_append, List.toFinset_cons, List.toFinset_nil]
      rw [Finset.union_comm, Finset.insert_union, Finset.empty_union]
      rw [Finset.card_insert_of_not_mem (by simp [hnotmem])]
      simp only [h.card_eq]
    · simp [h.out_len]
    · intro v
      simp only [List.mem_append, List.mem_singleton, h.mem_out v]
      omega
    · intro v
      simp only [List.count_append, List.countP_append]
      have hfilter : processed.countP
          (fun l => Function.update st.map label (some st.index) l = some v)
          = processed.countP (fun l => st.map l = some v) := by
        apply List.countP_congr
        intro l hl
        have hll : l ≠ label := fun hc => hnotmem (hc ▸ hl)
        rw [Function.update_noteq hll]
      rw [hfilter]
      by_cases hv : v = st.index
      · subst hv
        have h0 : st.out.count st.index = 0 := by
          rw [List.count_eq_zero]
          intro hmem
          exact absurd ((h.mem_out _).mp hmem) (lt_irrefl _)
        have h1 : processed.countP (fun l => st.map l = some st.index) = 0 := by
          rw [List.countP_eq_zero]
          intro l _
          simp only [decide_eq_true_eq]
          intro hc
          exact absurd (h.lt_index l _ hc) (lt_irrefl _)
        rw [h0, h1]
        simp [List.count_singleton, Function.update_same]
      · rw [h.count_spec v]
        have h2 : List.count v [st.index] = 0 := by
          simp [List.count_singleton, hv]
        have h3 : List.countP
            (fun l => Function.update st.map label (some st.index) l = some v) [label] = 0 := by
          simp only [List.countP_cons, List.countP_nil, Function.update_same,
            Option.some.injEq, Nat.zero_add]
          simp only [decide_eq_true_eq]
          split
          · omega
          · rfl
        rw [h2, h3]
    · rcases ho : st.out with _ | ⟨x, xs⟩
      · have hlen : processed.length = 0 := by rw [← h.out_len, ho]; rfl
        have hp0 : processed = [] := List.length_eq_zero.mp hlen
        have hi0 : st.index = 0 := by rw [h.card_eq, hp0]; rfl
        simp [ho, hi0]
      · have hh := h.headD_eq
        rw [ho] at hh
        simp only [List.headD_cons] at hh
        simp [ho, hh]
  · -- `label` has already been assigned dense id `v`
    have hmem : label ∈ processed := (h.mem_iff label).mp (by simp [hm])
    rw [remapStep_some hm]
    constructor
    · intro l
      simp only [h.mem_iff l, List.mem_append, List.mem_singleton]
      constructor
      · exact fun hl => Or.inl hl
      · rintro (hl | hl)
        · exact hl
        · subst hl; exact hmem
    · intro l w hw
      exact h.lt_index l w hw
    · intro l l' w hw hw'
      exact h.inj l l' w hw hw'
    · simp only [List.toFinset_append, List.toFinset_cons, List.toFinset_nil]
      rw [Finset.union_comm, Finset.insert_union, Finset.empty_union]
      rw [h.card_eq]
      congr 1
      exact (Finset.insert_eq_self.mpr (by simp [hmem])).symm
    · simp [h.out_len]
    · intro w
      simp only [List.mem_append, List.mem_singleton, h.mem_out w]
      constructor
      · rintro (hw | hw)
        · exact hw
        · subst hw; exact h.lt_index label w hm
      · exact fun hw => Or.inl hw
    · intro w
      simp only [List.count_append, List.countP_append, h.count_spec w]
      congr 1
      simp only [List.countP_cons, List.countP_nil, hm, Option.some.injEq, Nat.zero_add,
        List.count_cons, List.count_nil, beq_iff_eq, decide_eq_true_eq]
    · rcases ho : st.out with _ | ⟨x, xs⟩
      · have hlen : processed.length = 0 := by rw [← h.out_len, ho]; rfl
        have hp0 : processed = [] := List.length_eq_zero.mp hlen
        rw [hp0] at hmem
        simp at hmem
      · have hh := h.headD_eq
        rw [ho] at hh
        simp only [List.headD_cons] at hh
        simp [ho, hh]

theorem remapInv_fold (s : List ℕ) :
    RemapInv (s.foldl remapStep remapInit) s := by
  suffices h : ∀ (pre : List ℕ) (st : RemapSt), RemapInv st pre →
      RemapInv (s.foldl remapStep st) (pre ++ s) by
    simpa using h [] remapInit remapInv_init
  induction s with
  | nil => intro pre st hst; simpa using hst
  | cons x xs ih =>
    intro pre st hst
    have := ih (pre ++ [x]) (remapStep st x) (remapInv_step hst x)
    simpa using this

/-! ### Disjoint-set forest

Embedding of `createUniverse`, `findNode`, `joinNode` from the graph-based
segmenter.  The typed arrays `rank`, `p`, `size`, `threshold` become total
functions; `nodes` is the live-component counter. -/

structure Univ where
  n : ℕ
  nodes : ℕ
  rank : ℕ → ℕ
  p : ℕ → ℕ
  size : ℕ → ℕ
  threshold : ℕ → ℚ

/-- `createUniverse(nodes, c)`: every node is its own parent with rank 0,
size 1 and threshold `c`. -/
def createUniverse (n : ℕ) (c : ℚ) : Univ :=
  { n := n, nodes := n, rank := fun _ => 0, p := fun i => i
    size := fun _ => 1, threshold := fun _ => c }

/-- The `while (i !== universe.p[i]) i = universe.p[i];` loop of `findNode`,
with explicit fuel.  In every reachable universe a fuel of `n` reaches the
root (proved below). -/
def findLoop (p : ℕ → ℕ) : ℕ → ℕ → ℕ
  | 0, i => i
  | fuel + 1, i => if p i = i then i else findLoop p fuel (p i)

/-- The root that `findNode` computes for `x` (before path compression). -/
def rootOf (u : Univ) (x : ℕ) : ℕ := findLoop u.p u.n x

/-- `findNode(universe, index)`: walks to the root, then writes
`universe.p[index] = root` (one-step path compression) and returns the root. -/
def findNode (u : Univ) (x : ℕ) : Univ × ℕ :=
  let r := rootOf u x
  ({ u with p := Function.update u.p x r }, r)

/-- `joinNode(universe, a, b)`: union by rank, accumulating `size` into the
winning root and decrementing the live-node counter. -/
def joinNode (u : Univ) (a b : ℕ) : Univ :=
  if u.rank b < u.rank a then
    { u with p := Function.update u.p b a
             size := Function.update u.size a (u.size a + u.size b)
             nodes := u.nodes - 1 }
  else
    { u with p := Function.update u.p a b
             size := Function.update u.size b (u.size b + u.size a)
             rank := if u.rank a = u.rank b
                     then Function.update u.rank b (u.rank b + 1) else u.rank
             nodes := u.nodes - 1 }

def isRoot (u : Univ) (r : ℕ) : Prop := u.p r = r

/-- The pixels whose root is `r`. -/
def classOf (u : Univ) (r : ℕ) : Finset ℕ :=
  (Finset.range u.n).filter (fun i => rootOf u i = r)

/-- The set of roots. -/
def rootsSet (u : Univ) : Finset ℕ :=
  (Finset.range u.n).filter (fun i => u.p i = i)

/-- Invariant of the disjoint-set forest: parent pointers stay in range,
ranks strictly increase towards the root (so every chain terminates),
ranks are bounded, the `size` of a root counts its class exactly, and the
`nodes` counter equals the number of roots. -/
structure UnivInv (u : Univ) : Prop where
  p_lt : ∀ i, i < u.n → u.p i < u.n
  rank_lt : ∀ i, i < u.n → u.p i ≠ i → u.rank i < u.rank (u.p i)
  rank_lt_n : ∀ i, i < u.n → u.rank i < u.n
  rank_size : ∀ r, r < u.n → u.p r = r → u.rank r < u.size r
  size_eq : ∀ r, r < u.n → u.p r = r → u.size r = (classOf u r).card
  nodes_eq : u.nodes = (rootsSet u).card

theorem findLoop_fix {p : ℕ → ℕ} {r : ℕ} (h : p r = r) :
    ∀ fuel, findLoop p fuel r = r := by
  intro fuel
  induction fuel with
  | zero => rfl
  | succ f _ => simp [findLoop, h]

/-- With fuel at least `n - rank x`, `findLoop` reaches a genuine root, and
ranks do not decrease along the walk. -/
theorem findLoop_spec {p rank : ℕ → ℕ} {n : ℕ}
    (hp : ∀ i, i < n → p i < n)
    (hr : ∀ i, i < n → p i ≠ i → rank i < rank (p i))
    (hn : ∀ i, i < n → rank i < n) :
    ∀ fuel x, x < n → n ≤ fuel + rank x →
      findLoop p fuel x < n ∧ p (findLoop p fuel x) = findLoop p fuel x ∧
      rank x ≤ rank (findLoop p fuel x) ∧
      (p x ≠ x → rank x < rank (findLoop p fuel x)) := by
  intro fuel
  induction fuel with
  | zero =>
    intro x hx hfuel
    exact absurd (hn x hx) (by omega)
  | succ f ih =>
    intro x hx hfuel
    by_cases hroot : p x = x
    · refine ⟨?_, ?_, ?_, ?_⟩ <;> simp [findLoop, hroot, hx]
    · have hpx : p x < n := hp x hx
      have hrx : rank x < rank (p x) := hr x hx hroot
      obtain ⟨c1, c2, c3, _⟩ := ih (p x) hpx (by omega)
      simp only [findLoop, hroot, if_false]
      exact ⟨c1, c2, by omega, fun _ => by omega⟩

theorem findLoop_fuel_irrel {p rank : ℕ → ℕ} {n : ℕ}
    (hp : ∀ i, i < n → p i < n)
    (hr : ∀ i, i < n → p i ≠ i → rank i < rank (p i))
    (hn : ∀ i, i < n → rank i < n) :
    ∀ fuel fuel' x, x < n → n ≤ fuel + rank x → n ≤ fuel' + rank x →
      findLoop p fuel x = findLoop p fuel' x := by
  intro fuel
  induction fuel with
  | zero =>
    intro fuel' x hx h1 _
    exact absurd (hn x hx) (by omega)
  | succ f ih =>
    intro fuel' x hx h1 h2
    cases fuel' with
    | zero => exact absurd (hn x hx) (by omega)
    | succ f' =>
      by_cases hroot : p x = x
      · simp [findLoop, hroot]
      · have hpx : p x < n := hp x hx
        have hrx : rank x < rank (p x) := hr x hx hroot
        simp only [findLoop, hroot, if_false]
        exact ih f' (p x) hpx (by omega) (by omega)

theorem findLoop_step {p rank : ℕ → ℕ} {n : ℕ}
    (hp : ∀ i, i < n → p i < n)
    (hr : ∀ i, i < n → p i ≠ i → rank i < rank (p i))
    (hn : ∀ i, i < n → rank i < n)
    {x : ℕ} (hx : x < n) (hroot : p x ≠ x) :
    findLoop p n x = findLoop p n (p x) := by
  have hpos : n ≠ 0 := by omega
  obtain ⟨m, hm⟩ : ∃ m, n = m + 1 := ⟨n - 1, by omega⟩
  have h1 : findLoop p n x = findLoop p m (p x) := by
    rw [hm]
    simp [findLoop, hroot]
  rw [h1]
  have hrx : rank x < rank (p x) := hr x hx hroot
  exact findLoop_fuel_irrel hp hr hn m n (p x) (hp x hx) (by omega) (by omega)

theorem rootOf_spec {u : Univ} (h : UnivInv u) {x : ℕ} (hx : x < u.n) :
    rootOf u x < u.n ∧ u.p (rootOf u x) = rootOf u x ∧
    u.rank x ≤ u.rank (rootOf u x) ∧
    (u.p x ≠ x → u.rank x < u.rank (rootOf u x)) :=
  findLoop_spec h.p_lt h.rank_lt h.rank_lt_n u.n x hx (by omega)

theorem rootOf_root {u : Univ} {r : ℕ} (h : u.p r = r) : rootOf u r = r :=
  findLoop_fix h u.n

theorem rootOf_of_ne {u : Univ} (h : UnivInv u) {x : ℕ} (hx : x < u.n)
    (hroot : u.p x ≠ x) : rootOf u x = rootOf u (u.p x) :=
  findLoop_step h.p_lt h.rank_lt h.rank_lt_n hx hroot

/-- Membership in a per-root class. -/
theorem mem_classOf {u : Univ} {r i : ℕ} :
    i ∈ classOf u r ↔ i < u.n ∧ rootOf u i = r := by
  simp [classOf]

theorem root_mem_classOf {u : Univ} {r : ℕ} (hr : r < u.n) (h : u.p r = r) :
    r ∈ classOf u r := mem_classOf.mpr ⟨hr, rootOf_root h⟩

theorem mem_rootsSet {u : Univ} {r : ℕ} :
    r ∈ rootsSet u ↔ r < u.n ∧ u.p r = r := by
  simp [rootsSet]

theorem rootOf_of_ne_fields {u : Univ}
    (hp : ∀ i, i < u.n → u.p i < u.n)
    (hr : ∀ i, i < u.n → u.p i ≠ i → u.rank i < u.rank (u.p i))
    (hn : ∀ i, i < u.n → u.rank i < u.n)
    {x : ℕ} (hx : x < u.n) (hroot : u.p x ≠ x) :
    rootOf u x = rootOf u (u.p x) := by
  unfold rootOf
  exact findLoop_step hp hr hn hx hroot

/-- The universe written by `findNode`'s path compression. -/
def compressAt (u : Univ) (x : ℕ) : Univ :=
  { u with p := Function.update u.p x (rootOf u x) }

theorem findNode_eq (u : Univ) (x : ℕ) :
    findNode u x = (compressAt u x, rootOf u x) := rfl

theorem compressAt_root_iff {u : Univ} (h : UnivInv u) {x : ℕ} (hx : x < u.n) :
    ∀ z, (compressAt u x).p z = z ↔ u.p z = z := by
  obtain ⟨hrlt, hrroot, _, hrstrict⟩ := rootOf_spec h hx
  intro z
  by_cases hz : z = x
  · subst hz
    by_cases hpz : u.p z = z
    · have hrz : rootOf u z = z := rootOf_root hpz
      simp [compressAt, Function.update_same, hrz, hpz]
    · have hne : rootOf u z ≠ z := by
        intro hc
        rw [hc] at hrroot
        exact hpz hrroot
      simp [compressAt, Function.update_same, hne, hpz]
  · simp [compressAt, Function.update_noteq hz]

theorem compressAt_fields {u : Univ} (h : UnivInv u) {x : ℕ} (hx : x < u.n) :
    (∀ i, i < u.n → (compressAt u x).p i < u.n) ∧
    (∀ i, i < u.n → (compressAt u x).p i ≠ i →
      u.rank i < u.rank ((compressAt u x).p i)) ∧
    (∀ i, i < u.n → u.rank i < u.n) := by
  obtain ⟨hrlt, hrroot, _, hrstrict⟩ := rootOf_spec h hx
  refine ⟨?_, ?_, h.rank_lt_n⟩
  · intro i hi
    by_cases hix : i = x
    · subst hix; simpa [compressAt, Function.update_same] using hrlt
    · simpa [compressAt, Function.update_noteq hix] using h.p_lt i hi
  · intro i hi hne
    by_cases hix : i = x
    · subst hix
      have hcp : (compressAt u i).p i = rootOf u i := by
        simp [compressAt, Function.update_same]
      rw [hcp]
      apply hrstrict
      intro hc
      exact hne (((compressAt_root_iff h hx) i).mpr hc)
    · have hcp : (compressAt u x).p i = u.p i := by
        simp [compressAt, Function.update_noteq hix]
      rw [hcp]
      exact h.rank_lt i hi (by rwa [hcp] at hne)

/-- Path compression at one node does not change any root. -/
theorem compress_rootOf {u : Univ} (h : UnivInv u) {x : ℕ} (hx : x < u.n) :
    ∀ y, y < u.n → rootOf (compressAt u x) y = rootOf u y := by
  obtain ⟨hrlt, hrroot, _, hrstrict⟩ := rootOf_spec h hx
  obtain ⟨hp_lt, hrank_lt, hrank_n⟩ := compressAt_fields h hx
  have hroot_iff := compressAt_root_iff h hx
  suffices H : ∀ k y, y < u.n → u.n - u.rank y ≤ k →
      rootOf (compressAt u x) y = rootOf u y by
    intro y hy
    exact H u.n y hy (by omega)
  intro k
  induction k with
  | zero =>
    intro y hy hk
    exact absurd (h.rank_lt_n y hy) (by omega)
  | succ k ih =>
    intro y hy hk
    by_cases hyroot : u.p y = y
    · rw [rootOf_root ((hroot_iff y).mpr hyroot), rootOf_root hyroot]
    · have hcne : (compressAt u x).p y ≠ y := by
        intro hc
        exact hyroot ((hroot_iff y).mp hc)
      have hstep : rootOf (compressAt u x) y =
          rootOf (compressAt u x) ((compressAt u x).p y) :=
        rootOf_of_ne_fields (u := compressAt u x) hp_lt hrank_lt hrank_n hy hcne
      by_cases hyx : y = x
      · subst hyx
        have hcp : (compressAt u y).p y = rootOf u y := by
          simp [compressAt, Function.update_same]
        rw [hstep, hcp]
        exact rootOf_root ((hroot_iff (rootOf u y)).mpr hrroot)
      · have hcp : (compressAt u x).p y = u.p y := by
          simp [compressAt, Function.update_noteq hyx]
        rw [hstep, hcp]
        have h4 : rootOf u y = rootOf u (u.p y) := rootOf_of_ne h hy hyroot
        rw [h4]
        have h5 : u.p y < u.n := h.p_lt y hy
        have h6 : u.rank y < u.rank (u.p y) := h.rank_lt y hy hyroot
        exact ih (u.p y) h5 (by omega)

/-- Path compression preserves the whole invariant, and `findNode` changes
no component, no size, no rank, no threshold and not the node counter. -/
theorem compressAt_inv {u : Univ} (h : UnivInv u) {x : ℕ} (hx : x < u.n) :
    UnivInv (compressAt u x) := by
  obtain ⟨hp_lt, hrank_lt, hrank_n⟩ := compressAt_fields h hx
  have hroot_iff := compressAt_root_iff h hx
  have hroots : ∀ y, y < u.n → rootOf (compressAt u x) y = rootOf u y :=
    compress_rootOf h hx
  have hclass : ∀ r, classOf (compressAt u x) r = classOf u r := by
    intro r
    apply Finset.ext
    intro i
    simp only [mem_classOf]
    show (i < u.n ∧ _) ↔ (i < u.n ∧ _)
    constructor
    · rintro ⟨hi, hroot⟩
      exact ⟨hi, by rw [← hroots i hi]; exact hroot⟩
    · rintro ⟨hi, hroot⟩
      exact ⟨hi, by rw [hroots i hi]; exact hroot⟩
  have hrset : rootsSet (compressAt u x) = rootsSet u := by
    apply Finset.ext
    intro i
    simp only [mem_rootsSet]
    show (i < u.n ∧ _) ↔ (i < u.n ∧ _)
    rw [hroot_iff i]
  exact
    { p_lt := hp_lt
      rank_lt := hrank_lt
      rank_lt_n := hrank_n
      rank_size := fun r hr hroot => h.rank_size r hr ((hroot_iff r).mp hroot)
      size_eq := fun r hr hroot => by
        rw [hclass r]; exact h.size_eq r hr ((hroot_iff r).mp hroot)
      nodes_eq := by rw [hrset]; exact h.nodes_eq }

/-- Winner of `joinNode(u, a, b)`: the root that absorbs the other. -/
def joinWinner (u : Univ) (a b : ℕ) : ℕ := if u.rank b < u.rank a then a else b

/-- Loser of `joinNode(u, a, b)`: the root attached below the winner. -/
def joinLoser (u : Univ) (a b : ℕ) : ℕ := if u.rank b < u.rank a then b else a

theorem joinNode_p (u : Univ) (a b : ℕ) :
    (joinNode u a b).p = Function.update u.p (joinLoser u a b) (joinWinner u a b) := by
  unfold joinNode joinWinner joinLoser
  split <;> rfl

theorem joinNode_n (u : Univ) (a b : ℕ) : (joinNode u a b).n = u.n := by
  unfold joinNode; split <;> rfl

theorem joinNode_nodes (u : Univ) (a b : ℕ) : (joinNode u a b).nodes = u.nodes - 1 := by
  unfold joinNode; split <;> rfl

theorem joinNode_threshold (u : Univ) (a b : ℕ) :
    (joinNode u a b).threshold = u.threshold := by
  unfold joinNode; split <;> rfl

theorem joinNode_size (u : Univ) (a b : ℕ) :
    (joinNode u a b).size =
      Function.update u.size (joinWinner u a b) (u.size a + u.size b) := by
  unfold joinNode joinWinner
  split
  · rfl
  · have : u.size b + u.size a = u.size a + u.size b := Nat.add_comm _ _
    rw [this]

theorem joinNode_rank (u : Univ) (a b : ℕ) (hab : a ≠ b) :
    (joinNode u a b).rank =
      if u.rank a = u.rank b
      then Function.update u.rank b (u.rank b + 1) else u.rank := by
  unfold joinNode
  split
  · have : ¬ u.rank a = u.rank b := by omega
    simp [this]
  · rfl

theorem joinNode_rank_of_ne (u : Univ) (a b z : ℕ) (hab : a ≠ b) (hzb : z ≠ b) :
    (joinNode u a b).rank z = u.rank z := by
  rw [joinNode_rank u a b hab]
  split
  · rw [Function.update_noteq hzb]
  · rfl

theorem joinNode_rank_ge (u : Univ) (a b z : ℕ) (hab : a ≠ b) :
    u.rank z ≤ (joinNode u a b).rank z := by
  rw [joinNode_rank u a b hab]
  split
  · by_cases hzb : z = b
    · subst hzb; rw [Function.update_same]; omega
    · rw [Function.update_noteq hzb]
  · exact le_refl _

/-- Re-pointing a root `l` at another root `w` re-labels every `l`-rooted
node to `w` and leaves all other roots alone.  The rank hypotheses on `u'`
are supplied by the caller (they differ between the two `joinNode`
branches). -/
theorem attach_rootOf {u u' : Univ} (h : UnivInv u) {l w : ℕ}
    (hl : l < u.n) (hw : w < u.n) (hlw : l ≠ w)
    (hul : u.p l = l) (huw : u.p w = w)
    (hN : u'.n = u.n)
    (hP : u'.p = Function.update u.p l w)
    (hp' : ∀ i, i < u'.n → u'.p i < u'.n)
    (hr' : ∀ i, i < u'.n → u'.p i ≠ i → u'.rank i < u'.rank (u'.p i))
    (hn' : ∀ i, i < u'.n → u'.rank i < u'.n) :
    ∀ y, y < u.n → rootOf u' y = if rootOf u y = l then w else rootOf u y := by
  suffices H : ∀ k y, y < u.n → u.n - u'.rank y ≤ k →
      rootOf u' y = if rootOf u y = l then w else rootOf u y by
    intro y hy
    exact H u.n y hy (by omega)
  intro k
  induction k with
  | zero =>
    intro y hy hk
    have hy' : y < u'.n := by rw [hN]; exact hy
    have := hn' y hy'
    rw [hN] at this
    omega
  | succ k ih =>
    intro y hy hk
    have hy' : y < u'.n := by rw [hN]; exact hy
    by_cases hyroot : u.p y = y
    · by_cases hyl : y = l
      · subst hyl
        have h1 : u'.p y = w := by rw [hP, Function.update_same]
        have h2 : u'.p y ≠ y := by rw [h1]; exact Ne.symm hlw
        have h3 : rootOf u' y = rootOf u' (u'.p y) :=
          rootOf_of_ne_fields (u := u') hp' hr' hn' hy' h2
        have h4 : u'.p w = w := by
          rw [hP, Function.update_noteq (Ne.symm hlw)]; exact huw
        rw [h3, h1, rootOf_root h4, rootOf_root hyroot]
        simp
      · have h1 : u'.p y = y := by rw [hP, Function.update_noteq hyl]; exact hyroot
        rw [rootOf_root h1, rootOf_root hyroot]
        simp [hyl]
    · have hyl : y ≠ l := fun hc => hyroot (hc ▸ hul)
      have h1 : u'.p y = u.p y := by rw [hP, Function.update_noteq hyl]
      have h2 : u'.p y ≠ y := by rw [h1]; exact hyroot
      have h3 : rootOf u' y = rootOf u' (u.p y) := by
        have := rootOf_of_ne_fields (u := u') hp' hr' hn' hy' h2
        rwa [h1] at this
      have h4 : rootOf u y = rootOf u (u.p y) := rootOf_of_ne h hy hyroot
      have h5 : u.p y < u.n := h.p_lt y hy
      have h6 : u'.rank y < u'.rank (u'.p y) := hr' y hy' h2
      rw [h3, h4]
      apply ih (u.p y) h5
      rw [h1] at h6
      omega

theorem joinWinner_cases (u : Univ) (a b : ℕ) :
    joinWinner u a b = a ∨ joinWinner u a b = b := by
  unfold joinWinner; split <;> simp

theorem joinLoser_cases (u : Univ) (a b : ℕ) :
    joinLoser u a b = b ∨ joinLoser u a b = a := by
  unfold joinLoser; split <;> simp

theorem joinWinner_ne_loser (u : Univ) {a b : ℕ} (hab : a ≠ b) :
    joinWinner u a b ≠ joinLoser u a b := by
  unfold joinWinner joinLoser
  split <;> simp [hab, Ne.symm hab]

theorem join_rank_loser_lt (u : Univ) {a b : ℕ} (hab : a ≠ b) :
    (joinNode u a b).rank (joinLoser u a b) < (joinNode u a b).rank (joinWinner u a b) := by
  rw [joinNode_rank u a b hab]
  unfold joinWinner joinLoser
  by_cases hcase : u.rank b < u.rank a
  · simp only [hcase, if_true]
    have hne : ¬ u.rank a = u.rank b := by omega
    simp only [hne, if_false]
    exact hcase
  · simp only [hcase, if_false]
    by_cases heq : u.rank a = u.rank b
    · simp only [heq, if_true]
      rw [Function.update_noteq hab, Function.update_same]
      omega
    · simp only [heq, if_false]
      omega

theorem join_fields {u : Univ} (h : UnivInv u) {a b : ℕ}
    (ha : a < u.n) (hb : b < u.n) (hra : u.p a = a) (hrb : u.p b = b) (hab : a ≠ b) :
    (∀ i, i < (joinNode u a b).n → (joinNode u a b).p i < (joinNode u a b).n) ∧
    (∀ i, i < (joinNode u a b).n → (joinNode u a b).p i ≠ i →
      (joinNode u a b).rank i < (joinNode u a b).rank ((joinNode u a b).p i)) ∧
    (∀ i, i < (joinNode u a b).n → (joinNode u a b).rank i < (joinNode u a b).n) := by
  have hwl := joinWinner_ne_loser u hab
  have hclassb : (classOf u b).card < u.n := by
    rw [← Finset.card_range u.n]
    apply Finset.card_lt_card
    constructor
    · intro i hi
      exact Finset.mem_range.mpr (mem_classOf.mp hi).1
    · intro hsub
      have hmem : a ∈ classOf u b := hsub (Finset.mem_range.mpr ha)
      have := (mem_classOf.mp hmem).2
      rw [rootOf_root hra] at this
      exact hab this
  refine ⟨?_, ?_, ?_⟩
  · intro i hi
    rw [joinNode_n] at hi ⊢
    rw [joinNode_p]
    by_cases hil : i = joinLoser u a b
    · subst hil
      rw [Function.update_same]
      rcases joinWinner_cases u a b with hc | hc <;> rw [hc] <;> assumption
    · rw [Function.update_noteq hil]
      exact h.p_lt i hi
  · intro i hi hne
    rw [joinNode_n] at hi
    rw [joinNode_p] at hne ⊢
    by_cases hil : i = joinLoser u a b
    · subst hil
      rw [Function.update_same] at hne ⊢
      exact join_rank_loser_lt u hab
    · rw [Function.update_noteq hil] at hne ⊢
      have h1 := h.rank_lt i hi hne
      have h2 : (joinNode u a b).rank i = u.rank i := by
        apply joinNode_rank_of_ne u a b i hab
        intro hib
        rcases joinLoser_cases u a b with hc | hc
        · exact hil (hib.trans hc.symm)
        · exact hne (by rw [hib]; exact hrb)
      rw [h2]
      calc u.rank i < u.rank (u.p i) := h1
        _ ≤ (joinNode u a b).rank (u.p i) := joinNode_rank_ge u a b _ hab
  · intro i hi
    rw [joinNode_n] at hi ⊢
    rw [joinNode_rank u a b hab]
    split
    · by_cases hib : i = b
      · subst hib
        rw [Function.update_same]
        have h1 := h.rank_size i hi hrb
        have h2 := h.size_eq i hi hrb
        omega
      · rw [Function.update_noteq hib]
        exact h.rank_lt_n i hi
    · exact h.rank_lt_n i hi

/-- After `joinNode` on two distinct roots, every node rooted at the loser
is re-rooted at the winner and all other components are untouched. -/
theorem join_rootOf {u : Univ} (h : UnivInv u) {a b : ℕ}
    (ha : a < u.n) (hb : b < u.n) (hra : u.p a = a) (hrb : u.p b = b) (hab : a ≠ b) :
    ∀ y, y < u.n → rootOf (joinNode u a b) y =
      if rootOf u y = joinLoser u a b then joinWinner u a b else rootOf u y := by
  have hl : joinLoser u a b < u.n := by
    rcases joinLoser_cases u a b with hc | hc <;> rw [hc] <;> assumption
  have hw : joinWinner u a b < u.n := by
    rcases joinWinner_cases u a b with hc | hc <;> rw [hc] <;> assumption
  have hlw : joinLoser u a b ≠ joinWinner u a b := Ne.symm (joinWinner_ne_loser u hab)
  have hul : u.p (joinLoser u a b) = joinLoser u a b := by
    rcases joinLoser_cases u a b with hc | hc <;> rw [hc] <;> assumption
  have huw : u.p (joinWinner u a b) = joinWinner u a b := by
    rcases joinWinner_cases u a b with hc | hc <;> rw [hc] <;> assumption
  obtain ⟨hp', hr', hn'⟩ := join_fields h ha hb hra hrb hab
  exact attach_rootOf h hl hw hlw hul huw (joinNode_n u a b) (joinNode_p u a b)
    hp' hr' hn'

theorem join_root_iff {u : Univ} {a b : ℕ} (hab : a ≠ b) :
    ∀ z, (joinNode u a b).p z = z ↔ (u.p z = z ∧ z ≠ joinLoser u a b) := by
  intro z
  rw [joinNode_p]
  by_cases hz : z = joinLoser u a b
  · subst hz
    rw [Function.update_same]
    constructor
    · intro hc
      exact absurd hc (joinWinner_ne_loser u hab)
    · rintro ⟨_, hc⟩
      exact absurd rfl hc
  · rw [Function.update_noteq hz]
    simp [hz]

theorem join_rootsSet {u : Univ} {a b : ℕ} (hab : a ≠ b) :
    rootsSet (joinNode u a b) = (rootsSet u).erase (joinLoser u a b) := by
  ext i
  simp only [mem_rootsSet, Finset.mem_erase, joinNode_n]
  rw [join_root_iff hab i]
  tauto

theorem loser_mem_rootsSet {u : Univ} {a b : ℕ}
    (ha : a < u.n) (hb : b < u.n) (hra : u.p a = a) (hrb : u.p b = b) :
    joinLoser u a b ∈ rootsSet u := by
  rcases joinLoser_cases u a b with hc | hc <;>
    (rw [hc]; exact mem_rootsSet.mpr ⟨by assumption, by assumption⟩)

theorem size_pos_of_root {u : Univ} (h : UnivInv u) {r : ℕ}
    (hr : r < u.n) (hroot : u.p r = r) : 1 ≤ u.size r := by
  rw [h.size_eq r hr hroot]
  exact Finset.card_pos.mpr ⟨r, root_mem_classOf hr hroot⟩

theorem join_classOf_winner {u : Univ} (h : UnivInv u) {a b : ℕ}
    (ha : a < u.n) (hb : b < u.n) (hra : u.p a = a) (hrb : u.p b = b) (hab : a ≠ b) :
    classOf (joinNode u a b) (joinWinner u a b) =
      classOf u (joinWinner u a b) ∪ classOf u (joinLoser u a b) := by
  have hroots := join_rootOf h ha hb hra hrb hab
  have hwl := joinWinner_ne_loser u hab
  ext i
  simp only [mem_classOf, Finset.mem_union, joinNode_n]
  constructor
  · rintro ⟨hi, hr⟩
    rw [hroots i hi] at hr
    by_cases hc : rootOf u i = joinLoser u a b
    · exact Or.inr ⟨hi, hc⟩
    · rw [if_neg hc] at hr
      exact Or.inl ⟨hi, hr⟩
  · rintro (⟨hi, hr⟩ | ⟨hi, hr⟩)
    · refine ⟨hi, ?_⟩
      rw [hroots i hi, hr]
      rw [if_neg hwl]
    · refine ⟨hi, ?_⟩
      rw [hroots i hi, hr]
      rw [if_pos rfl]

theorem join_classOf_other {u : Univ} (h : UnivInv u) {a b r : ℕ}
    (ha : a < u.n) (hb : b < u.n) (hra : u.p a = a) (hrb : u.p b = b) (hab : a ≠ b)
    (hrw : r ≠ joinWinner u a b) (hrl : r ≠ joinLoser u a b) :
    classOf (joinNode u a b) r = classOf u r := by
  have hroots := join_rootOf h ha hb hra hrb hab
  ext i
  simp only [mem_classOf, joinNode_n]
  constructor
  · rintro ⟨hi, hr⟩
    rw [hroots i hi] at hr
    by_cases hc : rootOf u i = joinLoser u a b
    · rw [if_pos hc] at hr
      exact absurd hr.symm hrw
    · rw [if_neg hc] at hr
      exact ⟨hi, hr⟩
  · rintro ⟨hi, hr⟩
    refine ⟨hi, ?_⟩
    rw [hroots i hi, hr]
    rw [if_neg hrl]

theorem join_class_disjoint {u : Univ} :
    ∀ r s : ℕ, r ≠ s → Disjoint (classOf u r) (classOf u s) := by
  intro r s hrs
  rw [Finset.disjoint_left]
  intro i hir his
  exact hrs ((mem_classOf.mp hir).2.symm.trans (mem_classOf.mp his).2)

theorem b_winner_or_loser (u : Univ) (a b : ℕ) :
    joinWinner u a b = b ∨ joinLoser u a b = b := by
  unfold joinWinner joinLoser
  split <;> simp

theorem winner_loser_size (u : Univ) (a b : ℕ) :
    u.size (joinWinner u a b) + u.size (joinLoser u a b) = u.size a + u.size b := by
  unfold joinWinner joinLoser
  split
  · rfl
  · exact Nat.add_comm _ _

/-- Full specification of `joinNode` on two distinct roots: the invariant is
preserved, the node counter drops by exactly one, and the winner absorbs the
sizes. -/
theorem joinNode_inv {u : Univ} (h : UnivInv u) {a b : ℕ}
    (ha : a < u.n) (hb : b < u.n) (hra : u.p a = a) (hrb : u.p b = b) (hab : a ≠ b) :
    UnivInv (joinNode u a b) ∧
    (joinNode u a b).nodes + 1 = u.nodes ∧
    (joinNode u a b).size (joinWinner u a b) = u.size a + u.size b := by
  have hwl := joinWinner_ne_loser u hab
  have hl : joinLoser u a b < u.n := by
    rcases joinLoser_cases u a b with hc | hc <;> rw [hc] <;> assumption
  have hw : joinWinner u a b < u.n := by
    rcases joinWinner_cases u a b with hc | hc <;> rw [hc] <;> assumption
  have hul : u.p (joinLoser u a b) = joinLoser u a b := by
    rcases joinLoser_cases u a b with hc | hc <;> rw [hc] <;> assumption
  have huw : u.p (joinWinner u a b) = joinWinner u a b := by
    rcases joinWinner_cases u a b with hc | hc <;> rw [hc] <;> assumption
  obtain ⟨hp', hr', hn'⟩ := join_fields h ha hb hra hrb hab
  have hsize : (joinNode u a b).size (joinWinner u a b) = u.size a + u.size b := by
    rw [joinNode_size, Function.update_same]
  have hnodes : (joinNode u a b).nodes + 1 = u.nodes := by
    rw [joinNode_nodes]
    have h1 : 1 ≤ u.nodes := by
      rw [h.nodes_eq]
      exact Finset.card_pos.mpr ⟨a, mem_rootsSet.mpr ⟨ha, hra⟩⟩
    omega
  have hsize_other : ∀ r, r ≠ joinWinner u a b → (joinNode u a b).size r = u.size r := by
    intro r hr
    rw [joinNode_size, Function.update_noteq hr]
  refine ⟨?_, hnodes, hsize⟩
  refine ⟨hp', hr', hn', ?_, ?_, ?_⟩
  · -- rank_size at roots of the joined universe
    intro r hrlt hroot
    rw [joinNode_n] at hrlt
    obtain ⟨hroot_u, hrneL⟩ := (join_root_iff hab r).mp hroot
    by_cases hrW : r = joinWinner u a b
    · subst hrW
      rw [hsize]
      rw [joinNode_rank u a b hab]
      have hsa := h.rank_size a ha hra
      have hsb := h.rank_size b hb hrb
      have hsa1 := size_pos_of_root h ha hra
      have hsb1 := size_pos_of_root h hb hrb
      split
      · have hwb : joinWinner u a b = b := by
          unfold joinWinner
          split
          · omega
          · rfl
        rw [hwb, Function.update_same]
        omega
      · rcases joinWinner_cases u a b with hc | hc <;> rw [hc] <;> omega
    · rw [hsize_other r hrW]
      have h2 : (joinNode u a b).rank r = u.rank r := by
        apply joinNode_rank_of_ne u a b r hab
        intro hc
        rcases b_winner_or_loser u a b with hd | hd
        · exact hrW (hc.trans hd.symm)
        · exact hrneL (hc.trans hd.symm)
      rw [h2]
      exact h.rank_size r hrlt hroot_u
  · -- size_eq at roots of the joined universe
    intro r hrlt hroot
    rw [joinNode_n] at hrlt
    obtain ⟨hroot_u, hrneL⟩ := (join_root_iff hab r).mp hroot
    by_cases hrW : r = joinWinner u a b
    · subst hrW
      rw [hsize, join_classOf_winner h ha hb hra hrb hab]
      rw [Finset.card_union_of_disjoint (join_class_disjoint _ _ hwl)]
      rw [← h.size_eq _ hw huw, ← h.size_eq _ hl hul]
      exact (winner_loser_size u a b).symm
    · rw [hsize_other r hrW, join_classOf_other h ha hb hra hrb hab hrW hrneL]
      exact h.size_eq r hrlt hroot_u
  · -- nodes counter equals the number of roots
    rw [joinNode_nodes, join_rootsSet hab]
    rw [Finset.card_erase_of_mem (loser_mem_rootsSet ha hb hra hrb)]
    rw [h.nodes_eq]

/-! ### The two passes of segmentGraph -/

/-- One edge of the pixel graph: endpoints `a`, `b` and float weight `w`. -/
structure Edge where
  a : ℕ
  b : ℕ
  w : ℚ
deriving DecidableEq

/-- `sortEdgesByWeights`: sort the edge list ascending by weight.  (The JS
comparator is `w[i] - w[j]`; for the claims only "some ascending-by-weight
ordering" matters, which any comparison sort produces.) -/
def sortEdges (E : List Edge) : List Edge :=
  E.insertionSort (fun e f => e.w ≤ f.w)

/-- One iteration of the bottom-up merge loop of `segmentGraph`. -/
def mergeStep (c : ℚ) (u : Univ) (e : Edge) : Univ :=
  let f1 := findNode u e.a
  let f2 := findNode f1.1 e.b
  let a := f1.2
  let b := f2.2
  let u2 := f2.1
  if a ≠ b ∧ e.w ≤ u2.threshold a ∧ e.w ≤ u2.threshold b then
    let u3 := joinNode u2 a b
    let f3 := findNode u3 a
    let u4 := f3.1
    let r := f3.2
    { u4 with threshold := Function.update u4.threshold r (e.w + c / (u4.size r : ℚ)) }
  else u2

/-- One iteration of the small-component cleanup loop of `segmentGraph`. -/
def smallStep (minSize : ℚ) (u : Univ) (e : Edge) : Univ :=
  let f1 := findNode u e.a
  let f2 := findNode f1.1 e.b
  let a := f1.2
  let b := f2.2
  let u2 := f2.1
  if a ≠ b ∧ (((u2.size a : ℚ) < minSize) ∨ ((u2.size b : ℚ) < minSize)) then
    joinNode u2 a b
  else u2

/-- `segmentGraph` on an abstract edge list over `n` nodes: sort the edges,
initialise the universe, run the merge pass then the cleanup pass. -/
def segmentGraphOn (n : ℕ) (E : List Edge) (c : ℚ) (minSize : ℚ) : Univ :=
  let es := sortEdges E
  let u0 := createUniverse n c
  let u1 := es.foldl (mergeStep c) u0
  es.foldl (smallStep minSize) u1

theorem createUniverse_inv (n : ℕ) (c : ℚ) : UnivInv (createUniverse n c) := by
  have hroot : ∀ i, rootOf (createUniverse n c) i = i := fun i => rootOf_root rfl
  constructor
  · intro i hi
    exact hi
  · intro i _ hne
    exact absurd rfl hne
  · intro i hi
    have hi' : i < n := hi
    show 0 < n
    omega
  · intro r _ _
    show 0 < 1
    omega
  · intro r hr _
    show 1 = _
    rw [show classOf (createUniverse n c) r = {r} from ?_]
    · rw [Finset.card_singleton]
    · ext i
      simp only [mem_classOf, hroot, Finset.mem_singleton]
      constructor
      · rintro ⟨_, hir⟩
        exact hir
      · rintro rfl
        exact ⟨hr, rfl⟩
  · show n = _
    rw [show rootsSet (createUniverse n c) = Finset.range n from ?_]
    · rw [Finset.card_range]
    · ext i
      simp [mem_rootsSet, createUniverse, Finset.mem_range]

/-- How a universe may change across segmentation steps: component labels
are renamed by some function (so components only merge, never split) and
the size recorded at a node's root never decreases. -/
structure Evolves (u v : Univ) : Prop where
  n_eq : v.n = u.n
  root_factor : ∃ f : ℕ → ℕ, ∀ y, y < u.n → rootOf v y = f (rootOf u y)
  size_mono : ∀ y, y < u.n → u.size (rootOf u y) ≤ v.size (rootOf v y)

theorem evolves_refl (u : Univ) : Evolves u u :=
  ⟨rfl, ⟨id, fun _ _ => rfl⟩, fun _ _ => le_refl _⟩

theorem evolves_trans {u v w : Univ} (h1 : Evolves u v) (h2 : Evolves v w) :
    Evolves u w := by
  obtain ⟨f, hf⟩ := h1.root_factor
  obtain ⟨g, hg⟩ := h2.root_factor
  refine ⟨h2.n_eq.trans h1.n_eq, ⟨g ∘ f, ?_⟩, ?_⟩
  · intro y hy
    have hy' : y < v.n := by rw [h1.n_eq]; exact hy
    rw [hg y hy', hf y hy]
    rfl
  · intro y hy
    have hy' : y < v.n := by rw [h1.n_eq]; exact hy
    exact le_trans (h1.size_mono y hy) (h2.size_mono y hy')

theorem evolves_same_root {u v : Univ} (h : Evolves u v) {x y : ℕ}
    (hx : x < u.n) (hy : y < u.n) (hxy : rootOf u x = rootOf u y) :
    rootOf v x = rootOf v y := by
  obtain ⟨f, hf⟩ := h.root_factor
  rw [hf x hx, hf y hy, hxy]

theorem compressAt_evolves {u : Univ} (h : UnivInv u) {x : ℕ} (hx : x < u.n) :
    Evolves u (compressAt u x) := by
  refine ⟨rfl, ⟨id, ?_⟩, ?_⟩
  · intro y hy
    rw [compress_rootOf h hx y hy]
    rfl
  · intro y hy
    rw [compress_rootOf h hx y hy]
    exact le_refl _

theorem joinNode_evolves {u : Univ} (h : UnivInv u) {a b : ℕ}
    (ha : a < u.n) (hb : b < u.n) (hra : u.p a = a) (hrb : u.p b = b) (hab : a ≠ b) :
    Evolves u (joinNode u a b) := by
  have hroots := join_rootOf h ha hb hra hrb hab
  obtain ⟨hinv, _, hsize⟩ := joinNode_inv h ha hb hra hrb hab
  have hsize_other : ∀ r, r ≠ joinWinner u a b → (joinNode u a b).size r = u.size r := by
    intro r hr
    rw [joinNode_size, Function.update_noteq hr]
  have hWL := winner_loser_size u a b
  refine ⟨joinNode_n u a b,
    ⟨fun z => if z = joinLoser u a b then joinWinner u a b else z, ?_⟩, ?_⟩
  · intro y hy
    exact hroots y hy
  · intro y hy
    rw [hroots y hy]
    by_cases hc : rootOf u y = joinLoser u a b
    · rw [if_pos hc, hsize, hc]
      omega
    · rw [if_neg hc]
      by_cases hw : rootOf u y = joinWinner u a b
      · rw [hw, hsize]
        omega
      · rw [hsize_other _ hw]

theorem thresholdSet_inv {u : Univ} (h : UnivInv u) (t : ℕ → ℚ) :
    UnivInv { u with threshold := t } :=
  ⟨h.p_lt, h.rank_lt, h.rank_lt_n, h.rank_size, h.size_eq, h.nodes_eq⟩

theorem thresholdSet_evolves (u : Univ) (t : ℕ → ℚ) :
    Evolves u { u with threshold := t } :=
  ⟨rfl, ⟨id, fun _ _ => rfl⟩, fun _ _ => le_refl _⟩

theorem mergeStep_eq (c : ℚ) (u : Univ) (e : Edge) :
    mergeStep c u e =
      (if rootOf u e.a ≠ rootOf (compressAt u e.a) e.b ∧
          e.w ≤ u.threshold (rootOf u e.a) ∧
          e.w ≤ u.threshold (rootOf (compressAt u e.a) e.b) then
        let u2 := compressAt (compressAt u e.a) e.b
        let u3 := joinNode u2 (rootOf u e.a) (rootOf (compressAt u e.a) e.b)
        let u4 := compressAt u3 (rootOf u e.a)
        let r := rootOf u3 (rootOf u e.a)
        { u4 with threshold := Function.update u4.threshold r (e.w + c / (u4.size r : ℚ)) }
      else compressAt (compressAt u e.a) e.b) := rfl

theorem smallStep_eq (m : ℚ) (u : Univ) (e : Edge) :
    smallStep m u e =
      (if rootOf u e.a ≠ rootOf (compressAt u e.a) e.b ∧
          (((u.size (rootOf u e.a) : ℚ) < m) ∨
           ((u.size (rootOf (compressAt u e.a) e.b) : ℚ) < m)) then
        joinNode (compressAt (compressAt u e.a) e.b)
          (rootOf u e.a) (rootOf (compressAt u e.a) e.b)
      else compressAt (compressAt u e.a) e.b) := rfl

/-- The Felzenszwalb merge predicate, exactly as the merge pass tests it:
distinct roots and weight within both adaptive thresholds. -/
def mergeCond (u : Univ) (e : Edge) : Prop :=
  rootOf u e.a ≠ rootOf u e.b ∧
  e.w ≤ u.threshold (rootOf u e.a) ∧ e.w ≤ u.threshold (rootOf u e.b)

instance (u : Univ) (e : Edge) : Decidable (mergeCond u e) := by
  unfold mergeCond
  infer_instance

/-- Full behaviour of one merge-pass iteration: a union happens exactly when
the merge predicate holds, and then the surviving root carries the combined
size and the refreshed threshold `w + c / size`. -/
theorem mergeStep_spec {u : Univ} (h : UnivInv u) (c : ℚ) {e : Edge}
    (hea : e.a < u.n) (heb : e.b < u.n) :
    UnivInv (mergeStep c u e) ∧ Evolves u (mergeStep c u e) ∧
    (mergeStep c u e).n = u.n ∧
    (mergeCond u e →
      (mergeStep c u e).nodes + 1 = u.nodes ∧
      ∃ r, (r = rootOf u e.a ∨ r = rootOf u e.b) ∧
        (mergeStep c u e).p r = r ∧
        (mergeStep c u e).size r = u.size (rootOf u e.a) + u.size (rootOf u e.b) ∧
        (mergeStep c u e).threshold r = e.w + c / (((mergeStep c u e).size r : ℚ)) ∧
        (∀ y, y < u.n → rootOf (mergeStep c u e) y =
          if rootOf u y = rootOf u e.a ∨ rootOf u y = rootOf u e.b
          then r else rootOf u y) ∧
        (∀ s, s ≠ r → (mergeStep c u e).threshold s = u.threshold s) ∧
        (∀ s, s ≠ r → (mergeStep c u e).size s = u.size s)) ∧
    (¬ mergeCond u e →
      (mergeStep c u e).nodes = u.nodes ∧ (mergeStep c u e).size = u.size ∧
      (mergeStep c u e).threshold = u.threshold ∧
      (∀ y, y < u.n → rootOf (mergeStep c u e) y = rootOf u y)) := by
  have h1 : UnivInv (compressAt u e.a) := compressAt_inv h hea
  have hr1 : ∀ y, y < u.n → rootOf (compressAt u e.a) y = rootOf u y :=
    compress_rootOf h hea
  have h2 : UnivInv (compressAt (compressAt u e.a) e.b) := compressAt_inv h1 heb
  have hr2 : ∀ y, y < u.n →
      rootOf (compressAt (compressAt u e.a) e.b) y = rootOf u y := by
    intro y hy
    rw [compress_rootOf h1 heb y hy, hr1 y hy]
  have hrb : rootOf (compressAt u e.a) e.b = rootOf u e.b := hr1 e.b heb
  have he12 : Evolves u (compressAt (compressAt u e.a) e.b) :=
    evolves_trans (compressAt_evolves h hea) (compressAt_evolves h1 heb)
  have hstep : mergeStep c u e =
      (if mergeCond u e then
        let u2 := compressAt (compressAt u e.a) e.b
        let u3 := joinNode u2 (rootOf u e.a) (rootOf u e.b)
        let u4 := compressAt u3 (rootOf u e.a)
        let r := rootOf u3 (rootOf u e.a)
        { u4 with threshold := Function.update u4.threshold r (e.w + c / (u4.size r : ℚ)) }
      else compressAt (compressAt u e.a) e.b) := by
    rw [mergeStep_eq, hrb]
    rfl
  by_cases hcond : mergeCond u e
  · obtain ⟨hne, hwa, hwb⟩ := hcond
    rw [hstep, if_pos ⟨hne, hwa, hwb⟩]
    simp only
    -- facts about the roots in the doubly-compressed universe
    obtain ⟨hra_lt, hra_root, -, -⟩ := rootOf_spec h hea
    obtain ⟨hrb_lt, hrb_root, -, -⟩ := rootOf_spec h heb
    have hroot_iff2 : ∀ z, (compressAt (compressAt u e.a) e.b).p z = z ↔ u.p z = z := by
      intro z
      rw [compressAt_root_iff h1 heb z, compressAt_root_iff h hea z]
    have hra2 : (compressAt (compressAt u e.a) e.b).p (rootOf u e.a) = rootOf u e.a :=
      (hroot_iff2 _).mpr hra_root
    have hrb2 : (compressAt (compressAt u e.a) e.b).p (rootOf u e.b) = rootOf u e.b :=
      (hroot_iff2 _).mpr hrb_root
    obtain ⟨h3, hnodes3, hsize3⟩ := joinNode_inv h2 hra_lt hrb_lt hra2 hrb2 hne
    have hroots3 := join_rootOf h2 hra_lt hrb_lt hra2 hrb2 hne
    have hwl3 := joinWinner_ne_loser (compressAt (compressAt u e.a) e.b) hne
    -- the root recomputed after the join is the winner
    have hr_eq : rootOf (joinNode (compressAt (compressAt u e.a) e.b)
          (rootOf u e.a) (rootOf u e.b)) (rootOf u e.a) =
        joinWinner (compressAt (compressAt u e.a) e.b) (rootOf u e.a) (rootOf u e.b) := by
      have hstart : rootOf (compressAt (compressAt u e.a) e.b) (rootOf u e.a)
          = rootOf u e.a := rootOf_root hra2
      rw [hroots3 _ hra_lt, hstart]
      by_cases hc : rootOf u e.a =
          joinLoser (compressAt (compressAt u e.a) e.b) (rootOf u e.a) (rootOf u e.b)
      · rw [if_pos hc]
      · rw [if_neg hc]
        rcases joinWinner_cases (compressAt (compressAt u e.a) e.b)
            (rootOf u e.a) (rootOf u e.b) with hW | hW
        · exact hW.symm
        · rcases joinLoser_cases (compressAt (compressAt u e.a) e.b)
              (rootOf u e.a) (rootOf u e.b) with hL | hL
          · exact absurd (hW.trans hL.symm) hwl3
          · exact absurd hL.symm hc
    have hpair : (joinWinner (compressAt (compressAt u e.a) e.b)
          (rootOf u e.a) (rootOf u e.b) = rootOf u e.a ∧
        joinLoser (compressAt (compressAt u e.a) e.b)
          (rootOf u e.a) (rootOf u e.b) = rootOf u e.b) ∨
        (joinWinner (compressAt (compressAt u e.a) e.b)
          (rootOf u e.a) (rootOf u e.b) = rootOf u e.b ∧
        joinLoser (compressAt (compressAt u e.a) e.b)
          (rootOf u e.a) (rootOf u e.b) = rootOf u e.a) := by
      unfold joinWinner joinLoser
      split
      · exact Or.inl ⟨rfl, rfl⟩
      · exact Or.inr ⟨rfl, rfl⟩
    have hra_lt3 : rootOf u e.a < (joinNode (compressAt (compressAt u e.a) e.b)
        (rootOf u e.a) (rootOf u e.b)).n := by
      rw [joinNode_n]; exact hra_lt
    have h4 : UnivInv (compressAt (joinNode (compressAt (compressAt u e.a) e.b)
        (rootOf u e.a) (rootOf u e.b)) (rootOf u e.a)) :=
      compressAt_inv h3 hra_lt3
    have hr4 : ∀ y, y < u.n →
        rootOf (compressAt (joinNode (compressAt (compressAt u e.a) e.b)
          (rootOf u e.a) (rootOf u e.b)) (rootOf u e.a)) y =
        rootOf (joinNode (compressAt (compressAt u e.a) e.b)
          (rootOf u e.a) (rootOf u e.b)) y :=
      fun y hy => compress_rootOf h3 hra_lt3 y (by rw [joinNode_n]; exact hy)
    have hRroot3 : (joinNode (compressAt (compressAt u e.a) e.b)
        (rootOf u e.a) (rootOf u e.b)).p
          (rootOf (joinNode (compressAt (compressAt u e.a) e.b)
            (rootOf u e.a) (rootOf u e.b)) (rootOf u e.a)) =
        rootOf (joinNode (compressAt (compressAt u e.a) e.b)
          (rootOf u e.a) (rootOf u e.b)) (rootOf u e.a) := by
      rw [hr_eq]
      apply (join_root_iff hne _).mpr
      constructor
      · rcases joinWinner_cases (compressAt (compressAt u e.a) e.b)
            (rootOf u e.a) (rootOf u e.b) with hW | hW <;> rw [hW] <;> assumption
      · exact joinWinner_ne_loser _ hne
    refine ⟨thresholdSet_inv h4 _, ?_, ?_, ?_, ?_⟩
    · -- evolution through compress, compress, join, compress, threshold write
      have ev3 : Evolves u (joinNode (compressAt (compressAt u e.a) e.b)
          (rootOf u e.a) (rootOf u e.b)) :=
        evolves_trans he12 (joinNode_evolves h2 hra_lt hrb_lt hra2 hrb2 hne)
      have ev4 : Evolves u (compressAt (joinNode (compressAt (compressAt u e.a) e.b)
          (rootOf u e.a) (rootOf u e.b)) (rootOf u e.a)) :=
        evolves_trans ev3 (compressAt_evolves h3 hra_lt3)
      exact evolves_trans ev4 (thresholdSet_evolves _ _)
    · exact joinNode_n _ _ _
    · intro _
      obtain ⟨h3', hnodes3', hsize3'⟩ := joinNode_inv h2 hra_lt hrb_lt hra2 hrb2 hne
      constructor
      · exact hnodes3'
      · refine ⟨rootOf (joinNode (compressAt (compressAt u e.a) e.b)
            (rootOf u e.a) (rootOf u e.b)) (rootOf u e.a), ?_, ?_, ?_, ?_, ?_, ?_, ?_⟩
        · rw [hr_eq]
          rcases hpair with ⟨hW, _⟩ | ⟨hW, _⟩
          · exact Or.inl hW
          · exact Or.inr hW
        · -- the chosen node is a root of the final universe
          show (compressAt (joinNode (compressAt (compressAt u e.a) e.b)
            (rootOf u e.a) (rootOf u e.b)) (rootOf u e.a)).p _ = _
          rw [compressAt_root_iff h3 hra_lt3]
          exact hRroot3
        · show (joinNode (compressAt (compressAt u e.a) e.b)
            (rootOf u e.a) (rootOf u e.b)).size _ = _
          rw [hr_eq]
          exact hsize3'
        · rw [Function.update_same]
        · intro y hy
          have e2 := hr4 y hy
          have e3 := hroots3 y hy
          show rootOf (compressAt (joinNode (compressAt (compressAt u e.a) e.b)
            (rootOf u e.a) (rootOf u e.b)) (rootOf u e.a)) y = _
          rw [e2, e3, hr2 y hy]
          rcases hpair with ⟨hW, hL⟩ | ⟨hW, hL⟩
          · rw [hL]
            by_cases hc : rootOf u y = rootOf u e.b
            · rw [if_pos hc, if_pos (Or.inr hc), hr_eq, hW]
            · rw [if_neg hc]
              by_cases hc2 : rootOf u y = rootOf u e.a
              · rw [if_pos (Or.inl hc2), hc2, hr_eq, hW]
              · rw [if_neg (by tauto)]
          · rw [hL]
            by_cases hc : rootOf u y = rootOf u e.a
            · rw [if_pos hc, if_pos (Or.inl hc), hr_eq, hW]
            · rw [if_neg hc]
              by_cases hc2 : rootOf u y = rootOf u e.b
              · rw [if_pos (Or.inr hc2), hc2, hr_eq, hW]
              · rw [if_neg (by tauto)]
        · intro s hs
          show Function.update _ _ _ s = _
          rw [Function.update_noteq hs]
          show (joinNode (compressAt (compressAt u e.a) e.b)
            (rootOf u e.a) (rootOf u e.b)).threshold s = u.threshold s
          rw [joinNode_threshold]
          rfl
        · intro s hs
          rw [hr_eq] at hs
          show (joinNode (compressAt (compressAt u e.a) e.b)
            (rootOf u e.a) (rootOf u e.b)).size s = u.size s
          rw [joinNode_size, Function.update_noteq hs]
          rfl
    · intro hc
      exact absurd ⟨hne, hwa, hwb⟩ hc
  · rw [hstep, if_neg hcond]
    refine ⟨h2, he12, rfl, ?_, ?_⟩
    · intro hc
      exact absurd hc hcond
    · intro _
      exact ⟨rfl, rfl, rfl, fun y hy => hr2 y hy⟩

/-- The cleanup predicate of the second pass: distinct roots and at least
one side smaller than `min_size`. -/
def smallCond (m : ℚ) (u : Univ) (e : Edge) : Prop :=
  rootOf u e.a ≠ rootOf u e.b ∧
  (((u.size (rootOf u e.a) : ℚ) < m) ∨ ((u.size (rootOf u e.b) : ℚ) < m))

instance (m : ℚ) (u : Univ) (e : Edge) : Decidable (smallCond m u e) := by
  unfold smallCond
  infer_instance

/-- After the cleanup pass has processed an edge, either its endpoints are
in one component or both components have reached the minimum size. -/
def sameOrBig (m : ℚ) (u : Univ) (e : Edge) : Prop :=
  rootOf u e.a = rootOf u e.b ∨
  (m ≤ (u.size (rootOf u e.a) : ℚ) ∧ m ≤ (u.size (rootOf u e.b) : ℚ))

theorem smallStep_spec {u : Univ} (h : UnivInv u) (m : ℚ) {e : Edge}
    (hea : e.a < u.n) (heb : e.b < u.n) :
    UnivInv (smallStep m u e) ∧ Evolves u (smallStep m u e) ∧
    (smallStep m u e).n = u.n ∧
    sameOrBig m (smallStep m u e) e ∧
    (smallCond m u e → (smallStep m u e).nodes + 1 = u.nodes) ∧
    (¬ smallCond m u e → (smallStep m u e).nodes = u.nodes) := by
  have h1 : UnivInv (compressAt u e.a) := compressAt_inv h hea
  have hr1 : ∀ y, y < u.n → rootOf (compressAt u e.a) y = rootOf u y :=
    compress_rootOf h hea
  have h2 : UnivInv (compressAt (compressAt u e.a) e.b) := compressAt_inv h1 heb
  have hr2 : ∀ y, y < u.n →
      rootOf (compressAt (compressAt u e.a) e.b) y = rootOf u y := by
    intro y hy
    rw [compress_rootOf h1 heb y hy, hr1 y hy]
  have hrb : rootOf (compressAt u e.a) e.b = rootOf u e.b := hr1 e.b heb
  have he12 : Evolves u (compressAt (compressAt u e.a) e.b) :=
    evolves_trans (compressAt_evolves h hea) (compressAt_evolves h1 heb)
  have hstep : smallStep m u e =
      (if smallCond m u e then
        joinNode (compressAt (compressAt u e.a) e.b) (rootOf u e.a) (rootOf u e.b)
      else compressAt (compressAt u e.a) e.b) := by
    rw [smallStep_eq, hrb]
    rfl
  by_cases hcond : smallCond m u e
  · obtain ⟨hne, hsmall⟩ := hcond
    rw [hstep, if_pos ⟨hne, hsmall⟩]
    obtain ⟨hra_lt, hra_root, -, -⟩ := rootOf_spec h hea
    obtain ⟨hrb_lt, hrb_root, -, -⟩ := rootOf_spec h heb
    have hroot_iff2 : ∀ z, (compressAt (compressAt u e.a) e.b).p z = z ↔ u.p z = z := by
      intro z
      rw [compressAt_root_iff h1 heb z, compressAt_root_iff h hea z]
    have hra2 : (compressAt (compressAt u e.a) e.b).p (rootOf u e.a) = rootOf u e.a :=
      (hroot_iff2 _).mpr hra_root
    have hrb2 : (compressAt (compressAt u e.a) e.b).p (rootOf u e.b) = rootOf u e.b :=
      (hroot_iff2 _).mpr hrb_root
    obtain ⟨h3, hnodes3, hsize3⟩ := joinNode_inv h2 hra_lt hrb_lt hra2 hrb2 hne
    have hroots3 := join_rootOf h2 hra_lt hrb_lt hra2 hrb2 hne
    have hwl3 := joinWinner_ne_loser (compressAt (compressAt u e.a) e.b) hne
    have hpair : (joinWinner (compressAt (compressAt u e.a) e.b)
          (rootOf u e.a) (rootOf u e.b) = rootOf u e.a ∧
        joinLoser (compressAt (compressAt u e.a) e.b)
          (rootOf u e.a) (rootOf u e.b) = rootOf u e.b) ∨
        (joinWinner (compressAt (compressAt u e.a) e.b)
          (rootOf u e.a) (rootOf u e.b) = rootOf u e.b ∧
        joinLoser (compressAt (compressAt u e.a) e.b)
          (rootOf u e.a) (rootOf u e.b) = rootOf u e.a) := by
      unfold joinWinner joinLoser
      split
      · exact Or.inl ⟨rfl, rfl⟩
      · exact Or.inr ⟨rfl, rfl⟩
    have hja : rootOf (joinNode (compressAt (compressAt u e.a) e.b)
        (rootOf u e.a) (rootOf u e.b)) e.a =
        joinWinner (compressAt (compressAt u e.a) e.b) (rootOf u e.a) (rootOf u e.b) := by
      rw [hroots3 e.a hea, hr2 e.a hea]
      rcases hpair with ⟨hW, hL⟩ | ⟨hW, hL⟩
      · rw [hL, if_neg hne]
        exact hW.symm
      · rw [hL, if_pos rfl]
    have hjb : rootOf (joinNode (compressAt (compressAt u e.a) e.b)
        (rootOf u e.a) (rootOf u e.b)) e.b =
        joinWinner (compressAt (compressAt u e.a) e.b) (rootOf u e.a) (rootOf u e.b) := by
      rw [hroots3 e.b heb, hr2 e.b heb]
      rcases hpair with ⟨hW, hL⟩ | ⟨hW, hL⟩
      · rw [hL, if_pos rfl]
      · rw [hL, if_neg (Ne.symm hne)]
        exact hW.symm
    refine ⟨h3, evolves_trans he12 (joinNode_evolves h2 hra_lt hrb_lt hra2 hrb2 hne),
      joinNode_n _ _ _, ?_, ?_, ?_⟩
    · left
      rw [hja, hjb]
    · intro _
      exact hnodes3
    · intro hc
      exact absurd ⟨hne, hsmall⟩ hc
  · rw [hstep, if_neg hcond]
    have hnosmall : ¬ (rootOf u e.a ≠ rootOf u e.b ∧
        (((u.size (rootOf u e.a) : ℚ) < m) ∨ ((u.size (rootOf u e.b) : ℚ) < m))) := hcond
    refine ⟨h2, he12, rfl, ?_, ?_, ?_⟩
    · by_cases hsame : rootOf u e.a = rootOf u e.b
      · left
        rw [hr2 e.a hea, hr2 e.b heb]
        exact hsame
      · right
        have hbig : ¬ (((u.size (rootOf u e.a) : ℚ) < m) ∨
            ((u.size (rootOf u e.b) : ℚ) < m)) := fun hs => hnosmall ⟨hsame, hs⟩
        push_neg at hbig
        rw [hr2 e.a hea, hr2 e.b heb]
        exact ⟨hbig.1, hbig.2⟩
    · intro hc
      exact absurd hc hcond
    · intro _
      rfl

theorem sameOrBig_mono {m : ℚ} {u v : Univ} {e : Edge} (hev : Evolves u v)
    (hea : e.a < u.n) (heb : e.b < u.n) (hsb : sameOrBig m u e) :
    sameOrBig m v e := by
  rcases hsb with hsame | ⟨hba, hbb⟩
  · left
    exact evolves_same_root hev hea heb hsame
  · right
    constructor
    · exact le_trans hba (Nat.cast_le.mpr (hev.size_mono e.a hea))
    · exact le_trans hbb (Nat.cast_le.mpr (hev.size_mono e.b heb))

theorem foldl_mergeStep {E : List Edge} :
    ∀ {u : Univ}, UnivInv u → (∀ e ∈ E, e.a < u.n ∧ e.b < u.n) →
    UnivInv (E.foldl (mergeStep c) u) ∧ Evolves u (E.foldl (mergeStep c) u) := by
  induction E with
  | nil =>
    intro u h _
    exact ⟨h, evolves_refl u⟩
  | cons x xs ih =>
    intro u h hE
    obtain ⟨hx, hxs⟩ := List.forall_mem_cons.mp hE
    obtain ⟨h1, hev1, hn1, -, -⟩ := mergeStep_spec h c hx.1 hx.2
    have hxs' : ∀ e ∈ xs, e.a < (mergeStep c u x).n ∧ e.b < (mergeStep c u x).n := by
      intro e he
      rw [hn1]
      exact hxs e he
    obtain ⟨hfin, hevfin⟩ := ih h1 hxs'
    exact ⟨hfin, evolves_trans hev1 hevfin⟩

theorem foldl_smallStep {m : ℚ} {E : List Edge} :
    ∀ {u : Univ}, UnivInv u → (∀ e ∈ E, e.a < u.n ∧ e.b < u.n) →
    UnivInv (E.foldl (smallStep m) u) ∧ Evolves u (E.foldl (smallStep m) u) ∧
    ∀ e ∈ E, sameOrBig m (E.foldl (smallStep m) u) e := by
  induction E with
  | nil =>
    intro u h _
    exact ⟨h, evolves_refl u, by simp⟩
  | cons x xs ih =>
    intro u h hE
    obtain ⟨hx, hxs⟩ := List.forall_mem_cons.mp hE
    obtain ⟨h1, hev1, hn1, hsb1, -, -⟩ := smallStep_spec h m hx.1 hx.2
    have hxs' : ∀ e ∈ xs, e.a < (smallStep m u x).n ∧ e.b < (smallStep m u x).n := by
      intro e he
      rw [hn1]
      exact hxs e he
    obtain ⟨hfin, hevfin, hall⟩ := ih h1 hxs'
    refine ⟨hfin, evolves_trans hev1 hevfin, ?_⟩
    intro e he
    rcases List.mem_cons.mp he with rfl | he'
    · exact sameOrBig_mono hevfin (by rw [hn1]; exact hx.1) (by rw [hn1]; exact hx.2) hsb1
    · exact hall e he'

theorem sortEdges_perm (E : List Edge) : (sortEdges E).Perm E :=
  List.perm_insertionSort _ E

theorem sortEdges_mem {E : List Edge} {e : Edge} : e ∈ sortEdges E ↔ e ∈ E :=
  (sortEdges_perm E).mem_iff

/-- The sorted edge list is ascending by weight: the merge pass visits the
edges in non-decreasing weight order. -/
theorem sortEdges_sorted (E : List Edge) :
    (sortEdges E).Pairwise (fun e f => e.w ≤ f.w) := by
  haveI : IsTotal Edge (fun e f => e.w ≤ f.w) := ⟨fun a b => le_total a.w b.w⟩
  haveI : IsTrans Edge (fun e f => e.w ≤ f.w) := ⟨fun _ _ _ => le_trans⟩
  exact List.sorted_insertionSort _ E

/-- The combined result of both passes: invariant, evolution from the fresh
universe, and the cleanup postcondition on every edge. -/
theorem segmentGraphOn_spec {n : ℕ} {E : List Edge} {c m : ℚ}
    (hE : ∀ e ∈ E, e.a < n ∧ e.b < n) :
    UnivInv (segmentGraphOn n E c m) ∧ (segmentGraphOn n E c m).n = n ∧
    (∀ e ∈ E, sameOrBig m (segmentGraphOn n E c m) e) := by
  have h0 : UnivInv (createUniverse n c) := createUniverse_inv n c
  have hEs : ∀ e ∈ sortEdges E, e.a < (createUniverse n c).n ∧ e.b < (createUniverse n c).n := by
    intro e he
    exact hE e (sortEdges_mem.mp he)
  obtain ⟨h1, hev1⟩ := foldl_mergeStep (c := c) h0 hEs
  have hn1 : ((sortEdges E).foldl (mergeStep c) (createUniverse n c)).n = n := hev1.n_eq
  have hEs1 : ∀ e ∈ sortEdges E,
      e.a < ((sortEdges E).foldl (mergeStep c) (createUniverse n c)).n ∧
      e.b < ((sortEdges E).foldl (mergeStep c) (createUniverse n c)).n := by
    intro e he
    rw [hn1]
    exact hE e (sortEdges_mem.mp he)
  obtain ⟨h2, hev2, hall⟩ := foldl_smallStep (m := m) h1 hEs1
  have hgoal : segmentGraphOn n E c m =
      (sortEdges E).foldl (smallStep m)
        ((sortEdges E).foldl (mergeStep c) (createUniverse n c)) := rfl
  rw [hgoal]
  refine ⟨h2, ?_, ?_⟩
  · rw [hev2.n_eq, hn1]
  · intro e he
    exact hall e (sortEdges_mem.mpr he)

/-- The node counter counts at least one component when there is a pixel. -/
theorem nodes_pos {u : Univ} (h : UnivInv u) (hn : 0 < u.n) : 0 < u.nodes := by
  rw [h.nodes_eq]
  apply Finset.card_pos.mpr
  obtain ⟨hlt, hroot, -, -⟩ := rootOf_spec h hn
  exact ⟨rootOf u 0, mem_rootsSet.mpr ⟨hlt, hroot⟩⟩

/-! ### Connectivity over an edge list -/

/-- Two pixels joined by one edge of the list (in either orientation). -/
def edgeAdj (E : List Edge) (x y : ℕ) : Prop :=
  ∃ e ∈ E, (e.a = x ∧ e.b = y) ∨ (e.a = y ∧ e.b = x)

/-- Pixels connected through a chain of edges. -/
def edgeConn (E : List Edge) : ℕ → ℕ → Prop :=
  Relation.EqvGen (edgeAdj E)

/-- Transport of the cleanup postcondition along edge chains. -/
theorem edgeConn_quotient {m : ℚ} {u : Univ} {E : List Edge}
    (hall : ∀ e ∈ E, sameOrBig m u e) :
    ∀ x y, edgeConn E x y →
      rootOf u x = rootOf u y ∨
      (m ≤ (u.size (rootOf u x) : ℚ) ∧ m ≤ (u.size (rootOf u y) : ℚ)) := by
  intro x y hconn
  induction hconn with
  | rel x y hxy =>
    obtain ⟨e, he, hor⟩ := hxy
    have hsb := hall e he
    rcases hor with ⟨hx, hy⟩ | ⟨hx, hy⟩
    · rw [← hx, ← hy]
      exact hsb
    · rw [← hx, ← hy]
      rcases hsb with hsame | ⟨h1, h2⟩
      · exact Or.inl hsame.symm
      · exact Or.inr ⟨h2, h1⟩
  | refl x => exact Or.inl rfl
  | symm x y _ ih =>
    rcases ih with hsame | ⟨h1, h2⟩
    · exact Or.inl hsame.symm
    · exact Or.inr ⟨h2, h1⟩
  | trans x y z _ _ ih1 ih2 =>
    rcases ih1 with hxy | ⟨h1, h2⟩
    · rcases ih2 with hyz | ⟨h3, h4⟩
      · exact Or.inl (hxy.trans hyz)
      · exact Or.inr ⟨hxy ▸ h3, h4⟩
    · rcases ih2 with hyz | ⟨h3, h4⟩
      · exact Or.inr ⟨h1, hyz ▸ h2⟩
      · exact Or.inr ⟨h1, h4⟩

/-- If some root stayed below the minimum size although every edge satisfies
the cleanup postcondition and the edge list connects all pixels, then the
whole image is a single component. -/
theorem small_root_forces_single {m : ℚ} {u : Univ} {E : List Edge}
    (h : UnivInv u)
    (hconn : ∀ x y, x < u.n → y < u.n → edgeConn E x y)
    (hall : ∀ e ∈ E, sameOrBig m u e)
    {r : ℕ} (hr : r < u.n) (hroot : u.p r = r)
    (hsmall : (u.size r : ℚ) < m) : u.nodes = 1 := by
  have hall_root : ∀ i, i < u.n → rootOf u i = r := by
    intro i hi
    have hq := edgeConn_quotient hall r i (hconn r i hr hi)
    rcases hq with hsame | ⟨h1, _⟩
    · rw [← hsame, rootOf_root hroot]
    · rw [rootOf_root hroot] at h1
      exact absurd h1 (by exact not_le.mpr hsmall)
  have hset : rootsSet u = {r} := by
    ext z
    simp only [mem_rootsSet, Finset.mem_singleton]
    constructor
    · rintro ⟨hz, hzroot⟩
      have := hall_root z hz
      rw [rootOf_root hzroot] at this
      exact this
    · rintro rfl
      exact ⟨hr, hroot⟩
  rw [h.nodes_eq, hset, Finset.card_singleton]

/-! ### createIndexMap: compacting the union-find roots -/

/-- State of the `createIndexMap` loop. -/
structure IdxSt where
  u : Univ
  nodeIds : ℕ → Option ℕ
  lastId : ℕ
  out : List ℕ

/-- One iteration of `createIndexMap`: find (and compress) the pixel's root,
assign it the next dense id on first sight, write the id. -/
def idxStep (st : IdxSt) (pix : ℕ) : IdxSt :=
  let fr := findNode st.u pix
  match st.nodeIds fr.2 with
  | some v => { st with u := fr.1, out := st.out ++ [v] }
  | none =>
    { u := fr.1
      nodeIds := Function.update st.nodeIds fr.2 (some st.lastId)
      lastId := st.lastId + 1
      out := st.out ++ [st.lastId] }

/-- `createIndexMap(universe, imageData)`: the dense index map (in pixel scan
order) together with the number of distinct ids handed out. -/
def createIndexMap (u : Univ) : List ℕ × ℕ :=
  let st := (List.range u.n).foldl idxStep ⟨u, fun _ => none, 0, []⟩
  (st.out, st.lastId)

theorem idx_remap_corr (u : Univ) :
    ∀ (L : List ℕ) (st : IdxSt) (rst : RemapSt),
    UnivInv st.u → (∀ y, y < u.n → rootOf st.u y = rootOf u y) → st.u.n = u.n →
    st.nodeIds = rst.map → st.lastId = rst.index → st.out = rst.out →
    (∀ x ∈ L, x < u.n) →
    (L.foldl idxStep st).nodeIds = ((L.map (rootOf u)).foldl remapStep rst).map ∧
    (L.foldl idxStep st).lastId = ((L.map (rootOf u)).foldl remapStep rst).index ∧
    (L.foldl idxStep st).out = ((L.map (rootOf u)).foldl remapStep rst).out := by
  intro L
  induction L with
  | nil =>
    intro st rst _ _ _ hm hi ho _
    exact ⟨hm, hi, ho⟩
  | cons x xs ih =>
    intro st rst hinv hroots hn hm hi ho hbound
    have hx : x < u.n := hbound x (List.mem_cons_self x xs)
    have hx' : x < st.u.n := by rw [hn]; exact hx
    have hfr : findNode st.u x = (compressAt st.u x, rootOf st.u x) := findNode_eq _ _
    have hrx : rootOf st.u x = rootOf u x := hroots x hx
    have hinv' : UnivInv (compressAt st.u x) := compressAt_inv hinv hx'
    have hroots' : ∀ y, y < u.n → rootOf (compressAt st.u x) y = rootOf u y := by
      intro y hy
      rw [compress_rootOf hinv hx' y (by rw [hn]; exact hy), hroots y hy]
    have hn' : (compressAt st.u x).n = u.n := hn
    have hstep : ∀ res : IdxSt, idxStep st x = res →
        (res.nodeIds = (remapStep rst (rootOf u x)).map ∧
         res.lastId = (remapStep rst (rootOf u x)).index ∧
         res.out = (remapStep rst (rootOf u x)).out ∧
         res.u = compressAt st.u x) := by
      intro res hres
      rcases hcase : st.nodeIds (rootOf st.u x) with _ | v
      · have hrcase : rst.map (rootOf u x) = none := by
          rw [← hm, ← hrx]; exact hcase
        rw [remapStep_none hrcase]
        have : idxStep st x =
            { u := compressAt st.u x
              nodeIds := Function.update st.nodeIds (rootOf st.u x) (some st.lastId)
              lastId := st.lastId + 1
              out := st.out ++ [st.lastId] } := by
          unfold idxStep
          rw [hfr]
          simp only [hcase]
        rw [← hres, this]
        refine ⟨?_, ?_, ?_, rfl⟩
        · simp only [hm, hi, hrx]
        · simp only [hi]
        · simp only [ho, hi]
      · have hrcase : rst.map (rootOf u x) = some v := by
          rw [← hm, ← hrx]; exact hcase
        rw [remapStep_some hrcase]
        have : idxStep st x =
            { st with u := compressAt st.u x, out := st.out ++ [v] } := by
          unfold idxStep
          rw [hfr]
          simp only [hcase]
        rw [← hres, this]
        exact ⟨hm, hi, by simp only [ho], rfl⟩
    obtain ⟨hm2, hi2, ho2, hu2⟩ := hstep (idxStep st x) rfl
    have hbound' : ∀ y ∈ xs, y < u.n := fun y hy => hbound y (List.mem_cons_of_mem x hy)
    have := ih (idxStep st x) (remapStep rst (rootOf u x))
      (by rw [hu2]; exact hinv') (by rw [hu2]; exact hroots') (by rw [hu2]; exact hn')
      hm2 hi2 ho2 hbound'
    simpa using this

/-- `createIndexMap` is exactly `remapLabels` applied to the list of pixel
roots. -/
theorem createIndexMap_eq {u : Univ} (h : UnivInv u) :
    createIndexMap u = remapLabels ((List.range u.n).map (rootOf u)) := by
  obtain ⟨hm, hi, ho⟩ := idx_remap_corr u (List.range u.n)
    ⟨u, fun _ => none, 0, []⟩ remapInit h (fun _ _ => rfl) rfl rfl rfl rfl
    (by intro x hx; exact List.mem_range.mp hx)
  unfold createIndexMap remapLabels
  simp only
  rw [ho, hi]

/-- The multiset of pixel roots seen by `createIndexMap` is the root set. -/
theorem rootList_toFinset {u : Univ} (h : UnivInv u) :
    ((List.range u.n).map (rootOf u)).toFinset = rootsSet u := by
  ext r
  simp only [List.mem_toFinset, List.mem_map, List.mem_range, mem_rootsSet]
  constructor
  · rintro ⟨i, hi, rfl⟩
    obtain ⟨hlt, hroot, -, -⟩ := rootOf_spec h hi
    exact ⟨hlt, hroot⟩
  · rintro ⟨hr, hroot⟩
    exact ⟨r, hr, rootOf_root hroot⟩

/-- Count of a root in the root list equals the recorded component size. -/
theorem rootList_count {u : Univ} (h : UnivInv u) {r : ℕ}
    (hr : r < u.n) (hroot : u.p r = r) :
    ((List.range u.n).map (rootOf u)).count r = u.size r := by
  rw [h.size_eq r hr hroot]
  have hcm : ((List.range u.n).map (rootOf u)).count r =
      (List.range u.n).countP (fun i => rootOf u i = r) := by
    rw [List.count, List.countP_map]
    apply List.countP_congr
    intro x _
    constructor
    · intro hx
      simp only [Function.comp_apply, beq_iff_eq] at hx
      simp [hx]
    · intro hx
      simp only [decide_eq_true_eq] at hx
      simp [Function.comp, hx]
  rw [hcm, List.countP_eq_length_filter]
  rfl

/-! ### The pixel graph (createEdges)

`createEdges` visits the pixels in scan order and, for pixel `(i, j)` (row
`i`, column `j`), emits an edge to the right, bottom, bottom-right and
top-right neighbours that exist.  Weights are the Euclidean RGB distances;
they are kept separate from the pair structure below. -/

/-- The (ordered) endpoint pairs emitted for pixel `(i, j)`. -/
def pairsAt (W H i j : ℕ) : List (ℕ × ℕ) :=
  (if j + 1 < W then [(i*W+j, i*W+j+1)] else []) ++
  (if i + 1 < H then [(i*W+j, (i+1)*W+j)] else []) ++
  (if j + 1 < W ∧ i + 1 < H then [(i*W+j, (i+1)*W+j+1)] else []) ++
  (if j + 1 < W ∧ 0 < i then [(i*W+j, (i-1)*W+j+1)] else [])

/-- All endpoint pairs emitted by `createEdges`, in emission order. -/
def createEdgesPairs (W H : ℕ) : List (ℕ × ℕ) :=
  (List.range H).flatMap (fun i => (List.range W).flatMap (fun j => pairsAt W H i j))

/-- `createEdges` with an abstract weight function (the source computes
`wf a b = Math.sqrt` of the squared RGB distance of pixels `a` and `b`). -/
def createEdgesW (W H : ℕ) (wf : ℕ → ℕ → ℚ) : List Edge :=
  (createEdgesPairs W H).map (fun pr => ⟨pr.1, pr.2, wf pr.1 pr.2⟩)

theorem mem_pairsAt {W H i j : ℕ} {pr : ℕ × ℕ} :
    pr ∈ pairsAt W H i j ↔
      (j + 1 < W ∧ pr = (i*W+j, i*W+j+1)) ∨
      (i + 1 < H ∧ pr = (i*W+j, (i+1)*W+j)) ∨
      ((j + 1 < W ∧ i + 1 < H) ∧ pr = (i*W+j, (i+1)*W+j+1)) ∨
      ((j + 1 < W ∧ 0 < i) ∧ pr = (i*W+j, (i-1)*W+j+1)) := by
  unfold pairsAt
  simp only [List.mem_append]
  constructor
  · rintro (((h | h) | h) | h) <;> revert h <;> split_ifs <;> simp_all
  · rintro (⟨hc, rfl⟩ | ⟨hc, rfl⟩ | ⟨hc, rfl⟩ | ⟨hc, rfl⟩) <;> simp [hc]

theorem mem_createEdgesPairs {W H : ℕ} {pr : ℕ × ℕ} :
    pr ∈ createEdgesPairs W H ↔ ∃ i, i < H ∧ ∃ j, j < W ∧ pr ∈ pairsAt W H i j := by
  unfold createEdgesPairs
  simp [List.mem_flatMap, List.mem_range]

theorem pix_lt {W H i j : ℕ} (hi : i < H) (hj : j < W) : i*W + j < W*H := by
  calc i*W + j < i*W + W := by omega
    _ = (i+1)*W := by ring
    _ ≤ H*W := Nat.mul_le_mul_right W hi
    _ = W*H := Nat.mul_comm H W

theorem createEdgesPairs_bound {W H : ℕ} {pr : ℕ × ℕ}
    (hpr : pr ∈ createEdgesPairs W H) : pr.1 < W * H ∧ pr.2 < W * H := by
  obtain ⟨i, hi, j, hj, hmem⟩ := mem_createEdgesPairs.mp hpr
  rcases mem_pairsAt.mp hmem with ⟨hc, rfl⟩ | ⟨hc, rfl⟩ | ⟨⟨hc1, hc2⟩, rfl⟩ | ⟨⟨hc1, hc2⟩, rfl⟩
  · exact ⟨pix_lt hi hj, by have := pix_lt hi hc; omega⟩
  · exact ⟨pix_lt hi hj, pix_lt hc hj⟩
  · exact ⟨pix_lt hi hj, by have := pix_lt hc2 hc1; omega⟩
  · refine ⟨pix_lt hi hj, ?_⟩
    have : i - 1 < H := by omega
    have := pix_lt this hc1
    omega

theorem createEdgesW_bound {W H : ℕ} {wf : ℕ → ℕ → ℚ} :
    ∀ e ∈ createEdgesW W H wf, e.a < W*H ∧ e.b < W*H := by
  intro e he
  obtain ⟨pr, hpr, rfl⟩ := List.mem_map.mp he
  exact createEdgesPairs_bound hpr

theorem pairsAt_mem_of {W H i j : ℕ} (hi : i < H) (hj : j < W) {pr : ℕ × ℕ}
    (hc : (j + 1 < W ∧ pr = (i*W+j, i*W+j+1)) ∨
      (i + 1 < H ∧ pr = (i*W+j, (i+1)*W+j))) :
    pr ∈ createEdgesPairs W H := by
  apply mem_createEdgesPairs.mpr
  refine ⟨i, hi, j, hj, ?_⟩
  apply mem_pairsAt.mpr
  tauto

/-- The emitted edges connect every pixel to pixel 0 (walk left along the
row, then up the first column). -/
theorem grid_connected {W H : ℕ} (hW : 1 ≤ W) (wf : ℕ → ℕ → ℚ) :
    ∀ p, p < W*H → edgeConn (createEdgesW W H wf) p 0 := by
  intro p
  induction p using Nat.strong_induction_on with
  | _ p ih =>
    intro hp
    rcases Nat.eq_zero_or_pos p with rfl | hpos
    · exact Relation.EqvGen.refl 0
    · have hWpos : 0 < W := hW
      have hdm := Nat.div_add_mod p W
      rw [Nat.mul_comm] at hdm
      have hjW : p % W < W := Nat.mod_lt p hWpos
      have hiH : p / W < H := by
        have h1 : p < H * W := by rw [Nat.mul_comm]; exact hp
        exact (Nat.div_lt_iff_lt_mul hWpos).mpr h1
      by_cases hj0 : 0 < p % W
      · -- step left to p - 1
        have hpair : ((p/W)*W + (p % W - 1), (p/W)*W + (p % W - 1) + 1)
            ∈ createEdgesPairs W H := by
          apply pairsAt_mem_of (i := p/W) (j := p % W - 1) hiH (by omega)
          left
          constructor
          · omega
          · rfl
        have hadj : edgeAdj (createEdgesW W H wf) (p-1) p := by
          refine ⟨⟨(p/W)*W + (p % W - 1), (p/W)*W + (p % W - 1) + 1,
            wf ((p/W)*W + (p % W - 1)) ((p/W)*W + (p % W - 1) + 1)⟩, ?_, ?_⟩
          · exact List.mem_map.mpr ⟨_, hpair, rfl⟩
          · left
            constructor
            · show (p/W)*W + (p % W - 1) = p - 1
              omega
            · show (p/W)*W + (p % W - 1) + 1 = p
              omega
        have hconn1 : edgeConn (createEdgesW W H wf) p (p-1) :=
          Relation.EqvGen.symm _ _ (Relation.EqvGen.rel _ _ hadj)
        exact Relation.EqvGen.trans _ _ _ hconn1 (ih (p-1) (by omega) (by omega))
      · -- first column: step up to p - W
        have hj : p % W = 0 := by omega
        have hi0 : 0 < p / W := by
          rcases Nat.eq_zero_or_pos (p / W) with hzero | hpos'
          · rw [hzero] at hdm
            omega
          · exact hpos'
        have hWlep : W ≤ (p/W)*W := Nat.le_mul_of_pos_left W hi0
        have hpair : ((p/W - 1)*W + 0, (p/W - 1 + 1)*W + 0)
            ∈ createEdgesPairs W H := by
          apply pairsAt_mem_of (i := p/W - 1) (j := 0) (by omega) hWpos
          right
          constructor
          · omega
          · rfl
        have harith : (p/W - 1 + 1)*W + 0 = p := by
          have : (p/W - 1 + 1) = p/W := by omega
          rw [this]
          omega
        have harith2 : (p/W - 1)*W + 0 = p - W := by
          have hexp : (p/W - 1 + 1)*W = (p/W - 1)*W + W := by ring
          omega
        have hadj : edgeAdj (createEdgesW W H wf) (p-W) p := by
          refine ⟨⟨(p/W - 1)*W + 0, (p/W - 1 + 1)*W + 0,
            wf ((p/W - 1)*W + 0) ((p/W - 1 + 1)*W + 0)⟩, ?_, ?_⟩
          · exact List.mem_map.mpr ⟨_, hpair, rfl⟩
          · left
            exact ⟨harith2, harith⟩
        have hconn1 : edgeConn (createEdgesW W H wf) p (p-W) :=
          Relation.EqvGen.symm _ _ (Relation.EqvGen.rel _ _ hadj)
        exact Relation.EqvGen.trans _ _ _ hconn1 (ih (p-W) (by omega) (by omega))

theorem grid_connected_all {W H : ℕ} (hW : 1 ≤ W) (wf : ℕ → ℕ → ℚ) :
    ∀ p q, p < W*H → q < W*H → edgeConn (createEdgesW W H wf) p q := by
  intro p q hp hq
  exact Relation.EqvGen.trans _ _ _ (grid_connected hW wf p hp)
    (Relation.EqvGen.symm _ _ (grid_connected hW wf q hq))

/-! ### Gaussian smoothing (createGaussian / convolveEven / smoothImage)

`Math.exp` is abstracted by `expQ`.  Canvas pixel data is a
`Uint8ClampedArray`, so the writes of the vertical pass round to the
nearest byte (ties to even) and clamp to `[0, 255]`. -/

/-- Storing a JS number into a `Uint8ClampedArray` slot: clamp to `[0,255]`
and round half to even. -/
def jsClampByte (q : ℚ) : ℕ :=
  if q ≤ 0 then 0
  else if 255 ≤ q then 255
  else
    let f := (⌊q⌋).toNat
    let frac := q - ⌊q⌋
    if frac < 1/2 then f
    else if 1/2 < frac then f + 1
    else if f % 2 = 0 then f else f + 1

/-- `createGaussian(sigma)`: clamp sigma to `0.01`, build a half-kernel of
length `ceil(4 sigma) + 1` with values `exp(-((i / sigma)^2) / 2)`, and
normalise by twice the absolute sum minus the centre tap. -/
def createGaussian (expQ : ℚ → ℚ) (sigma : ℚ) : List ℚ :=
  let sigma' := max sigma (1/100)
  let length := (⌈sigma' * 4⌉).toNat + 1
  let mask := (List.range length).map (fun i => expQ (-(1/2) * ((i : ℚ) / sigma')^2))
  let sumValues := 2 * (mask.map (fun v => |v|)).sum - |mask.getD 0 0|
  mask.map (fun v => v / sumValues)

/-- Horizontal pass of `convolveEven` at pixel `(i, j)`, channel `k`:
taps clamp to the row ends (`Math.max(j-l, 0)`, `Math.min(j+l, width-1)`). -/
def hSumAt (W : ℕ) (src : ℕ → ℚ) (filter : List ℚ) (i j k : ℕ) : ℚ :=
  filter.getD 0 0 * src (4*(i*W+j)+k) +
  ((List.range (filter.length - 1)).map (fun t =>
    filter.getD (t+1) 0 *
      (src (4*(i*W + (j - (t+1))) + k) +
       src (4*(i*W + min (j + (t+1)) (W-1)) + k)))).sum

/-- The `temporary` array after the horizontal pass: channels 0..2 hold the
horizontal sums, other entries keep the copied source values. -/
def convTemp (W H : ℕ) (src : ℕ → ℚ) (filter : List ℚ) : ℕ → ℚ :=
  fun idx =>
    let p := idx / 4
    let k := idx % 4
    if k < 3 ∧ p < W*H then hSumAt W src filter (p / W) (p % W) k
    else src idx

/-- Vertical pass at pixel `(i, j)`, channel `k`, reading `temporary`. -/
def vSumAt (W H : ℕ) (temp : ℕ → ℚ) (filter : List ℚ) (i j k : ℕ) : ℚ :=
  filter.getD 0 0 * temp (4*(i*W+j)+k) +
  ((List.range (filter.length - 1)).map (fun t =>
    filter.getD (t+1) 0 *
      (temp (4*((i - (t+1))*W + j) + k) +
       temp (4*(min (i + (t+1)) (H-1)*W + j) + k)))).sum

/-- `convolveEven(imageData, filter)`: the buffer after both passes.  The
color bytes are overwritten in place with the clamped vertical sums; the
alpha bytes are untouched. -/
def convolveEven (W H : ℕ) (src : List ℕ) (filter : List ℚ) : List ℕ :=
  let srcQ : ℕ → ℚ := fun idx => ((src.getD idx 0 : ℕ) : ℚ)
  let temp := convTemp W H srcQ filter
  (List.range (4*W*H)).map (fun idx =>
    let p := idx / 4
    let k := idx % 4
    if k < 3 then jsClampByte (vSumAt W H temp filter (p / W) (p % W) k)
    else src.getD idx 0)

/-- `smoothImage(imageData, sigma)`. -/
def smoothImage (expQ : ℚ → ℚ) (W H : ℕ) (src : List ℕ) (sigma : ℚ) : List ℕ :=
  convolveEven W H src (createGaussian expQ sigma)

/-- Squared RGB distance of two pixels of a buffer (alpha ignored), the
radicand of the edge weight computed by `createEdges`. -/
def sqDist (buf : List ℕ) (x1 x2 : ℕ) : ℚ :=
  ((buf.getD (4*x1) 0 : ℚ) - (buf.getD (4*x2) 0 : ℚ))^2 +
  ((buf.getD (4*x1+1) 0 : ℚ) - (buf.getD (4*x2+1) 0 : ℚ))^2 +
  ((buf.getD (4*x1+2) 0 : ℚ) - (buf.getD (4*x2+2) 0 : ℚ))^2

/-- `createEdges(imageData)`: the emitted pairs with weights
`sqrtQ (squared distance)` (`Math.sqrt` abstracted by `sqrtQ`). -/
def createEdges (W H : ℕ) (buf : List ℕ) (sqrtQ : ℚ → ℚ) : List Edge :=
  createEdgesW W H (fun a b => sqrtQ (sqDist buf a b))

/-- The result record delivered to the caller's callback. -/
structure SegResult where
  width : ℕ
  height : ℕ
  size : ℕ
  indexMap : List ℕ
  rgbData : List ℕ
deriving DecidableEq

/-- `computeSegmentation` of the graph-based segmenter: smooth the buffer in
place, build and segment the pixel graph, compact the roots.  Returns the
callback result together with the final contents of the caller-supplied
buffer (which the smoothing overwrote). -/
def computeSegmentationPF (W H : ℕ) (src : List ℕ) (expQ sqrtQ : ℚ → ℚ)
    (sigma c minSize : ℚ) : SegResult × List ℕ :=
  let smoothed := smoothImage expQ W H src sigma
  let u := segmentGraphOn (W*H) (createEdges W H smoothed sqrtQ) c minSize
  let im := (createIndexMap u).1
  ({ width := W, height := H, size := u.nodes, indexMap := im,
     rgbData := smoothed }, smoothed)

/-- Joint specification of `createIndexMap` on a valid universe: the output
ids are exactly `0 .. nodes-1`, the returned count is the live-node counter,
and each id is carried by exactly the pixels of one component. -/
theorem compact_spec {u : Univ} (h : UnivInv u) :
    (∀ v, v ∈ (createIndexMap u).1 ↔ v < u.nodes) ∧
    (createIndexMap u).1.length = u.n ∧
    (createIndexMap u).2 = u.nodes ∧
    (∀ v, v < u.nodes →
      ∃ r, r < u.n ∧ u.p r = r ∧ (createIndexMap u).1.count v = u.size r) ∧
    (createIndexMap u).1.headD 0 = 0 := by
  have hinv := remapInv_fold ((List.range u.n).map (rootOf u))
  have heq := createIndexMap_eq h
  have hidx : (createIndexMap u).2 = u.nodes := by
    rw [heq]
    show (((List.range u.n).map (rootOf u)).foldl remapStep remapInit).index = u.nodes
    rw [hinv.card_eq, rootList_toFinset h, h.nodes_eq]
  have hout : (createIndexMap u).1 =
      (((List.range u.n).map (rootOf u)).foldl remapStep remapInit).out := by
    rw [heq]
    rfl
  refine ⟨?_, ?_, hidx, ?_, ?_⟩
  · intro v
    rw [hout, hinv.mem_out v, ← hidx, heq]
    rfl
  · rw [hout, hinv.out_len]
    simp
  · intro v hv
    have hvidx : v < (((List.range u.n).map (rootOf u)).foldl remapStep remapInit).index := by
      have : (createIndexMap u).2 =
          (((List.range u.n).map (rootOf u)).foldl remapStep remapInit).index := by
        rw [heq]; rfl
      rw [← this, hidx]
      exact hv
    have hmem : v ∈ (((List.range u.n).map (rootOf u)).foldl remapStep remapInit).out :=
      (hinv.mem_out v).mpr hvidx
    have hcpos : 0 < ((List.range u.n).map (rootOf u)).countP
        (fun l => (((List.range u.n).map (rootOf u)).foldl remapStep remapInit).map l
          = some v) := by
      rw [← hinv.count_spec v]
      exact List.count_pos_iff.mpr hmem
    obtain ⟨l, hl, hlv⟩ := List.countP_pos.mp hcpos
    simp only [decide_eq_true_eq] at hlv
    obtain ⟨i, hi, hroot_i⟩ := List.mem_map.mp hl
    have hi' : i < u.n := List.mem_range.mp hi
    obtain ⟨hl_lt, hl_root, -, -⟩ := rootOf_spec h hi'
    rw [hroot_i] at hl_lt hl_root
    refine ⟨l, hl_lt, hl_root, ?_⟩
    rw [hout, hinv.count_spec v]
    have hfilter : ((List.range u.n).map (rootOf u)).countP
        (fun l' => (((List.range u.n).map (rootOf u)).foldl remapStep remapInit).map l'
          = some v) = ((List.range u.n).map (rootOf u)).count l := by
      rw [List.count, List.countP_congr]
      intro x _
      simp only [decide_eq_true_eq, beq_iff_eq]
      constructor
      · intro hx
        exact hinv.inj x l v hx hlv
      · intro hx
        rw [hx]
        exact hlv
    rw [hfilter]
    exact rootList_count h hl_lt hl_root
  · rw [hout]
    exact hinv.headD_eq

/-! ### Dichotomy of the cleanup pass, and a huge threshold merges everything -/

/-- A root's size never exceeds the number of pixels. -/
theorem size_le_n {u : Univ} (h : UnivInv u) {r : ℕ} (hr : r < u.n)
    (hroot : u.p r = r) : u.size r ≤ u.n := by
  rw [h.size_eq r hr hroot]
  calc (classOf u r).card ≤ (Finset.range u.n).card :=
        Finset.card_le_card (Finset.filter_subset _ _)
    _ = u.n := Finset.card_range u.n

/-- Under the invariant, a node is a fixed point of `rootOf` iff it is a root. -/
theorem rootOf_eq_self_iff {u : Univ} (h : UnivInv u) {x : ℕ} (hx : x < u.n) :
    rootOf u x = x ↔ u.p x = x := by
  constructor
  · intro hfix
    by_contra hne
    obtain ⟨-, -, -, hstrict⟩ := rootOf_spec h hx
    have hlt := hstrict hne
    rw [hfix] at hlt
    exact lt_irrefl _ hlt
  · exact rootOf_root

/-- When the component counter is one, all pixels share one root. -/
theorem unique_root_of_nodes_one {u : Univ} (h : UnivInv u) (hone : u.nodes = 1) :
    ∀ x y, x < u.n → y < u.n → rootOf u x = rootOf u y := by
  have hcard : (rootsSet u).card = 1 := by rw [← h.nodes_eq]; exact hone
  obtain ⟨r, hr⟩ := Finset.card_eq_one.mp hcard
  intro x y hx hy
  obtain ⟨hx1, hx2, -, -⟩ := rootOf_spec h hx
  obtain ⟨hy1, hy2, -, -⟩ := rootOf_spec h hy
  have hxm : rootOf u x ∈ rootsSet u := mem_rootsSet.mpr ⟨hx1, hx2⟩
  have hym : rootOf u y ∈ rootsSet u := mem_rootsSet.mpr ⟨hy1, hy2⟩
  rw [hr, Finset.mem_singleton] at hxm hym
  rw [hxm, hym]

/-- Dichotomy after `segmentGraph` on the pixel grid: every surviving
component either reached the minimum size or is the only component. -/
theorem pf_dichotomy {W H : ℕ} (hW : 1 ≤ W) (wf : ℕ → ℕ → ℚ) (c m : ℚ) :
    ∀ r, r < (segmentGraphOn (W*H) (createEdgesW W H wf) c m).n →
      (segmentGraphOn (W*H) (createEdgesW W H wf) c m).p r = r →
      m ≤ ((segmentGraphOn (W*H) (createEdgesW W H wf) c m).size r : ℚ) ∨
      (segmentGraphOn (W*H) (createEdgesW W H wf) c m).nodes = 1 := by
  obtain ⟨hinv, hn, hall⟩ :=
    segmentGraphOn_spec (c := c) (m := m) (@createEdgesW_bound W H wf)
  intro r hr hroot
  by_cases hbig : m ≤ ((segmentGraphOn (W*H) (createEdgesW W H wf) c m).size r : ℚ)
  · exact Or.inl hbig
  · refine Or.inr (small_root_forces_single hinv ?_ hall hr hroot (not_le.mp hbig))
    intro x y hx hy
    rw [hn] at hx hy
    exact grid_connected_all hW wf x y hx hy

/-- The adaptive-threshold invariant of the merge pass: at every root the
threshold is at least `c / size`. -/
def tauInv (c : ℚ) (u : Univ) : Prop :=
  ∀ r, r < u.n → u.p r = r → c / (u.size r : ℚ) ≤ u.threshold r

theorem createUniverse_tauInv (n : ℕ) (c : ℚ) : tauInv c (createUniverse n c) := by
  intro r _ _
  show c / ((1 : ℕ) : ℚ) ≤ c
  rw [Nat.cast_one, div_one]

theorem mergeStep_tauInv {u : Univ} (h : UnivInv u) {c : ℚ} {e : Edge}
    (hea : e.a < u.n) (heb : e.b < u.n) (hw : 0 ≤ e.w) (ht : tauInv c u) :
    tauInv c (mergeStep c u e) := by
  obtain ⟨hinv', -, hn', hpos, hneg⟩ := mergeStep_spec h c hea heb
  by_cases hcond : mergeCond u e
  · obtain ⟨-, r, -, hrroot, -, hthr_r, hrootmap, hthr_o, hsize_o⟩ := hpos hcond
    intro s hs hsroot
    have hs' : s < u.n := by rw [← hn']; exact hs
    by_cases hsr : s = r
    · subst hsr
      rw [hthr_r]
      exact le_add_of_nonneg_left hw
    · have hfix : rootOf (mergeStep c u e) s = s := rootOf_root hsroot
      rw [hrootmap s hs'] at hfix
      have hold : rootOf u s = s := by
        by_cases hc2 : rootOf u s = rootOf u e.a ∨ rootOf u s = rootOf u e.b
        · rw [if_pos hc2] at hfix
          exact absurd hfix.symm hsr
        · rw [if_neg hc2] at hfix
          exact hfix
      have holdroot : u.p s = s := (rootOf_eq_self_iff h hs').mp hold
      rw [hthr_o s hsr, hsize_o s hsr]
      exact ht s hs' holdroot
  · obtain ⟨-, hsize_eq, hthr_eq, hrootmap⟩ := hneg hcond
    intro s hs hsroot
    have hs' : s < u.n := by rw [← hn']; exact hs
    have hfix : rootOf (mergeStep c u e) s = s := rootOf_root hsroot
    rw [hrootmap s hs'] at hfix
    have holdroot : u.p s = s := (rootOf_eq_self_iff h hs').mp hfix
    rw [hthr_eq, hsize_eq]
    exact ht s hs' holdroot

/-- With the threshold invariant and `c` at least `n·w`, the merge pass
joins the endpoints of the edge it processes. -/
theorem mergeStep_merges {u : Univ} (h : UnivInv u) {c : ℚ} {e : Edge}
    (hea : e.a < u.n) (heb : e.b < u.n) (hw : 0 ≤ e.w)
    (hbound : (u.n : ℚ) * e.w ≤ c) (ht : tauInv c u) :
    rootOf (mergeStep c u e) e.a = rootOf (mergeStep c u e) e.b := by
  obtain ⟨-, -, -, hpos, hneg⟩ := mergeStep_spec h c hea heb
  by_cases hsame : rootOf u e.a = rootOf u e.b
  · have hnc : ¬ mergeCond u e := fun hc => hc.1 hsame
    obtain ⟨-, -, -, hrootmap⟩ := hneg hnc
    rw [hrootmap e.a hea, hrootmap e.b heb]
    exact hsame
  · have hnpos : (0 : ℚ) < (u.n : ℚ) := by
      have hp0 : 0 < u.n := Nat.lt_of_le_of_lt (Nat.zero_le _) hea
      exact_mod_cast hp0
    have hc0 : (0 : ℚ) ≤ c :=
      le_trans (mul_nonneg (le_of_lt hnpos) hw) hbound
    have hwn : e.w ≤ c / (u.n : ℚ) := by
      rw [le_div_iff₀ hnpos, mul_comm]
      exact hbound
    have hthr : ∀ x, x < u.n → e.w ≤ u.threshold (rootOf u x) := by
      intro x hx
      obtain ⟨hx1, hx2, -, -⟩ := rootOf_spec h hx
      have hszpos : (0 : ℚ) < (u.size (rootOf u x) : ℚ) := by
        exact_mod_cast size_pos_of_root h hx1 hx2
      have hszle : ((u.size (rootOf u x) : ℚ)) ≤ (u.n : ℚ) :=
        Nat.cast_le.mpr (size_le_n h hx1 hx2)
      have hdiv : c / (u.n : ℚ) ≤ c / (u.size (rootOf u x) : ℚ) :=
        div_le_div_of_nonneg_left hc0 hszpos hszle
      exact le_trans (le_trans hwn hdiv) (ht (rootOf u x) hx1 hx2)
    have hcond : mergeCond u e := ⟨hsame, hthr e.a hea, hthr e.b heb⟩
    obtain ⟨-, r, -, -, -, -, hrootmap, -, -⟩ := hpos hcond
    rw [hrootmap e.a hea, hrootmap e.b heb,
      if_pos (Or.inl rfl), if_pos (Or.inr rfl)]

theorem foldl_mergeStep_bigc {c : ℚ} {E : List Edge} :
    ∀ {u : Univ}, UnivInv u → tauInv c u →
    (∀ e ∈ E, e.a < u.n ∧ e.b < u.n) →
    (∀ e ∈ E, 0 ≤ e.w ∧ (u.n : ℚ) * e.w ≤ c) →
    UnivInv (E.foldl (mergeStep c) u) ∧
    (∀ e ∈ E,
      rootOf (E.foldl (mergeStep c) u) e.a = rootOf (E.foldl (mergeStep c) u) e.b) := by
  induction E with
  | nil =>
    intro u h _ _ _
    exact ⟨h, by simp⟩
  | cons x xs ih =>
    intro u h ht hE hWt
    obtain ⟨hx, hxs⟩ := List.forall_mem_cons.mp hE
    obtain ⟨hwx, hwxs⟩ := List.forall_mem_cons.mp hWt
    obtain ⟨hinv1, -, hn1, -, -⟩ := mergeStep_spec h c hx.1 hx.2
    have ht1 : tauInv c (mergeStep c u x) := mergeStep_tauInv h hx.1 hx.2 hwx.1 ht
    have hmerge1 : rootOf (mergeStep c u x) x.a = rootOf (mergeStep c u x) x.b :=
      mergeStep_merges h hx.1 hx.2 hwx.1 hwx.2 ht
    have hxs' : ∀ e ∈ xs, e.a < (mergeStep c u x).n ∧ e.b < (mergeStep c u x).n := by
      intro e he
      rw [hn1]
      exact hxs e he
    have hwxs' : ∀ e ∈ xs, 0 ≤ e.w ∧ ((mergeStep c u x).n : ℚ) * e.w ≤ c := by
      intro e he
      rw [hn1]
      exact hwxs e he
    obtain ⟨hfin, hallfin⟩ := ih hinv1 ht1 hxs' hwxs'
    obtain ⟨-, hevfin⟩ := foldl_mergeStep (c := c) hinv1 hxs'
    refine ⟨hfin, ?_⟩
    intro e he
    rcases List.mem_cons.mp he with rfl | he'
    · exact evolves_same_root hevfin (by rw [hn1]; exact hx.1)
        (by rw [hn1]; exact hx.2) hmerge1
    · exact hallfin e he'

/-- If every edge of a connected edge list has both endpoints in one
component, there is a single component. -/
theorem all_edges_merged_single {u : Univ} (h : UnivInv u) {E : List Edge}
    (hn : 0 < u.n)
    (hconn : ∀ x y, x < u.n → y < u.n → edgeConn E x y)
    (hall : ∀ e ∈ E, rootOf u e.a = rootOf u e.b) :
    u.nodes = 1 := by
  have htrans : ∀ x y, edgeConn E x y → rootOf u x = rootOf u y := by
    intro x y hxy
    induction hxy with
    | rel a b hab =>
      obtain ⟨e, he, hor⟩ := hab
      rcases hor with ⟨h1, h2⟩ | ⟨h1, h2⟩
      · rw [← h1, ← h2]
        exact hall e he
      · rw [← h1, ← h2]
        exact (hall e he).symm
    | refl a => rfl
    | symm a b _ ihab => exact ihab.symm
    | trans a b c _ _ ih1 ih2 => exact ih1.trans ih2
  have hset : rootsSet u = {rootOf u 0} := by
    ext z
    simp only [mem_rootsSet, Finset.mem_singleton]
    constructor
    · rintro ⟨hz, hzroot⟩
      rw [← rootOf_root hzroot]
      exact (htrans 0 z (hconn 0 z hn hz)).symm
    · rintro rfl
      obtain ⟨h1, h2, -, -⟩ := rootOf_spec h hn
      exact ⟨h1, h2⟩
  rw [h.nodes_eq, hset, Finset.card_singleton]

/-- The cleanup pass never splits: with one component it does nothing. -/
theorem foldl_smallStep_keep_one {m : ℚ} {E : List Edge} :
    ∀ {u : Univ}, UnivInv u → u.nodes = 1 → (∀ e ∈ E, e.a < u.n ∧ e.b < u.n) →
    (E.foldl (smallStep m) u).nodes = 1 := by
  induction E with
  | nil =>
    intro u _ hone _
    exact hone
  | cons x xs ih =>
    intro u h hone hE
    obtain ⟨hx, hxs⟩ := List.forall_mem_cons.mp hE
    obtain ⟨h1, -, hn1, -, -, hneg⟩ := smallStep_spec h m hx.1 hx.2
    have hnc : ¬ smallCond m u x := by
      intro hc
      exact hc.1 (unique_root_of_nodes_one h hone x.a x.b hx.1 hx.2)
    have hone1 : (smallStep m u x).nodes = 1 := by
      rw [hneg hnc]
      exact hone
    have hxs' : ∀ e ∈ xs, e.a < (smallStep m u x).n ∧ e.b < (smallStep m u x).n := by
      intro e he
      rw [hn1]
      exact hxs e he
    exact ih h1 hone1 hxs'

/-- With `c` at least `n` times every edge weight, the whole grid merges
into a single component. -/
theorem segmentGraphOn_bigc {W H : ℕ} (hW : 1 ≤ W) (hH : 1 ≤ H)
    (wf : ℕ → ℕ → ℚ) {c m : ℚ}
    (hwts : ∀ e ∈ createEdgesW W H wf, 0 ≤ e.w ∧ ((W*H : ℕ) : ℚ) * e.w ≤ c) :
    (segmentGraphOn (W*H) (createEdgesW W H wf) c m).nodes = 1 := by
  have h0 : UnivInv (createUniverse (W*H) c) := createUniverse_inv (W*H) c
  have ht0 : tauInv c (createUniverse (W*H) c) := createUniverse_tauInv (W*H) c
  have hbounds : ∀ e ∈ sortEdges (createEdgesW W H wf),
      e.a < (createUniverse (W*H) c).n ∧ e.b < (createUniverse (W*H) c).n := by
    intro e he
    exact createEdgesW_bound e (sortEdges_mem.mp he)
  have hwts' : ∀ e ∈ sortEdges (createEdgesW W H wf),
      0 ≤ e.w ∧ (((createUniverse (W*H) c).n : ℕ) : ℚ) * e.w ≤ c := by
    intro e he
    exact hwts e (sortEdges_mem.mp he)
  obtain ⟨h1, hall1⟩ := foldl_mergeStep_bigc h0 ht0 hbounds hwts'
  obtain ⟨-, hev1⟩ := foldl_mergeStep (c := c) h0 hbounds
  have hn1 : ((sortEdges (createEdgesW W H wf)).foldl (mergeStep c)
      (createUniverse (W*H) c)).n = W*H := hev1.n_eq
  have hnpos : 0 < W*H := Nat.mul_pos hW hH
  have hone1 : ((sortEdges (createEdgesW W H wf)).foldl (mergeStep c)
      (createUniverse (W*H) c)).nodes = 1 := by
    apply all_edges_merged_single h1
    · rw [hn1]
      exact hnpos
    · intro x y hx hy
      rw [hn1] at hx hy
      exact grid_connected_all hW wf x y hx hy
    · intro e he
      exact hall1 e (sortEdges_mem.mpr he)
  have hgoal : segmentGraphOn (W*H) (createEdgesW W H wf) c m =
      (sortEdges (createEdgesW W H wf)).foldl (smallStep m)
        ((sortEdges (createEdgesW W H wf)).foldl (mergeStep c)
          (createUniverse (W*H) c)) := rfl
  rw [hgoal]
  apply foldl_smallStep_keep_one h1 hone1
  intro e he
  rw [hn1]
  exact createEdgesW_bound e (sortEdges_mem.mp he)

/-! ### Edge count and exactly-once emission of createEdges -/

theorem pix_div {W i j : ℕ} (hj : j < W) : (i*W + j) / W = i := by
  have hW : 0 < W := Nat.lt_of_le_of_lt (Nat.zero_le j) hj
  rw [Nat.mul_comm i W, Nat.mul_add_div hW, Nat.div_eq_of_lt hj, Nat.add_zero]

theorem pix_mod {W i j : ℕ} (hj : j < W) : (i*W + j) % W = j := by
  rw [Nat.mul_comm i W, Nat.mul_add_mod, Nat.mod_eq_of_lt hj]

theorem pix_inj {W i j i' j' : ℕ} (hj : j < W) (hj' : j' < W)
    (h : i*W + j = i'*W + j') : i = i' ∧ j = j' := by
  have h1 := pix_div (i := i) hj
  have h2 := pix_div (i := i') hj'
  have h3 := pix_mod (i := i) hj
  have h4 := pix_mod (i := i') hj'
  rw [h] at h1 h3
  exact ⟨h1.symm.trans h2, h3.symm.trans h4⟩

theorem pairsAt_fst {W H i j : ℕ} {pr : ℕ × ℕ} (h : pr ∈ pairsAt W H i j) :
    pr.1 = i*W + j := by
  rcases mem_pairsAt.mp h with ⟨-, rfl⟩ | ⟨-, rfl⟩ | ⟨-, rfl⟩ | ⟨-, rfl⟩ <;> rfl

theorem pairsAt_nodup {W H i j : ℕ} : (pairsAt W H i j).Nodup := by
  rcases Nat.eq_zero_or_pos i with rfl | h3
  · unfold pairsAt
    by_cases h1 : j + 1 < W <;> by_cases h2 : 0 + 1 < H <;>
      simp [h1, h2, Prod.ext_iff] <;> omega
  · obtain ⟨i', rfl⟩ : ∃ i', i = i' + 1 := ⟨i - 1, by omega⟩
    have ea : (i'+1)*W = i'*W + W := by ring
    have eb : (i'+1+1)*W = i'*W + W + W := by ring
    unfold pairsAt
    by_cases h1 : j + 1 < W <;> by_cases h2 : i' + 1 + 1 < H <;>
      simp [h1, h2, Prod.ext_iff, Nat.add_sub_cancel] <;> omega

theorem createEdgesPairs_nodup {W H : ℕ} : (createEdgesPairs W H).Nodup := by
  unfold createEdgesPairs
  rw [List.nodup_flatMap]
  constructor
  · intro i _
    rw [List.nodup_flatMap]
    refine ⟨fun j _ => pairsAt_nodup, ?_⟩
    apply List.Pairwise.imp ?_ (List.pairwise_lt_range W)
    intro j j' hjj
    simp only [Function.onFun]
    intro pr hpr hpr'
    have h1 := pairsAt_fst hpr
    have h2 := pairsAt_fst hpr'
    omega
  · apply List.Pairwise.imp ?_ (List.pairwise_lt_range H)
    intro i i' hii
    simp only [Function.onFun]
    intro pr hpr hpr'
    obtain ⟨j, hj, hm⟩ := List.mem_flatMap.mp hpr
    obtain ⟨j', hj', hm'⟩ := List.mem_flatMap.mp hpr'
    rw [List.mem_range] at hj hj'
    have h1 := pairsAt_fst hm
    have h2 := pairsAt_fst hm'
    have hij := pix_inj hj hj' (h1.symm.trans h2)
    omega

theorem pairsAt_length {W H i j : ℕ} :
    (pairsAt W H i j).length =
      ((if j + 1 < W then 1 else 0) + (if i + 1 < H then 1 else 0) +
       (if j + 1 < W ∧ i + 1 < H then 1 else 0) +
       (if j + 1 < W ∧ 0 < i then 1 else 0)) := by
  unfold pairsAt
  by_cases h1 : j + 1 < W <;> by_cases h2 : i + 1 < H <;> by_cases h3 : 0 < i <;>
    simp [h1, h2, h3]

theorem sum_indicator_succ_lt (n : ℕ) :
    (∑ j ∈ Finset.range n, if j + 1 < n then 1 else 0) = n - 1 := by
  have hf : (Finset.range n).filter (fun j => j + 1 < n) = Finset.range (n-1) := by
    ext x
    simp only [Finset.mem_filter, Finset.mem_range]
    omega
  rw [Finset.sum_boole, hf, Finset.card_range, Nat.cast_id]

theorem sum_indicator_pos (n : ℕ) :
    (∑ i ∈ Finset.range n, if 0 < i then 1 else 0) = n - 1 := by
  rw [Finset.sum_boole, Nat.cast_id]
  rcases Nat.eq_zero_or_pos n with rfl | hn
  · simp
  · have hf : (Finset.range n).filter (fun i => 0 < i) = (Finset.range n).erase 0 := by
      ext x
      simp only [Finset.mem_filter, Finset.mem_range, Finset.mem_erase]
      omega
    rw [hf, Finset.card_erase_of_mem (Finset.mem_range.mpr hn), Finset.card_range]

theorem createEdgesPairs_length {W H : ℕ} (hW : 1 ≤ W) (hH : 1 ≤ H) :
    ((createEdgesPairs W H).length : ℤ) = 4*W*H - 3*W - 3*H + 2 := by
  unfold createEdgesPairs
  rw [List.length_flatMap]
  have hconv : (List.map (List.length ∘ fun i => (List.range W).flatMap (fun j => pairsAt W H i j))
      (List.range H)).sum
      = ∑ i ∈ Finset.range H, ((List.range W).flatMap (fun j => pairsAt W H i j)).length := rfl
  rw [hconv]
  have hrow : ∀ i, ((List.range W).flatMap (fun j => pairsAt W H i j)).length
      = (W - 1) + ((if i + 1 < H then W else 0) + ((if i + 1 < H then W - 1 else 0)
        + (if 0 < i then W - 1 else 0))) := by
    intro i
    rw [List.length_flatMap]
    have hconv2 : (List.map (List.length ∘ fun j => pairsAt W H i j) (List.range W)).sum
        = ∑ j ∈ Finset.range W, (pairsAt W H i j).length := rfl
    rw [hconv2]
    have hsplit : ∀ j ∈ Finset.range W, (pairsAt W H i j).length =
        ((if j + 1 < W then 1 else 0) + (if i + 1 < H then 1 else 0) +
         (if j + 1 < W ∧ i + 1 < H then 1 else 0) +
         (if j + 1 < W ∧ 0 < i then 1 else 0)) := fun j _ => pairsAt_length
    rw [Finset.sum_congr rfl hsplit]
    rw [Finset.sum_add_distrib, Finset.sum_add_distrib, Finset.sum_add_distrib]
    rw [sum_indicator_succ_lt]
    have s2 : (∑ _j ∈ Finset.range W, if i + 1 < H then 1 else 0) = if i + 1 < H then W else 0 := by
      by_cases hi : i + 1 < H <;> simp [hi, Finset.sum_const, Finset.card_range]
    have s3 : (∑ j ∈ Finset.range W, if j + 1 < W ∧ i + 1 < H then 1 else 0)
        = if i + 1 < H then W - 1 else 0 := by
      by_cases hi : i + 1 < H
      · rw [if_pos hi]
        have : ∀ j ∈ Finset.range W, (if j + 1 < W ∧ i + 1 < H then 1 else 0)
            = if j + 1 < W then 1 else 0 := by
          intro j _
          by_cases hj : j + 1 < W <;> simp [hj, hi]
        rw [Finset.sum_congr rfl this, sum_indicator_succ_lt]
      · rw [if_neg hi]
        have : ∀ j ∈ Finset.range W, (if j + 1 < W ∧ i + 1 < H then 1 else 0) = 0 := by
          intro j _
          simp [hi]
        rw [Finset.sum_congr rfl this, Finset.sum_const, smul_zero]
    have s4 : (∑ j ∈ Finset.range W, if j + 1 < W ∧ 0 < i then 1 else 0)
        = if 0 < i then W - 1 else 0 := by
      by_cases hi : 0 < i
      · rw [if_pos hi]
        have : ∀ j ∈ Finset.range W, (if j + 1 < W ∧ 0 < i then 1 else 0)
            = if j + 1 < W then 1 else 0 := by
          intro j _
          by_cases hj : j + 1 < W <;> simp [hj, hi]
        rw [Finset.sum_congr rfl this, sum_indicator_succ_lt]
      · rw [if_neg hi]
        have : ∀ j ∈ Finset.range W, (if j + 1 < W ∧ 0 < i then 1 else 0) = 0 := by
          intro j _
          simp [hi]
        rw [Finset.sum_congr rfl this, Finset.sum_const, smul_zero]
    rw [s2, s3, s4]
    omega
  rw [Finset.sum_congr rfl (fun i _ => hrow i)]
  rw [Finset.sum_add_distrib, Finset.sum_add_distrib, Finset.sum_add_distrib]
  have t1 : (∑ _i ∈ Finset.range H, (W - 1)) = H * (W - 1) := by
    rw [Finset.sum_const, Finset.card_range, smul_eq_mul]
  have t2 : (∑ i ∈ Finset.range H, if i + 1 < H then W else 0) = (H - 1) * W := by
    have : ∀ i ∈ Finset.range H, (if i + 1 < H then W else 0)
        = (if i + 1 < H then 1 else 0) * W := by
      intro i _
      by_cases hi : i + 1 < H <;> simp [hi]
    rw [Finset.sum_congr rfl this, ← Finset.sum_mul, sum_indicator_succ_lt]
  have t3 : (∑ i ∈ Finset.range H, if i + 1 < H then W - 1 else 0) = (H - 1) * (W - 1) := by
    have : ∀ i ∈ Finset.range H, (if i + 1 < H then W - 1 else 0)
        = (if i + 1 < H then 1 else 0) * (W - 1) := by
      intro i _
      by_cases hi : i + 1 < H <;> simp [hi]
    rw [Finset.sum_congr rfl this, ← Finset.sum_mul, sum_indicator_succ_lt]
  have t4 : (∑ i ∈ Finset.range H, if 0 < i then W - 1 else 0) = (H - 1) * (W - 1) := by
    have : ∀ i ∈ Finset.range H, (if 0 < i then W - 1 else 0)
        = (if 0 < i then 1 else 0) * (W - 1) := by
      intro i _
      by_cases hi : 0 < i <;> simp [hi]
    rw [Finset.sum_congr rfl this, ← Finset.sum_mul, sum_indicator_pos]
  rw [t1, t2, t3, t4]
  have c1 : ((W - 1 : ℕ) : ℤ) = (W : ℤ) - 1 := by omega
  have c2 : ((H - 1 : ℕ) : ℤ) = (H : ℤ) - 1 := by omega
  push_cast [c1, c2]
  ring

/-- 8-neighbourhood adjacency of two pixel indices on a `W × H` grid:
both in range, distinct, and rows as well as columns differ by at most 1. -/
def adjacent8 (W H p q : ℕ) : Prop :=
  p < W*H ∧ q < W*H ∧ p ≠ q ∧
  (p / W = q / W ∨ p / W + 1 = q / W ∨ q / W + 1 = p / W) ∧
  (p % W = q % W ∨ p % W + 1 = q % W ∨ q % W + 1 = p % W)

instance (W H p q : ℕ) : Decidable (adjacent8 W H p q) := by
  unfold adjacent8
  infer_instance

theorem mem_createEdgesPairs_cases {W H p q : ℕ}
    (h : (p, q) ∈ createEdgesPairs W H) :
    ∃ i j, i < H ∧ j < W ∧ p = i*W + j ∧
      ((j + 1 < W ∧ q = i*W + j + 1) ∨
       (i + 1 < H ∧ q = (i+1)*W + j) ∨
       (j + 1 < W ∧ i + 1 < H ∧ q = (i+1)*W + j + 1) ∨
       (j + 1 < W ∧ 0 < i ∧ q = (i-1)*W + j + 1)) := by
  obtain ⟨i, hi, j, hj, hm⟩ := mem_createEdgesPairs.mp h
  refine ⟨i, j, hi, hj, ?_, ?_⟩
  · exact pairsAt_fst hm
  · rcases mem_pairsAt.mp hm with ⟨hc, he⟩ | ⟨hc, he⟩ | ⟨⟨hc1, hc2⟩, he⟩ | ⟨⟨hc1, hc2⟩, he⟩ <;>
      rw [Prod.mk.injEq] at he
    · exact Or.inl ⟨hc, he.2⟩
    · exact Or.inr (Or.inl ⟨hc, he.2⟩)
    · exact Or.inr (Or.inr (Or.inl ⟨hc1, hc2, he.2⟩))
    · exact Or.inr (Or.inr (Or.inr ⟨hc1, hc2, he.2⟩))

theorem createEdgesPairs_no_reverse {W H p q : ℕ}
    (h1 : (p, q) ∈ createEdgesPairs W H) (h2 : (q, p) ∈ createEdgesPairs W H) :
    False := by
  obtain ⟨i, j, hi, hj, hp, hcase⟩ := mem_createEdgesPairs_cases h1
  obtain ⟨i', j', hi', hj', hq, hcase'⟩ := mem_createEdgesPairs_cases h2
  have relA : (i' = i ∧ j' = j + 1) ∨ (i' = i + 1 ∧ j' = j) ∨
      (i' = i + 1 ∧ j' = j + 1) ∨ (0 < i ∧ i' = i - 1 ∧ j' = j + 1) := by
    rcases hcase with ⟨hc, hqe⟩ | ⟨hc, hqe⟩ | ⟨hc1, hc2, hqe⟩ | ⟨hc1, hc0, hqe⟩
    · obtain ⟨ha, hb⟩ := pix_inj hc hj' (show i*W + (j+1) = i'*W + j' by omega)
      exact Or.inl ⟨ha.symm, hb.symm⟩
    · obtain ⟨ha, hb⟩ := pix_inj hj hj' (show (i+1)*W + j = i'*W + j' by omega)
      exact Or.inr (Or.inl ⟨ha.symm, hb.symm⟩)
    · obtain ⟨ha, hb⟩ := pix_inj hc1 hj' (show (i+1)*W + (j+1) = i'*W + j' by omega)
      exact Or.inr (Or.inr (Or.inl ⟨ha.symm, hb.symm⟩))
    · obtain ⟨ha, hb⟩ := pix_inj hc1 hj' (show (i-1)*W + (j+1) = i'*W + j' by omega)
      exact Or.inr (Or.inr (Or.inr ⟨hc0, ha.symm, hb.symm⟩))
  have relB : (i = i' ∧ j = j' + 1) ∨ (i = i' + 1 ∧ j = j') ∨
      (i = i' + 1 ∧ j = j' + 1) ∨ (0 < i' ∧ i = i' - 1 ∧ j = j' + 1) := by
    rcases hcase' with ⟨hc, hpe⟩ | ⟨hc, hpe⟩ | ⟨hc1, hc2, hpe⟩ | ⟨hc1, hc0, hpe⟩
    · obtain ⟨ha, hb⟩ := pix_inj hc hj (show i'*W + (j'+1) = i*W + j by omega)
      exact Or.inl ⟨ha.symm, hb.symm⟩
    · obtain ⟨ha, hb⟩ := pix_inj hj' hj (show (i'+1)*W + j' = i*W + j by omega)
      exact Or.inr (Or.inl ⟨ha.symm, hb.symm⟩)
    · obtain ⟨ha, hb⟩ := pix_inj hc1 hj (show (i'+1)*W + (j'+1) = i*W + j by omega)
      exact Or.inr (Or.inr (Or.inl ⟨ha.symm, hb.symm⟩))
    · obtain ⟨ha, hb⟩ := pix_inj hc1 hj (show (i'-1)*W + (j'+1) = i*W + j by omega)
      exact Or.inr (Or.inr (Or.inr ⟨hc0, ha.symm, hb.symm⟩))
  omega

theorem createEdgesPairs_exists {W H p q : ℕ} (hadj : adjacent8 W H p q) :
    (p, q) ∈ createEdgesPairs W H ∨ (q, p) ∈ createEdgesPairs W H := by
  obtain ⟨hp, hq, hne, hrow, hcol⟩ := hadj
  have hW : 0 < W := by
    rcases Nat.eq_zero_or_pos W with rfl | h
    · rw [Nat.zero_mul] at hp
      exact absurd hp (Nat.not_lt_zero p)
    · exact h
  have hpd : (p / W)*W + (p % W) = p := by
    rw [Nat.mul_comm]
    exact Nat.div_add_mod p W
  have hqd : (q / W)*W + (q % W) = q := by
    rw [Nat.mul_comm]
    exact Nat.div_add_mod q W
  have hjp : p % W < W := Nat.mod_lt p hW
  have hjq : q % W < W := Nat.mod_lt q hW
  have hip : p / W < H := by
    rw [Nat.div_lt_iff_lt_mul hW]
    calc p < W*H := hp
      _ = H*W := Nat.mul_comm W H
  have hiq : q / W < H := by
    rw [Nat.div_lt_iff_lt_mul hW]
    calc q < W*H := hq
      _ = H*W := Nat.mul_comm W H
  obtain ⟨ip, hipe⟩ : ∃ t, t = p / W := ⟨_, rfl⟩
  obtain ⟨jp, hjpe⟩ : ∃ t, t = p % W := ⟨_, rfl⟩
  obtain ⟨iq, hiqe⟩ : ∃ t, t = q / W := ⟨_, rfl⟩
  obtain ⟨jq, hjqe⟩ : ∃ t, t = q % W := ⟨_, rfl⟩
  rw [← hipe] at hpd hip hrow
  rw [← hjpe] at hpd hjp hcol
  rw [← hiqe] at hqd hiq hrow
  rw [← hjqe] at hqd hjq hcol
  rcases hrow with hr | hr | hr
  · rcases hcol with hc | hc | hc
    · exfalso
      apply hne
      rw [hr] at hpd
      omega
    · left
      apply mem_createEdgesPairs.mpr
      refine ⟨ip, hip, jp, hjp, ?_⟩
      apply mem_pairsAt.mpr
      left
      rw [← hr] at hqd
      refine ⟨by omega, ?_⟩
      rw [Prod.mk.injEq]
      exact ⟨by omega, by omega⟩
    · right
      apply mem_createEdgesPairs.mpr
      refine ⟨iq, hiq, jq, hjq, ?_⟩
      apply mem_pairsAt.mpr
      left
      rw [hr] at hpd
      refine ⟨by omega, ?_⟩
      rw [Prod.mk.injEq]
      exact ⟨by omega, by omega⟩
  · rcases hcol with hc | hc | hc
    · left
      apply mem_createEdgesPairs.mpr
      refine ⟨ip, hip, jp, hjp, ?_⟩
      apply mem_pairsAt.mpr
      refine Or.inr (Or.inl ?_)
      rw [← hr] at hqd
      have e2 : (ip + 1)*W = ip*W + W := by ring
      refine ⟨by omega, ?_⟩
      rw [Prod.mk.injEq]
      exact ⟨by omega, by omega⟩
    · left
      apply mem_createEdgesPairs.mpr
      refine ⟨ip, hip, jp, hjp, ?_⟩
      apply mem_pairsAt.mpr
      refine Or.inr (Or.inr (Or.inl ?_))
      rw [← hr] at hqd
      have e2 : (ip + 1)*W = ip*W + W := by ring
      refine ⟨⟨by omega, by omega⟩, ?_⟩
      rw [Prod.mk.injEq]
      exact ⟨by omega, by omega⟩
    · right
      apply mem_createEdgesPairs.mpr
      refine ⟨iq, hiq, jq, hjq, ?_⟩
      apply mem_pairsAt.mpr
      refine Or.inr (Or.inr (Or.inr ?_))
      have e4 : (iq - 1)*W = ip*W := by
        rw [show iq - 1 = ip from by omega]
      refine ⟨⟨by omega, by omega⟩, ?_⟩
      rw [Prod.mk.injEq]
      exact ⟨by omega, by omega⟩
  · rcases hcol with hc | hc | hc
    · right
      apply mem_createEdgesPairs.mpr
      refine ⟨iq, hiq, jq, hjq, ?_⟩
      apply mem_pairsAt.mpr
      refine Or.inr (Or.inl ?_)
      rw [← hr] at hpd
      have e2 : (iq + 1)*W = iq*W + W := by ring
      refine ⟨by omega, ?_⟩
      rw [Prod.mk.injEq]
      exact ⟨by omega, by omega⟩
    · left
      apply mem_createEdgesPairs.mpr
      refine ⟨ip, hip, jp, hjp, ?_⟩
      apply mem_pairsAt.mpr
      refine Or.inr (Or.inr (Or.inr ?_))
      have e4 : (ip - 1)*W = iq*W := by
        rw [show ip - 1 = iq from by omega]
      refine ⟨⟨by omega, by omega⟩, ?_⟩
      rw [Prod.mk.injEq]
      exact ⟨by omega, by omega⟩
    · right
      apply mem_createEdgesPairs.mpr
      refine ⟨iq, hiq, jq, hjq, ?_⟩
      apply mem_pairsAt.mpr
      refine Or.inr (Or.inr (Or.inl ?_))
      rw [← hr] at hpd
      have e2 : (iq + 1)*W = iq*W + W := by ring
      refine ⟨⟨by omega, by omega⟩, ?_⟩
      rw [Prod.mk.injEq]
      exact ⟨by omega, by omega⟩

theorem createEdgesPairs_adj {W H p q : ℕ}
    (h : (p, q) ∈ createEdgesPairs W H) : adjacent8 W H p q := by
  have hb := createEdgesPairs_bound h
  obtain ⟨i, j, hi, hj, hpe, hcase⟩ := mem_createEdgesPairs_cases h
  have hdp : p / W = i := by rw [hpe]; exact pix_div hj
  have hmp : p % W = j := by rw [hpe]; exact pix_mod hj
  rcases hcase with ⟨hc, hqe⟩ | ⟨hc, hqe⟩ | ⟨hc1, hc2, hqe⟩ | ⟨hc1, hc0, hqe⟩
  · have hdq : q / W = i := by rw [hqe]; exact pix_div hc
    have hmq : q % W = j + 1 := by rw [hqe]; exact pix_mod hc
    refine ⟨hb.1, hb.2, ?_, Or.inl (by rw [hdp, hdq]),
      Or.inr (Or.inl (by rw [hmp, hmq]))⟩
    intro hpq
    rw [hpq, hmq] at hmp
    omega
  · have hdq : q / W = i + 1 := by rw [hqe]; exact pix_div hj
    have hmq : q % W = j := by rw [hqe]; exact pix_mod hj
    refine ⟨hb.1, hb.2, ?_, Or.inr (Or.inl (by rw [hdp, hdq])),
      Or.inl (by rw [hmp, hmq])⟩
    intro hpq
    rw [hpq, hdq] at hdp
    omega
  · have hdq : q / W = i + 1 := by rw [hqe]; exact pix_div hc1
    have hmq : q % W = j + 1 := by rw [hqe]; exact pix_mod hc1
    refine ⟨hb.1, hb.2, ?_, Or.inr (Or.inl (by rw [hdp, hdq])),
      Or.inr (Or.inl (by rw [hmp, hmq]))⟩
    intro hpq
    rw [hpq, hdq] at hdp
    omega
  · have hdq : q / W = i - 1 := by rw [hqe]; exact pix_div hc1
    have hmq : q % W = j + 1 := by rw [hqe]; exact pix_mod hc1
    refine ⟨hb.1, hb.2, ?_,
      Or.inr (Or.inr (by rw [hdp, hdq, show i - 1 + 1 = i from by omega])),
      Or.inr (Or.inl (by rw [hmp, hmq]))⟩
    intro hpq
    rw [hpq, hmq] at hmp
    omega

theorem countP_or_disjoint (l : List (ℕ × ℕ)) (x y : ℕ × ℕ) (hxy : x ≠ y) :
    l.countP (fun pr => pr = x ∨ pr = y) =
      l.countP (fun pr => pr = x) + l.countP (fun pr => pr = y) := by
  induction l with
  | nil => rfl
  | cons a l ih =>
    rw [List.countP_cons, List.countP_cons, List.countP_cons, ih]
    by_cases hax : a = x <;> by_cases hay : a = y
    · exact absurd (hax.symm.trans hay) hxy
    · simp [hax, hay, hxy]
      omega
    · simp [hax, hay, Ne.symm hxy]
      omega
    · simp [hax, hay]

theorem countP_le_one_of_nodup {l : List (ℕ × ℕ)} (h : l.Nodup) (x : ℕ × ℕ) :
    l.countP (fun pr => pr = x) ≤ 1 := by
  induction l with
  | nil => simp
  | cons a l ih =>
    rw [List.countP_cons]
    obtain ⟨hna, hnd⟩ := List.nodup_cons.mp h
    by_cases hax : a = x
    · subst hax
      have hz : l.countP (fun pr => pr = a) = 0 := by
        apply List.countP_eq_zero.mpr
        intro b hb
        simp only [decide_eq_true_eq]
        intro hba
        exact hna (hba ▸ hb)
      simp [hz]
    · simp only [hax, decide_False, if_false, Nat.add_zero]
      exact ih hnd

theorem createEdgesPairs_count {W H p q : ℕ} (hadj : adjacent8 W H p q) :
    (createEdgesPairs W H).countP (fun pr => pr = (p, q) ∨ pr = (q, p)) = 1 := by
  have hne : p ≠ q := hadj.2.2.1
  have hxy : ((p, q) : ℕ × ℕ) ≠ (q, p) := by
    intro hcon
    rw [Prod.mk.injEq] at hcon
    exact hne hcon.1
  rw [countP_or_disjoint _ _ _ hxy]
  have hnd := createEdgesPairs_nodup (W := W) (H := H)
  rcases createEdgesPairs_exists hadj with hm | hm
  · have h1 : 0 < (createEdgesPairs W H).countP (fun pr => pr = (p, q)) :=
      List.countP_pos.mpr ⟨(p, q), hm, by simp⟩
    have h2 : (createEdgesPairs W H).countP (fun pr => pr = (q, p)) = 0 := by
      apply List.countP_eq_zero.mpr
      intro b hb
      simp only [decide_eq_true_eq]
      intro hbe
      exact createEdgesPairs_no_reverse hm (hbe ▸ hb)
    have h3 := countP_le_one_of_nodup hnd (p, q)
    omega
  · have h1 : 0 < (createEdgesPairs W H).countP (fun pr => pr = (q, p)) :=
      List.countP_pos.mpr ⟨(q, p), hm, by simp⟩
    have h2 : (createEdgesPairs W H).countP (fun pr => pr = (p, q)) = 0 := by
      apply List.countP_eq_zero.mpr
      intro b hb
      simp only [decide_eq_true_eq]
      intro hbe
      exact createEdgesPairs_no_reverse (hbe ▸ hb) hm
    have h3 := countP_le_one_of_nodup hnd (q, p)
    omega

theorem createEdgesW_length {W H : ℕ} (hW : 1 ≤ W) (hH : 1 ≤ H)
    (wf : ℕ → ℕ → ℚ) :
    ((createEdgesW W H wf).length : ℤ) = 4*W*H - 3*W - 3*H + 2 := by
  unfold createEdgesW
  rw [List.length_map]
  exact createEdgesPairs_length hW hH

theorem createEdgesW_count {W H p q : ℕ} (wf : ℕ → ℕ → ℚ)
    (hadj : adjacent8 W H p q) :
    (createEdgesW W H wf).countP
      (fun e => (e.a = p ∧ e.b = q) ∨ (e.a = q ∧ e.b = p)) = 1 := by
  unfold createEdgesW
  rw [List.countP_map]
  rw [← createEdgesPairs_count hadj]
  apply List.countP_congr
  intro pr _
  simp [Function.comp, Prod.ext_iff]

theorem createEdgesW_adj {W H : ℕ} (wf : ℕ → ℕ → ℚ) :
    ∀ e ∈ createEdgesW W H wf, adjacent8 W H e.a e.b := by
  intro e he
  obtain ⟨pr, hpr, rfl⟩ := List.mem_map.mp he
  exact createEdgesPairs_adj (p := pr.1) (q := pr.2) (by rw [Prod.mk.eta]; exact hpr)

/-! ### Label export (getDataURL) and the pre-segmentation import path -/

/-- The RGBA bytes that `getDataURL` produces for an index map: for every
label its low byte `value & 255`, middle byte `(value >>> 8) & 255`, high
byte `(value >>> 16) & 255`, and the untouched zero alpha byte of
`createImageData`. -/
def getDataURLBytes (indexMap : List ℕ) : List ℕ :=
  indexMap.flatMap (fun v => [v % 256, (v / 2^8) % 256, (v / 2^16) % 256, 0])

/-- `computePreSegmentation`: for each pixel it reads only `data[4*i]`,
the red channel byte. -/
def computePreSegmentation (W H : ℕ) (d : List ℕ) : List ℕ :=
  (List.range (W*H)).map (fun i => d.getD (i*4) 0)

theorem getDataURLBytes_getD (l : List ℕ) (i : ℕ) (hi : i < l.length) :
    (getDataURLBytes l).getD (i*4) 0 = (l.getD i 0) % 256 := by
  induction l generalizing i with
  | nil => simp at hi
  | cons a l ih =>
    cases i with
    | zero => simp [getDataURLBytes]
    | succ i =>
      have he : (i+1)*4 = 4 + i*4 := by ring
      rw [List.getD_cons_succ]
      show (getDataURLBytes (a :: l)).getD ((i+1)*4) 0 = l.getD i 0 % 256
      rw [he]
      unfold getDataURLBytes
      rw [List.flatMap_cons]
      rw [List.getD_append_right _ _ _ _ (by simp)]
      have hidx : 4 + i*4 - [a % 256, (a / 2^8) % 256, (a / 2^16) % 256, 0].length = i*4 := by
        simp
      rw [hidx]
      exact ih i (Nat.lt_of_succ_lt_succ hi)

theorem preseg_roundtrip {W H : ℕ} {indexMap : List ℕ}
    (hlen : indexMap.length = W*H) (hlt : ∀ v ∈ indexMap, v < 256) :
    computePreSegmentation W H (getDataURLBytes indexMap) = indexMap := by
  apply List.ext_getElem
  · simp [computePreSegmentation, hlen]
  · intro n h1 h2
    have hn : n < W*H := by
      simpa [computePreSegmentation] using h1
    have hn' : n < indexMap.length := by rw [hlen]; exact hn
    unfold computePreSegmentation
    rw [List.getElem_map, List.getElem_range]
    rw [getDataURLBytes_getD indexMap n hn']
    rw [List.getD_eq_getElem indexMap 0 hn']
    exact Nat.mod_eq_of_lt (hlt _ (indexMap.getElem_mem hn'))

theorem convolveEven_length {W H : ℕ} {src : List ℕ} {filter : List ℚ} :
    (convolveEven W H src filter).length = 4*W*H := by
  simp [convolveEven]

theorem convolveEven_alpha {W H : ℕ} {src : List ℕ} {filter : List ℚ} {p : ℕ}
    (hp : p < W*H) :
    (convolveEven W H src filter).getD (4*p+3) 0 = src.getD (4*p+3) 0 := by
  have he : 4*W*H = 4*(W*H) := by ring
  have hidx : 4*p+3 < 4*W*H := by omega
  unfold convolveEven
  rw [List.getD_eq_getElem _ _ (by simpa using hidx)]
  rw [List.getElem_map, List.getElem_range]
  have hk : ¬((4*p+3) % 4 < 3) := by omega
  dsimp only
  rw [if_neg hk]

/-! ### The SLICO superpixel path (part_004)

Conventions: `Math.pow (·, 2.2)`, the cube root of `xyz2lab` and
`Math.sqrt` are abstracted by function parameters `powG`, `cbrt`, `sqrtQ`;
typed arrays become lists (`List.set` ignores out-of-range writes exactly
as typed arrays do, `getD _ 0` reads); `Infinity` becomes `⊤ : WithTop ℚ`;
`Math.round` is `⌊q + 1/2⌋`. -/

/-- JavaScript `Math.round`. -/
def jsRound (q : ℚ) : ℤ := ⌊q + 1/2⌋

/-- `rgb2xyz(rgba, w, h)` with the gamma curve `Math.pow(·, 2.2)`
abstracted as `powG`.  Channel `c` of pixel `i` sits at `c*w*h + i`. -/
def rgb2xyz (powG : ℚ → ℚ) (rgba : List ℕ) (w h : ℕ) : List ℚ :=
  (List.range (3*(w*h))).map (fun n =>
    let i := n % (w*h)
    let r := powG ((rgba.getD (4*i) 0 : ℚ) * 0.00392156862)
    let g := powG ((rgba.getD (4*i+1) 0 : ℚ) * 0.00392156862)
    let b := powG ((rgba.getD (4*i+2) 0 : ℚ) * 0.00392156862)
    if n < w*h then r * 0.4887180 + g * 0.310680 + b * 0.2006020
    else if n < 2*(w*h) then r * 0.1762040 + g * 0.812985 + b * 0.0108109
    else g * 0.0102048 + b * 0.989795)

/-- The piecewise `f` of `xyz2lab` (cube root abstracted as `cbrt`). -/
def labF (cbrt : ℚ → ℚ) (x : ℚ) : ℚ :=
  if x > 0.00856 then cbrt x else 7.78706891568 * x + 0.1379310336

/-- `xyz2lab(xyz, w, h)`. -/
def xyz2lab (cbrt : ℚ → ℚ) (xyz : List ℚ) (w h : ℕ) : List ℚ :=
  let xw : ℚ := 1/3
  let yw : ℚ := 1/3
  let Yw : ℚ := 1
  let Xw : ℚ := xw / yw
  let Zw : ℚ := (1 - xw - yw) / yw * Yw
  let ix : ℚ := 1 / Xw
  let iy : ℚ := 1 / Yw
  let iz : ℚ := 1 / Zw
  (List.range (3*(w*h))).map (fun n =>
    let i := n % (w*h)
    let fx := labF cbrt (xyz.getD i 0 * ix)
    let fy := labF cbrt (xyz.getD (w*h + i) 0 * iy)
    let fz := labF cbrt (xyz.getD (2*(w*h) + i) 0 * iz)
    if n < w*h then 116.0 * fy - 16.0
    else if n < 2*(w*h) then 500.0 * (fx - fy)
    else 200.0 * (fy - fz))

/-- `computeEdge(image, edgeMap, w, h)`: squared-gradient response summed
over the three channels, zero on the one-pixel border. -/
def computeEdge (image : List ℚ) (w h : ℕ) : List ℚ :=
  (List.range (w*h)).map (fun n =>
    let x := n % w
    let y := n / w
    if 1 ≤ y ∧ y + 1 < h ∧ 1 ≤ x ∧ x + 1 < w then
      ((List.range 3).map (fun k =>
        let a := image.getD (k*(w*h) + y*w + (x-1)) 0
        let b := image.getD (k*(w*h) + y*w + (x+1)) 0
        let c := image.getD (k*(w*h) + (y+1)*w + x) 0
        let d := image.getD (k*(w*h) + (y-1)*w + x) 0
        (a-b)*(a-b) + (c-d)*(c-d))).sum
    else 0)

/-- One grid cell of `initializeKmeansCenters`: pick the 3×3 neighbour with
the smallest edge response (strictly smaller than the running minimum,
scanned rows-then-columns) and emit the five center slots. -/
def initCenterAt (labData edgeMap : List ℚ) (regionSize imW imH : ℕ) (v u : ℕ) : List ℚ :=
  let x0 := jsRound ((regionSize : ℚ) * ((u : ℚ) + 0.5))
  let y0 := jsRound ((regionSize : ℚ) * ((v : ℚ) + 0.5))
  let x := (max (min x0 ((imW : ℤ) - 1)) 0).toNat
  let y := (max (min y0 ((imH : ℤ) - 1)) 0).toNat
  let ylo := y - 1
  let yhi := min (imH - 1) (y + 1)
  let xlo := x - 1
  let xhi := min (imW - 1) (x + 1)
  let cand := (List.range' ylo (yhi + 1 - ylo)).flatMap (fun yp =>
    (List.range' xlo (xhi + 1 - xlo)).map (fun xp => (xp, yp)))
  let best := cand.foldl (fun st pt =>
    let e : WithTop ℚ := ((edgeMap.getD (pt.2 * imW + pt.1) 0 : ℚ) : WithTop ℚ)
    if e < st.1 then (e, pt.1, pt.2) else st) ((⊤ : WithTop ℚ), (0 : ℕ), (0 : ℕ))
  let cx : ℕ := best.2.1
  let cy : ℕ := best.2.2
  [(cx : ℚ), (cy : ℚ), labData.getD (cy*imW + cx) 0,
   labData.getD (imW*imH + cy*imW + cx) 0,
   labData.getD (2*(imW*imH) + cy*imW + cx) 0]

/-- `initializeKmeansCenters`: the flat center array and the cluster
parameters, `(10*10, regionSize²)` for every region. -/
def initializeKmeansCenters (labData edgeMap : List ℚ)
    (nRX nRY regionSize imW imH : ℕ) : List ℚ × List ℚ :=
  ((List.range nRY).flatMap (fun v => (List.range nRX).flatMap (fun u =>
      initCenterAt labData edgeMap regionSize imW imH v u)),
   (List.range (nRY*nRX)).flatMap (fun _ =>
      [10*10, (regionSize : ℚ) * (regionSize : ℚ)]))

/-- `computeCenters`: accumulate masses and sums per region, then divide by
`max(mass, 1e-8)`. -/
def computeCenters (image : List ℚ) (segL : List ℕ) (numRegions imW imH : ℕ) :
    List ℚ :=
  let init : List ℚ × List ℚ :=
    (List.replicate (imW*imH) 0, List.replicate (5*numRegions) 0)
  let acc := (List.range (imW*imH)).foldl (fun st n =>
    let x : ℕ := n % imW
    let y : ℕ := n / imW
    let region := segL.getD n 0
    let masses := st.1.set region (st.1.getD region 0 + 1)
    let c0 := st.2
    let c1 := c0.set (region*5) (c0.getD (region*5) 0 + (x : ℚ))
    let c2 := c1.set (region*5+1) (c1.getD (region*5+1) 0 + (y : ℚ))
    let c3 := c2.set (region*5+2) (c2.getD (region*5+2) 0 + image.getD (y*imW + x) 0)
    let c4 := c3.set (region*5+3) (c3.getD (region*5+3) 0 + image.getD (imW*imH + y*imW + x) 0)
    let c5 := c4.set (region*5+4) (c4.getD (region*5+4) 0 + image.getD (2*(imW*imH) + y*imW + x) 0)
    (masses, c5)) init
  (List.range (5*numRegions)).map (fun idx =>
    let region := idx / 5
    let iMass := 1 / max (acc.1.getD region 0) 0.00000001
    acc.2.getD idx 0 * iMass)

/-- The window scan of one region in `assignSuperpixelLabel`. -/
def assignRegion (labData : List ℚ) (sqrtQ : ℚ → ℚ) (centers cp : List ℚ)
    (S imW imH : ℕ) (st : List ℕ × List (WithTop ℚ)) (region : ℕ) :
    List ℕ × List (WithTop ℚ) :=
  let cx := jsRound (centers.getD (region*5) 0)
  let cy := jsRound (centers.getD (region*5+1) 0)
  let ylo := (max 0 (cy - S)).toNat
  let yhi := (min (imH : ℤ) (cy + S)).toNat
  let xlo := (max 0 (cx - S)).toNat
  let xhi := (min (imW : ℤ) (cx + S)).toNat
  (List.range' ylo (yhi - ylo)).foldl (fun st (y : ℕ) =>
    (List.range' xlo (xhi - xlo)).foldl (fun st (x : ℕ) =>
      let spatial := ((x : ℚ) - (cx : ℚ)) * ((x : ℚ) - (cx : ℚ)) +
        ((y : ℚ) - (cy : ℚ)) * ((y : ℚ) - (cy : ℚ))
      let dR := labData.getD (y*imW + x) 0 - centers.getD (5*region+2) 0
      let dG := labData.getD (imW*imH + y*imW + x) 0 - centers.getD (5*region+3) 0
      let dB := labData.getD (2*(imW*imH) + y*imW + x) 0 - centers.getD (5*region+4) 0
      let appearance := dR*dR + dG*dG + dB*dB
      let distance := sqrtQ (appearance / cp.getD (region*2) 0 +
        spatial / cp.getD (region*2+1) 0)
      if ((distance : WithTop ℚ)) < st.2.getD (y*imW + x) ⊤ then
        (st.1.set (y*imW + x) region, st.2.set (y*imW + x) ((distance : WithTop ℚ)))
      else st) st) st

/-- `assignSuperpixelLabel`: reset the distance map to `Infinity`, scan all
regions, then raise the per-cluster parameters to the `mcMap`/`msMap`
values of the pixels assigned to them. -/
def assignSuperpixelLabel (labData : List ℚ) (sqrtQ : ℚ → ℚ)
    (seg : List ℕ) (mcMap msMap : List ℚ) (centers cp : List ℚ)
    (nRX nRY S imW imH : ℕ) : List ℕ × List ℚ :=
  let dm0 : List (WithTop ℚ) := List.replicate (imW*imH) ⊤
  let stF := (List.range (nRX*nRY)).foldl
    (assignRegion labData sqrtQ centers cp S imW imH) (seg, dm0)
  let segF := stF.1
  let cpF := (List.range (imW*imH)).foldl (fun c n =>
    let r := segF.getD n 0
    let c1 := if c.getD (r*2) 0 < mcMap.getD n 0 then c.set (r*2) (mcMap.getD n 0) else c
    if c1.getD (r*2+1) 0 < msMap.getD n 0 then c1.set (r*2+1) (msMap.getD n 0)
    else c1) cp
  (segF, cpF)

/-- `updateClusterParams`: raise the parameters to the running maxima of
`mcMap`/`msMap` over each region's pixels. -/
def updateClusterParams (segL : List ℕ) (mcMap msMap : List ℚ) (cp : List ℚ) :
    List ℚ :=
  let init : List ℚ × List ℚ × List ℚ :=
    (List.replicate (cp.length / 2) 0, List.replicate (cp.length / 2) 0, cp)
  ((List.range segL.length).foldl (fun st i =>
    let region := segL.getD i 0
    let st1 : List ℚ × List ℚ × List ℚ :=
      if st.1.getD region 0 < mcMap.getD region 0 then
        (st.1.set region (mcMap.getD region 0), st.2.1,
         st.2.2.set (region*2) (mcMap.getD region 0))
      else st
    if st1.2.1.getD region 0 < msMap.getD region 0 then
      (st1.1, st1.2.1.set region (msMap.getD region 0),
       st1.2.2.set (region*2+1) (msMap.getD region 0))
    else st1) init).2.2

/-- `computeResidualError(prev, current)`. -/
def computeResidualError (sqrtQ : ℚ → ℚ) (prev cur : List ℚ) : ℚ :=
  ((List.range prev.length).map (fun i =>
    sqrtQ ((prev.getD i 0 - cur.getD i 0) * (prev.getD i 0 - cur.getD i 0)))).sum

/-- The mutable state of the k-means loop of `computeSLICSegmentation`. -/
structure SlicSt where
  seg : List ℕ
  mcMap : List ℚ
  msMap : List ℚ
  cp : List ℚ
  centers : List ℚ

/-- The `for (iter = 0; iter < maxNumIterations; ++iter)` loop with its
early exit on a residual below `1e-5`. -/
def slicIter (labData : List ℚ) (sqrtQ : ℚ → ℚ)
    (nRX nRY rs imW imH numRegions : ℕ) : ℕ → SlicSt → SlicSt
  | 0, st => st
  | fuel + 1, st =>
    let a := assignSuperpixelLabel labData sqrtQ st.seg st.mcMap st.msMap
      st.centers st.cp nRX nRY rs imW imH
    let seg1 := a.1
    let cp2 := updateClusterParams seg1 st.mcMap st.msMap a.2
    let newCenters := computeCenters labData seg1 numRegions imW imH
    let err := computeResidualError sqrtQ st.centers newCenters
    if err < 0.00001 then { st with seg := seg1, cp := cp2 }
    else slicIter labData sqrtQ nRX nRY rs imW imH numRegions fuel
      { seg := seg1, mcMap := st.mcMap, msMap := st.msMap,
        cp := cp2, centers := newCenters }

/-! #### eliminateSmallRegions -/

/-- The scan order `dx = (1,-1,0,0)`, `dy = (0,0,1,-1)`. -/
def dirs : List (ℤ × ℤ) := [(1, 0), (-1, 0), (0, 1), (0, -1)]

/-- The in-bounds neighbour index of pixel `p` in direction `d`. -/
def nbrIdx (W H p : ℕ) (d : ℤ × ℤ) : Option ℕ :=
  let xp : ℤ := ((p % W : ℕ) : ℤ) + d.1
  let yp : ℤ := ((p / W : ℕ) : ℤ) + d.2
  if 0 ≤ xp ∧ xp < (W : ℤ) ∧ 0 ≤ yp ∧ yp < (H : ℤ)
  then some (xp + yp * (W : ℤ)).toNat else none

/-- One direction of the `cleanedLabel` scan: the last cleaned neighbour
wins. -/
def scanAt (W H : ℕ) (cleaned : ℕ → ℕ) (p : ℕ) (acc : ℕ) (d : ℤ × ℤ) : ℕ :=
  match nbrIdx W H p d with
  | some j => if cleaned j ≠ 0 then cleaned j else acc
  | none => acc

/-- One direction of the flood expansion: enqueue an in-bounds uncleaned
neighbour carrying the same original label. -/
def expandAt (W H : ℕ) (seg : ℕ → ℕ) (label : ℕ) (op : ℕ)
    (st : (ℕ → ℕ) × List ℕ) (d : ℤ × ℤ) : (ℕ → ℕ) × List ℕ :=
  match nbrIdx W H op d with
  | some j =>
    if st.1 j = 0 ∧ seg j = label
    then (Function.update st.1 j (label+1), st.2 ++ [j])
    else st
  | none => st

/-- The `while (numExpanded < segmentSize)` flood loop, with fuel. -/
def floodLoop (W H : ℕ) (seg : ℕ → ℕ) (label : ℕ) :
    ℕ → ((ℕ → ℕ) × List ℕ) → ℕ → ((ℕ → ℕ) × List ℕ)
  | 0, st, _ => st
  | fuel + 1, st, k =>
    if h : k < st.2.length then
      floodLoop W H seg label fuel
        (dirs.foldl (expandAt W H seg label (st.2.get ⟨k, h⟩)) st) (k+1)
    else st

/-- One iteration of the outer pixel loop of `eliminateSmallRegions`. -/
def elimStep (W H : ℕ) (seg : ℕ → ℕ) (minR : ℚ) (cleaned : ℕ → ℕ) (p : ℕ) :
    ℕ → ℕ :=
  if cleaned p ≠ 0 then cleaned
  else
    let label := seg p
    let c1 := Function.update cleaned p (label+1)
    let cl := dirs.foldl (scanAt W H c1 p) (label+1)
    let fr := floodLoop W H seg label (W*H) (c1, [p]) 0
    if (fr.2.length : ℚ) < minR then (fun i => if i ∈ fr.2 then cl else fr.1 i)
    else fr.1

/-- `eliminateSmallRegions(segmentation, minRegionSize, numPixels, imW, imH)`
as a pixel-indexed function (including the final `--cleaned[pixel]`). -/
def eliminateSmallRegions (W H : ℕ) (seg : ℕ → ℕ) (minR : ℚ) : ℕ → ℕ :=
  let cleaned := (List.range (W*H)).foldl (elimStep W H seg minR) (fun _ => 0)
  fun i => cleaned i - 1

/-- `computeSLICSegmentation(imageData, options)`. -/
def computeSLICSegmentation (powG cbrt sqrtQ : ℚ → ℚ) (W H rs : ℕ)
    (minR : ℚ) (data : List ℕ) : List ℕ :=
  let nRX := W / rs
  let nRY := H / rs
  let numRegions := nRX * nRY
  let numPixels := W * H
  let labData := xyz2lab cbrt (rgb2xyz powG data W H) W H
  let edgeMap := computeEdge labData W H
  let init := initializeKmeansCenters labData edgeMap nRX nRY rs W H
  let st0 : SlicSt := { seg := List.replicate numPixels 0,
                        mcMap := List.replicate numPixels 0,
                        msMap := List.replicate numPixels 0,
                        cp := init.2, centers := init.1 }
  let stF := slicIter labData sqrtQ nRX nRY rs W H numRegions 10 st0
  (List.range numPixels).map
    (eliminateSmallRegions W H (fun i => stF.seg.getD i 0) minR)

/-- The SLIC `computeSegmentation`: run the pipeline, remap the labels and
assemble the result record handed to the caller's callback. -/
def computeSegmentationSLIC (powG cbrt sqrtQ : ℚ → ℚ) (W H rs : ℕ)
    (minR : ℚ) (data : List ℕ) : SegResult :=
  let seg := computeSLICSegmentation powG cbrt sqrtQ W H rs minR data
  let r := remapLabels seg
  { width := W, height := H, size := r.2, indexMap := r.1, rgbData := data }

/-- The `SLICSegmentation` entry point: fill in the defaults
(`regionSize = 40`, `minRegionSize = regionSize²/4`) and run; the source
performs no validation and has no failure path. -/
def SLICSegmentationRun (powG cbrt sqrtQ : ℚ → ℚ) (W H : ℕ) (data : List ℕ)
    (oRegionSize : Option ℕ) (oMinRegionSize : Option ℚ) :
    Except String SegResult :=
  let rs := oRegionSize.getD 40
  let minR := oMinRegionSize.getD ((rs : ℚ) * (rs : ℚ) / 4)
  Except.ok (computeSegmentationSLIC powG cbrt sqrtQ W H rs minR data)

/-- The `PFSegmentation` entry point: fill in the defaults (`sigma = 0.5`,
`threshold = 500`, `minSize = 20`) and run; no validation, no failure
path. -/
def PFSegmentationRun (expQ sqrtQ : ℚ → ℚ) (W H : ℕ) (data : List ℕ)
    (oSigma oThreshold oMinSize : Option ℚ) : Except String SegResult :=
  let sigma := oSigma.getD 0.5
  let threshold := oThreshold.getD 500
  let minSize := oMinSize.getD 20
  Except.ok (computeSegmentationPF W H data expQ sqrtQ sigma threshold minSize).1

/-! #### Correctness of the small-region elimination's counting behaviour -/

theorem pix_decomp {W H p : ℕ} (hp : p < W*H) :
    ∃ a b, a < H ∧ b < W ∧ p = a*W + b := by
  have hW : 0 < W := by
    rcases Nat.eq_zero_or_pos W with rfl | h
    · rw [Nat.zero_mul] at hp
      exact absurd hp (Nat.not_lt_zero p)
    · exact h
  refine ⟨p / W, p % W, ?_, Nat.mod_lt p hW, ?_⟩
  · rw [Nat.div_lt_iff_lt_mul hW]
    calc p < W*H := hp
      _ = H*W := Nat.mul_comm W H
  · rw [Nat.mul_comm]
    exact (Nat.div_add_mod p W).symm

theorem nbrIdx_props {W H p : ℕ} (hp : p < W*H) {d : ℤ × ℤ} (hd : d ∈ dirs)
    {j : ℕ} (h : nbrIdx W H p d = some j) : j < W*H ∧ j ≠ p := by
  obtain ⟨ip, jp, hip, hjp, rfl⟩ := pix_decomp hp
  have hW : 0 < W := Nat.lt_of_le_of_lt (Nat.zero_le jp) hjp
  simp only [dirs, List.mem_cons, List.not_mem_nil, or_false] at hd
  unfold nbrIdx at h
  rw [pix_mod hjp, pix_div hjp] at h
  rcases hd with rfl | rfl | rfl | rfl <;> dsimp only at h <;> split at h <;>
    rename_i hcond <;> try rw [Option.some_inj] at h
  · have he : ((ip : ℤ) + 0) * (W : ℤ) = ((ip*W : ℕ) : ℤ) := by push_cast; ring
    have hj : j = ip*W + (jp+1) := by omega
    subst hj
    have hjp1 : jp + 1 < W := by omega
    exact ⟨pix_lt hip hjp1, by omega⟩
  · exact absurd h (by simp)
  · have he : ((ip : ℤ) + 0) * (W : ℤ) = ((ip*W : ℕ) : ℤ) := by push_cast; ring
    have hj : j = ip*W + (jp-1) := by omega
    subst hj
    have hjp1 : jp - 1 < W := by omega
    have hjp0 : 0 < jp := by omega
    exact ⟨pix_lt hip hjp1, by omega⟩
  · exact absurd h (by simp)
  · have he : ((ip : ℤ) + 1) * (W : ℤ) = (((ip+1)*W : ℕ) : ℤ) := by push_cast; ring
    have hj : j = (ip+1)*W + jp := by omega
    subst hj
    have hip1 : ip + 1 < H := by omega
    have hee : (ip+1)*W = ip*W + W := by ring
    exact ⟨pix_lt hip1 hjp, by omega⟩
  · exact absurd h (by simp)
  · have hip0 : 0 < ip := by omega
    have he : ((ip : ℤ) + -1) * (W : ℤ) = (((ip-1)*W : ℕ) : ℤ) := by
      have hc : ((ip - 1 : ℕ) : ℤ) = (ip : ℤ) - 1 := by omega
      push_cast [hc]
      ring
    have hj : j = (ip-1)*W + jp := by omega
    subst hj
    have hip1 : ip - 1 < H := by omega
    have hee : (ip-1)*W + W = ip*W := by
      calc (ip-1)*W + W = (ip-1+1)*W := by ring
        _ = ip*W := by rw [show ip - 1 + 1 = ip from by omega]
    exact ⟨pix_lt hip1 hjp, by omega⟩
  · exact absurd h (by simp)

theorem elim_hit {W H p : ℕ} (hp : p < W*H) (hp0 : 0 < p) :
    ∃ d ∈ dirs, ∃ j, nbrIdx W H p d = some j ∧ j < p := by
  obtain ⟨ip, jp, hip, hjp, rfl⟩ := pix_decomp hp
  have hW : 0 < W := Nat.lt_of_le_of_lt (Nat.zero_le jp) hjp
  by_cases hjp0 : 0 < jp
  · refine ⟨(-1, 0), by simp [dirs], ip*W + (jp - 1), ?_, by omega⟩
    unfold nbrIdx
    rw [pix_mod hjp, pix_div hjp]
    dsimp only
    split
    · rename_i hcond
      rw [Option.some_inj]
      have he : ((ip : ℤ) + 0) * (W : ℤ) = ((ip*W : ℕ) : ℤ) := by push_cast; ring
      omega
    · rename_i hcond
      exact absurd ⟨by omega, by omega, by omega, by omega⟩ hcond
  · have hjz : jp = 0 := by omega
    have hip0 : 0 < ip := by
      rcases Nat.eq_zero_or_pos ip with rfl | h
      · have hz : 0 * W = 0 := by ring
        omega
      · exact h
    refine ⟨(0, -1), by simp [dirs], (ip - 1)*W + jp, ?_, ?_⟩
    · unfold nbrIdx
      rw [pix_mod hjp, pix_div hjp]
      dsimp only
      split
      · rename_i hcond
        rw [Option.some_inj]
        have he : ((ip : ℤ) + -1) * (W : ℤ) = (((ip-1)*W : ℕ) : ℤ) := by
          have hc : ((ip - 1 : ℕ) : ℤ) = (ip : ℤ) - 1 := by omega
          push_cast [hc]
          ring
        omega
      · rename_i hcond
        exact absurd ⟨by omega, by omega, by omega, by omega⟩ hcond
    · have hee : (ip-1)*W + W = ip*W := by
        calc (ip-1)*W + W = (ip-1+1)*W := by ring
          _ = ip*W := by rw [show ip - 1 + 1 = ip from by omega]
      omega

theorem scan_foldl_miss (W H : ℕ) (c : ℕ → ℕ) (p : ℕ) :
    ∀ (ds : List (ℤ × ℤ)) (acc : ℕ),
    (∀ d ∈ ds, ∀ j, nbrIdx W H p d = some j → c j = 0) →
    ds.foldl (scanAt W H c p) acc = acc := by
  intro ds
  induction ds with
  | nil =>
    intro acc _
    rfl
  | cons d ds ih =>
    intro acc hmiss
    rw [List.foldl_cons]
    have hstep : scanAt W H c p acc d = acc := by
      unfold scanAt
      cases hn : nbrIdx W H p d with
      | none => rfl
      | some j =>
        have hz := hmiss d (List.mem_cons_self d ds) j hn
        simp [hz]
    rw [hstep]
    exact ih acc (fun d' hd' => hmiss d' (List.mem_cons_of_mem d hd'))

theorem scan_foldl_hit (W H : ℕ) (c : ℕ → ℕ) (p : ℕ) :
    ∀ (ds : List (ℤ × ℤ)) (acc : ℕ),
    (∃ d ∈ ds, ∃ j, nbrIdx W H p d = some j ∧ c j ≠ 0) →
    ∃ j, (∃ d ∈ ds, nbrIdx W H p d = some j) ∧ c j ≠ 0 ∧
      ds.foldl (scanAt W H c p) acc = c j := by
  intro ds
  induction ds with
  | nil =>
    intro acc h
    obtain ⟨d, hd, -⟩ := h
    exact absurd hd (List.not_mem_nil d)
  | cons d ds ih =>
    intro acc hex
    rw [List.foldl_cons]
    by_cases hlater : ∃ d' ∈ ds, ∃ j, nbrIdx W H p d' = some j ∧ c j ≠ 0
    · obtain ⟨j, ⟨d', hd', hn⟩, hcj, heq⟩ := ih (scanAt W H c p acc d) hlater
      exact ⟨j, ⟨d', List.mem_cons_of_mem d hd', hn⟩, hcj, heq⟩
    · obtain ⟨d0, hd0, j0, hn0, hc0⟩ := hex
      rcases List.mem_cons.mp hd0 with rfl | hmem
      · have hstep : scanAt W H c p acc d0 = c j0 := by
          unfold scanAt
          rw [hn0]
          simp [hc0]
        rw [hstep]
        have hrest : ds.foldl (scanAt W H c p) (c j0) = c j0 := by
          apply scan_foldl_miss
          intro d' hd' j hn
          by_contra hne
          exact hlater ⟨d', hd', j, hn, hne⟩
        rw [hrest]
        exact ⟨j0, ⟨d0, List.mem_cons_self d0 ds, hn0⟩, hc0, rfl⟩
      · exact absurd ⟨d0, hmem, j0, hn0, hc0⟩ hlater

theorem expandAt_spec {W H : ℕ} {seg : ℕ → ℕ} {label : ℕ} (c0 : ℕ → ℕ)
    {op : ℕ} (hop : op < W*H) {st : (ℕ → ℕ) × List ℕ} {d : ℤ × ℤ} (hd : d ∈ dirs)
    (h1 : ∀ i ∈ st.2, i < W*H ∧ c0 i = 0)
    (h2 : st.2.Nodup)
    (h3 : ∀ i, st.1 i = if i ∈ st.2 then label + 1 else c0 i) :
    (∀ i ∈ (expandAt W H seg label op st d).2, i < W*H ∧ c0 i = 0) ∧
    (expandAt W H seg label op st d).2.Nodup ∧
    (∀ i, (expandAt W H seg label op st d).1 i =
      if i ∈ (expandAt W H seg label op st d).2 then label + 1 else c0 i) ∧
    (∀ i ∈ st.2, i ∈ (expandAt W H seg label op st d).2) := by
  unfold expandAt
  cases hn : nbrIdx W H op d with
  | none => exact ⟨h1, h2, h3, fun i hi => hi⟩
  | some j =>
    dsimp only
    by_cases hc : st.1 j = 0 ∧ seg j = label
    · rw [if_pos hc]
      have hjq : j ∉ st.2 ∧ c0 j = 0 := by
        have h3j := h3 j
        rw [hc.1] at h3j
        by_cases hj : j ∈ st.2
        · rw [if_pos hj] at h3j
          exact absurd h3j.symm (Nat.succ_ne_zero label)
        · rw [if_neg hj] at h3j
          exact ⟨hj, h3j.symm⟩
      have hjlt : j < W*H := (nbrIdx_props hop hd hn).1
      refine ⟨?_, ?_, ?_, ?_⟩
      · intro i hi
        rcases List.mem_append.mp hi with hi' | hi'
        · exact h1 i hi'
        · rw [List.mem_singleton] at hi'
          subst hi'
          exact ⟨hjlt, hjq.2⟩
      · rw [List.nodup_append]
        refine ⟨h2, List.nodup_singleton j, ?_⟩
        intro a ha hb
        rw [List.mem_singleton] at hb
        subst hb
        exact hjq.1 ha
      · intro i
        dsimp only
        by_cases hij : i = j
        · subst hij
          rw [Function.update_same, if_pos (List.mem_append_right _ (List.mem_singleton_self i))]
        · rw [Function.update_noteq hij, h3 i]
          have hmem : (i ∈ st.2 ++ [j]) ↔ i ∈ st.2 := by
            rw [List.mem_append, List.mem_singleton]
            exact ⟨fun hor => hor.resolve_right hij, Or.inl⟩
          by_cases him : i ∈ st.2
          · rw [if_pos him, if_pos (hmem.mpr him)]
          · rw [if_neg him, if_neg (fun hcon => him (hmem.mp hcon))]
      · intro i hi
        exact List.mem_append_left _ hi
    · rw [if_neg hc]
      exact ⟨h1, h2, h3, fun i hi => hi⟩

theorem expand_fold_spec {W H : ℕ} {seg : ℕ → ℕ} {label : ℕ} (c0 : ℕ → ℕ)
    {op : ℕ} (hop : op < W*H) :
    ∀ (ds : List (ℤ × ℤ)), (∀ d ∈ ds, d ∈ dirs) → ∀ (st : (ℕ → ℕ) × List ℕ),
    (∀ i ∈ st.2, i < W*H ∧ c0 i = 0) → st.2.Nodup →
    (∀ i, st.1 i = if i ∈ st.2 then label + 1 else c0 i) →
    (∀ i ∈ (ds.foldl (expandAt W H seg label op) st).2, i < W*H ∧ c0 i = 0) ∧
    (ds.foldl (expandAt W H seg label op) st).2.Nodup ∧
    (∀ i, (ds.foldl (expandAt W H seg label op) st).1 i =
      if i ∈ (ds.foldl (expandAt W H seg label op) st).2 then label + 1 else c0 i) ∧
    (∀ i ∈ st.2, i ∈ (ds.foldl (expandAt W H seg label op) st).2) := by
  intro ds
  induction ds with
  | nil =>
    intro _ st h1 h2 h3
    exact ⟨h1, h2, h3, fun i hi => hi⟩
  | cons d ds ih =>
    intro hds st h1 h2 h3
    rw [List.foldl_cons]
    obtain ⟨g1, g2, g3, g4⟩ :=
      expandAt_spec c0 hop (hds d (List.mem_cons_self d ds)) h1 h2 h3
    obtain ⟨f1, f2, f3, f4⟩ :=
      ih (fun d' hd' => hds d' (List.mem_cons_of_mem d hd')) _ g1 g2 g3
    exact ⟨f1, f2, f3, fun i hi => f4 i (g4 i hi)⟩

theorem floodLoop_spec {W H : ℕ} {seg : ℕ → ℕ} {label : ℕ} (c0 : ℕ → ℕ) :
    ∀ (fuel : ℕ) (st : (ℕ → ℕ) × List ℕ) (k : ℕ),
    (∀ i ∈ st.2, i < W*H ∧ c0 i = 0) → st.2.Nodup →
    (∀ i, st.1 i = if i ∈ st.2 then label + 1 else c0 i) →
    (∀ i ∈ (floodLoop W H seg label fuel st k).2, i < W*H ∧ c0 i = 0) ∧
    (floodLoop W H seg label fuel st k).2.Nodup ∧
    (∀ i, (floodLoop W H seg label fuel st k).1 i =
      if i ∈ (floodLoop W H seg label fuel st k).2 then label + 1 else c0 i) ∧
    (∀ i ∈ st.2, i ∈ (floodLoop W H seg label fuel st k).2) := by
  intro fuel
  induction fuel with
  | zero =>
    intro st k h1 h2 h3
    exact ⟨h1, h2, h3, fun i hi => hi⟩
  | succ fuel ih =>
    intro st k h1 h2 h3
    rw [floodLoop]
    by_cases hk : k < st.2.length
    · rw [dif_pos hk]
      have hop : st.2.get ⟨k, hk⟩ < W*H :=
        (h1 _ (st.2.get_mem k hk)).1
      obtain ⟨g1, g2, g3, g4⟩ :=
        expand_fold_spec c0 hop dirs (fun d hd => hd) st h1 h2 h3
      obtain ⟨f1, f2, f3, f4⟩ := ih _ (k+1) g1 g2 g3
      exact ⟨f1, f2, f3, fun i hi => f4 i (g4 i hi)⟩
    · rw [dif_neg hk]
      exact ⟨h1, h2, h3, fun i hi => hi⟩

/-- Occurrences of the value `v` in the first `n` cells of `f`. -/
def cnt (n : ℕ) (f : ℕ → ℕ) (v : ℕ) : ℕ :=
  (List.range n).countP (fun i => f i = v)

theorem countP_or_disj (l : List ℕ) (P Q : ℕ → Prop) [DecidablePred P]
    [DecidablePred Q] (h : ∀ a, ¬(P a ∧ Q a)) :
    l.countP (fun a => P a ∨ Q a) =
      l.countP (fun a => P a) + l.countP (fun a => Q a) := by
  induction l with
  | nil => rfl
  | cons a l ih =>
    rw [List.countP_cons, List.countP_cons, List.countP_cons, ih]
    by_cases hp : P a <;> by_cases hq : Q a
    · exact absurd ⟨hp, hq⟩ (h a)
    · simp [hp, hq]
      omega
    · simp [hp, hq]
      omega
    · simp [hp, hq]

theorem range_countP_mem {n : ℕ} {q : List ℕ} (hq : q.Nodup)
    (hqn : ∀ i ∈ q, i < n) :
    (List.range n).countP (fun i => i ∈ q) = q.length := by
  rw [List.countP_eq_length_filter]
  have hperm : ((List.range n).filter (fun i => decide (i ∈ q))).Perm q := by
    rw [List.perm_ext_iff_of_nodup ((List.nodup_range n).filter _) hq]
    intro a
    rw [List.mem_filter, List.mem_range]
    simp only [decide_eq_true_eq]
    exact ⟨fun h => h.2, fun h => ⟨hqn a h, h⟩⟩
  exact hperm.length_eq

theorem cnt_patch {n : ℕ} {f : ℕ → ℕ} {q : List ℕ} {w : ℕ}
    (hq : q.Nodup) (hqn : ∀ i ∈ q, i < n ∧ f i = 0)
    (g : ℕ → ℕ) (hg : ∀ i, g i = if i ∈ q then w else f i) :
    ∀ v, v ≠ 0 → cnt n g v = cnt n f v + (if v = w then q.length else 0) := by
  intro v hv
  unfold cnt
  by_cases hvw : v = w
  · subst hvw
    rw [if_pos rfl]
    have hstep : (List.range n).countP (fun i => g i = v) =
        (List.range n).countP (fun i => i ∈ q ∨ f i = v) := by
      apply List.countP_congr
      intro i _
      simp only [decide_eq_true_eq]
      rw [hg i]
      by_cases hiq : i ∈ q
      · simp [hiq]
      · simp [hiq]
    rw [hstep]
    rw [countP_or_disj _ _ _ (fun a => fun hcon =>
      hv ((((hqn a hcon.1).2).symm.trans hcon.2).symm))]
    rw [range_countP_mem hq (fun i hi => (hqn i hi).1)]
    omega
  · rw [if_neg hvw, Nat.add_zero]
    apply List.countP_congr
    intro i _
    simp only [decide_eq_true_eq]
    rw [hg i]
    by_cases hiq : i ∈ q
    · rw [if_pos hiq]
      constructor
      · intro hwv
        exact absurd hwv.symm hvw
      · intro hfv
        exact absurd (((hqn i hiq).2).symm.trans hfv).symm hv
    · rw [if_neg hiq]

/-- Invariant of the outer pixel loop of `eliminateSmallRegions`: processed
pixels are cleaned, and every value present in the map is either carried by
at least `minRegionSize` pixels or is the value at pixel 0 (the region
flooded first has no already-cleaned neighbour and absorbs itself). -/
structure ElimInv (W H : ℕ) (minR : ℚ) (cleaned : ℕ → ℕ) (p : ℕ) : Prop where
  start : p = 0 → ∀ i, cleaned i = 0
  proc : ∀ i, i < p → cleaned i ≠ 0
  main : ∀ v, v ≠ 0 → (∃ i, i < W*H ∧ cleaned i = v) →
    minR ≤ (cnt (W*H) cleaned v : ℚ) ∨ v = cleaned 0

theorem elim_patch_inv {W H : ℕ} {minR : ℚ} {cleaned : ℕ → ℕ} {p w : ℕ}
    {q : List ℕ} {out : ℕ → ℕ}
    (hp : p < W*H) (hinv : ElimInv W H minR cleaned p)
    (hqn : q.Nodup) (hqb : ∀ i ∈ q, i < W*H ∧ cleaned i = 0) (hpq : p ∈ q)
    (hw : w ≠ 0)
    (hout : ∀ i, out i = if i ∈ q then w else cleaned i)
    (hgood : minR ≤ (q.length : ℚ) ∨ minR ≤ (cnt (W*H) cleaned w : ℚ) ∨
      w = cleaned 0 ∨ p = 0) :
    ElimInv W H minR out (p+1) := by
  have hcnt := cnt_patch hqn hqb out hout
  refine ⟨fun h0 => absurd h0 (Nat.succ_ne_zero p), ?_, ?_⟩
  · intro i hi
    rcases Nat.lt_succ_iff_lt_or_eq.mp hi with hi' | rfl
    · have hne := hinv.proc i hi'
      have hiq : i ∉ q := fun hin => hne (hqb i hin).2
      rw [hout i, if_neg hiq]
      exact hne
    · rw [hout i, if_pos hpq]
      exact hw
  · intro v hv hpres
    by_cases hvw : v = w
    · subst hvw
      rcases hgood with hg | hg | hg | hg
      · left
        rw [hcnt v hv, if_pos rfl]
        push_cast
        have : (0 : ℚ) ≤ (cnt (W*H) cleaned v : ℚ) := by positivity
        linarith
      · left
        rw [hcnt v hv, if_pos rfl]
        push_cast
        have : (0 : ℚ) ≤ ((q.length : ℕ) : ℚ) := by positivity
        linarith
      · right
        have h0q : 0 ∉ q := fun hin => hv (hg.trans (hqb 0 hin).2)
        rw [hout 0, if_neg h0q]
        exact hg
      · right
        subst hg
        rw [hout 0, if_pos hpq]
    · have hceq : cnt (W*H) out v = cnt (W*H) cleaned v := by
        rw [hcnt v hv, if_neg hvw, Nat.add_zero]
      obtain ⟨i, hilt, hiv⟩ := hpres
      have hiq : i ∉ q := by
        intro hin
        rw [hout i, if_pos hin] at hiv
        exact hvw hiv.symm
      rw [hout i, if_neg hiq] at hiv
      rcases hinv.main v hv ⟨i, hilt, hiv⟩ with hm | hm
      · left
        rw [hceq]
        exact hm
      · right
        have h0q : 0 ∉ q := by
          intro hin
          rw [(hqb 0 hin).2] at hm
          exact hv hm
        rw [hout 0, if_neg h0q]
        exact hm

theorem elimStep_inv {W H : ℕ} {seg : ℕ → ℕ} {minR : ℚ} {cleaned : ℕ → ℕ}
    {p : ℕ} (hp : p < W*H) (hinv : ElimInv W H minR cleaned p) :
    ElimInv W H minR (elimStep W H seg minR cleaned p) (p+1) := by
  by_cases hcp : cleaned p ≠ 0
  · have he : elimStep W H seg minR cleaned p = cleaned := by
      unfold elimStep
      rw [if_pos hcp]
    rw [he]
    refine ⟨fun h0 => absurd h0 (Nat.succ_ne_zero p), ?_, hinv.main⟩
    intro i hi
    rcases Nat.lt_succ_iff_lt_or_eq.mp hi with hi' | rfl
    · exact hinv.proc i hi'
    · exact hcp
  · have hc0 : cleaned p = 0 := not_ne_iff.mp hcp
    obtain ⟨c2, q, hfr⟩ : ∃ c2 q, floodLoop W H seg (seg p) (W*H)
        (Function.update cleaned p (seg p + 1), [p]) 0 = (c2, q) := ⟨_, _, rfl⟩
    have hq0 : ∀ i ∈ [p], i < W*H ∧ cleaned i = 0 := by
      intro i hi
      rw [List.mem_singleton] at hi
      subst hi
      exact ⟨hp, hc0⟩
    have hpt0 : ∀ i, (Function.update cleaned p (seg p + 1)) i =
        if i ∈ [p] then seg p + 1 else cleaned i := by
      intro i
      by_cases hip : i = p
      · subst hip
        rw [Function.update_same, if_pos (List.mem_singleton_self i)]
      · rw [Function.update_noteq hip,
          if_neg (by rw [List.mem_singleton]; exact hip)]
    obtain ⟨hb, hnd, hpt, hsub⟩ := floodLoop_spec cleaned (W*H)
      (Function.update cleaned p (seg p + 1), [p]) 0 hq0
      (List.nodup_singleton p) hpt0
    rw [hfr] at hb hnd hpt hsub
    dsimp only at hb hnd hpt hsub
    have hpq : p ∈ q := hsub p (List.mem_singleton_self p)
    have hstep : elimStep W H seg minR cleaned p =
        (if ((q.length : ℚ)) < minR
         then (fun i => if i ∈ q then
            dirs.foldl (scanAt W H (Function.update cleaned p (seg p + 1)) p)
              (seg p + 1) else c2 i)
         else c2) := by
      unfold elimStep
      rw [if_neg hcp]
      dsimp only
      rw [hfr]
    rw [hstep]
    by_cases hsmall : ((q.length : ℚ)) < minR
    · rw [if_pos hsmall]
      by_cases hp0 : p = 0
      · subst hp0
        have hall0 : ∀ i, cleaned i = 0 := hinv.start rfl
        have hmiss : dirs.foldl
            (scanAt W H (Function.update cleaned 0 (seg 0 + 1)) 0)
            (seg 0 + 1) = seg 0 + 1 := by
          apply scan_foldl_miss
          intro d hd j hn
          have hne := (nbrIdx_props hp hd hn).2
          rw [Function.update_noteq hne]
          exact hall0 j
        rw [hmiss]
        refine elim_patch_inv (w := seg 0 + 1) hp hinv hnd hb hpq
          (Nat.succ_ne_zero _) ?_ ?_
        · intro i
          by_cases hiq : i ∈ q
          · rw [if_pos hiq, if_pos hiq]
          · rw [if_neg hiq, if_neg hiq, hpt i, if_neg hiq]
        · exact Or.inr (Or.inr (Or.inr rfl))
      · obtain ⟨d0, hd0, j0, hn0, hj0lt⟩ := elim_hit hp (Nat.pos_of_ne_zero hp0)
        have hhit : ∃ d ∈ dirs, ∃ j, nbrIdx W H p d = some j ∧
            (Function.update cleaned p (seg p + 1)) j ≠ 0 := by
          refine ⟨d0, hd0, j0, hn0, ?_⟩
          have hne := (nbrIdx_props hp hd0 hn0).2
          rw [Function.update_noteq hne]
          exact hinv.proc j0 hj0lt
        obtain ⟨j1, ⟨d1, hd1, hn1⟩, hj1ne, heq⟩ :=
          scan_foldl_hit W H _ p dirs (seg p + 1) hhit
        have hj1p := (nbrIdx_props hp hd1 hn1).2
        have hj1lt := (nbrIdx_props hp hd1 hn1).1
        have hupd : (Function.update cleaned p (seg p + 1)) j1 = cleaned j1 :=
          Function.update_noteq hj1p _ _
        rw [hupd] at hj1ne heq
        rw [heq]
        refine elim_patch_inv (w := cleaned j1) hp hinv hnd hb hpq hj1ne ?_ ?_
        · intro i
          by_cases hiq : i ∈ q
          · rw [if_pos hiq, if_pos hiq]
          · rw [if_neg hiq, if_neg hiq, hpt i, if_neg hiq]
        · rcases hinv.main (cleaned j1) hj1ne ⟨j1, hj1lt, rfl⟩ with hm | hm
          · exact Or.inr (Or.inl hm)
          · exact Or.inr (Or.inr (Or.inl hm))
    · rw [if_neg hsmall]
      refine elim_patch_inv (w := seg p + 1) hp hinv hnd hb hpq
        (Nat.succ_ne_zero _) hpt ?_
      exact Or.inl (not_lt.mp hsmall)

theorem elim_fold_inv (W H : ℕ) (seg : ℕ → ℕ) (minR : ℚ) :
    ∀ m, m ≤ W*H →
    ElimInv W H minR ((List.range m).foldl (elimStep W H seg minR) (fun _ => 0)) m := by
  intro m
  induction m with
  | zero =>
    intro _
    refine ⟨fun _ i => rfl, ?_, ?_⟩
    · intro i hi
      exact absurd hi (Nat.not_lt_zero i)
    · intro v hv hpres
      obtain ⟨i, -, hiv⟩ := hpres
      exact absurd hiv.symm hv
  | succ m ih =>
    intro hm
    rw [List.range_succ, List.foldl_append, List.foldl_cons, List.foldl_nil]
    exact elimStep_inv (by omega) (ih (by omega))

/-- The amended size bound of `eliminateSmallRegions`: every output label
is carried by at least `minRegionSize` pixels, except possibly the label
of pixel 0. -/
theorem eliminateSmallRegions_spec (W H : ℕ) (seg : ℕ → ℕ) (minR : ℚ) :
    ∀ u, (∃ i, i < W*H ∧ eliminateSmallRegions W H seg minR i = u) →
      minR ≤ (cnt (W*H) (eliminateSmallRegions W H seg minR) u : ℚ) ∨
      u = eliminateSmallRegions W H seg minR 0 := by
  intro u hpres
  obtain ⟨i0, hi0, hiv0⟩ := hpres
  have hinv := elim_fold_inv W H seg minR (W*H) (le_refl _)
  obtain ⟨cfin, hcfin⟩ : ∃ c, (List.range (W*H)).foldl (elimStep W H seg minR)
      (fun _ => 0) = c := ⟨_, rfl⟩
  rw [hcfin] at hinv
  have helim : eliminateSmallRegions W H seg minR = fun i => cfin i - 1 := by
    unfold eliminateSmallRegions
    rw [hcfin]
  rw [helim]
  rw [helim] at hiv0
  have hnz : ∀ i, i < W*H → cfin i ≠ 0 := fun i hi => hinv.proc i hi
  have hcnt_eq : cnt (W*H) (fun i => cfin i - 1) u = cnt (W*H) cfin (u+1) := by
    unfold cnt
    apply List.countP_congr
    intro x hx
    rw [List.mem_range] at hx
    simp only [decide_eq_true_eq]
    have := hnz x hx
    omega
  have hiv0n : cfin i0 - 1 = u := hiv0
  have hpres' : ∃ i, i < W*H ∧ cfin i = u + 1 := by
    refine ⟨i0, hi0, ?_⟩
    have := hnz i0 hi0
    omega
  rcases hinv.main (u+1) (Nat.succ_ne_zero u) hpres' with hm | hm
  · left
    rw [hcnt_eq]
    exact hm
  · right
    have h0 : 0 < W*H := Nat.lt_of_le_of_lt (Nat.zero_le i0) hi0
    have := hnz 0 h0
    show u = cfin 0 - 1
    omega

theorem remapStep_mono {st : RemapSt} {l v : ℕ} (h : st.map l = some v)
    (lab : ℕ) : (remapStep st lab).map l = some v := by
  unfold remapStep
  cases hm : st.map lab with
  | some w => exact h
  | none =>
    dsimp only
    have hne : l ≠ lab := by
      intro hc
      rw [hc, hm] at h
      exact Option.noConfusion h
    rw [Function.update_noteq hne]
    exact h

theorem remapFold_mono (ls : List ℕ) : ∀ {st : RemapSt} {l v : ℕ},
    st.map l = some v → (ls.foldl remapStep st).map l = some v := by
  induction ls with
  | nil =>
    intro st l v h
    exact h
  | cons a ls ih =>
    intro st l v h
    rw [List.foldl_cons]
    exact ih (remapStep_mono h a)

theorem remap_head_zero {a : ℕ} (rest : List ℕ) :
    ((rest.foldl remapStep (remapStep remapInit a)).map) a = some 0 := by
  apply remapFold_mono
  unfold remapStep remapInit
  dsimp only
  rw [Function.update_same]

/-- Transport of the cleanup bound through `remapLabels`: every final
compacted label is carried by at least `minRegionSize` pixels, except
possibly the label `0` (the one of pixel 0). -/
theorem slic_cleanup_bound (W H : ℕ) (segL : List ℕ) (minR : ℚ) :
    ∀ w ∈ (remapLabels ((List.range (W*H)).map
        (eliminateSmallRegions W H (fun i => segL.getD i 0) minR))).1,
      minR ≤ ((remapLabels ((List.range (W*H)).map
        (eliminateSmallRegions W H (fun i => segL.getD i 0) minR))).1.count w : ℚ)
      ∨ w = 0 := by
  intro w hw
  obtain ⟨E, hE⟩ : ∃ E, eliminateSmallRegions W H (fun i => segL.getD i 0) minR = E :=
    ⟨_, rfl⟩
  rw [hE] at hw ⊢
  obtain ⟨s, hs⟩ : ∃ s, (List.range (W*H)).map E = s := ⟨_, rfl⟩
  rw [hs] at hw ⊢
  have hinv := remapInv_fold s
  have hout : (remapLabels s).1 = (s.foldl remapStep remapInit).out := rfl
  rw [hout] at hw ⊢
  have hcpos : 0 < s.countP
      (fun l => (s.foldl remapStep remapInit).map l = some w) := by
    rw [← hinv.count_spec w]
    exact List.count_pos_iff.mpr hw
  obtain ⟨l, hl, hlw⟩ := List.countP_pos.mp hcpos
  simp only [decide_eq_true_eq] at hlw
  have hcount : (s.foldl remapStep remapInit).out.count w = s.count l := by
    rw [hinv.count_spec w, List.count, List.countP_congr]
    intro x hx
    simp only [decide_eq_true_eq, beq_iff_eq]
    constructor
    · intro hxw
      exact hinv.inj x l w hxw hlw
    · intro hxl
      rw [hxl]
      exact hlw
  have hscount : s.count l = cnt (W*H) E l := by
    rw [← hs, List.count, List.countP_map]
    unfold cnt
    apply List.countP_congr
    intro x _
    simp only [Function.comp, decide_eq_true_eq, beq_iff_eq]
  have hlpres : ∃ i, i < W*H ∧ E i = l := by
    rw [← hs] at hl
    obtain ⟨i, hi, hEi⟩ := List.mem_map.mp hl
    exact ⟨i, List.mem_range.mp hi, hEi⟩
  rcases (hE ▸ eliminateSmallRegions_spec W H (fun i => segL.getD i 0) minR) l
      (hE ▸ hlpres) with hm | hm
  · left
    rw [hcount, hscount]
    exact hE ▸ hm
  · right
    -- l = E 0, and the first processed label maps to 0
    have hn0 : 0 < W*H := by
      obtain ⟨i, hi, -⟩ := hlpres
      exact Nat.lt_of_le_of_lt (Nat.zero_le i) hi
    obtain ⟨m, hme⟩ : ∃ m, W*H = m + 1 := ⟨W*H - 1, by omega⟩
    have hmap0 : (s.foldl remapStep remapInit).map (E 0) = some 0 := by
      rw [← hs, hme, List.range_succ_eq_map, List.map_cons, List.foldl_cons]
      exact remap_head_zero _
    have hlE0 : l = E 0 := hE ▸ hm
    rw [hlE0] at hlw
    rw [hmap0] at hlw
    exact (Option.some.inj hlw).symm

/-! #### The dead adaptive-parameter update (mcMap/msMap are never written) -/

theorem getD_replicate_zero (n i : ℕ) : (List.replicate n (0:ℚ)).getD i 0 = 0 := by
  rcases lt_or_le i n with h | h
  · rw [List.getD_eq_getElem _ _ (by simpa using h)]
    simp
  · rw [List.getD_eq_default _ _ (by simpa using h)]

theorem updateClusterParams_id (segL : List ℕ) (mcMap msMap cp : List ℚ)
    (hmc : ∀ i, mcMap.getD i 0 = 0) (hms : ∀ i, msMap.getD i 0 = 0) :
    updateClusterParams segL mcMap msMap cp = cp := by
  unfold updateClusterParams
  dsimp only
  suffices h : ∀ l : List ℕ,
      l.foldl (fun st i =>
        let region := segL.getD i 0
        let st1 : List ℚ × List ℚ × List ℚ :=
          if st.1.getD region 0 < mcMap.getD region 0 then
            (st.1.set region (mcMap.getD region 0), st.2.1,
             st.2.2.set (region*2) (mcMap.getD region 0))
          else st
        if st1.2.1.getD region 0 < msMap.getD region 0 then
          (st1.1, st1.2.1.set region (msMap.getD region 0),
           st1.2.2.set (region*2+1) (msMap.getD region 0))
        else st1)
        (List.replicate (cp.length / 2) 0, List.replicate (cp.length / 2) 0, cp)
      = (List.replicate (cp.length / 2) 0, List.replicate (cp.length / 2) 0, cp) by
    rw [h (List.range segL.length)]
  intro l
  induction l with
  | nil => rfl
  | cons a l ih =>
    rw [List.foldl_cons]
    have hstep :
        (if (List.replicate (cp.length / 2) (0:ℚ)).getD (segL.getD a 0) 0 <
            mcMap.getD (segL.getD a 0) 0 then
          ((List.replicate (cp.length / 2) (0:ℚ)).set (segL.getD a 0)
            (mcMap.getD (segL.getD a 0) 0), List.replicate (cp.length / 2) (0:ℚ),
           cp.set ((segL.getD a 0)*2) (mcMap.getD (segL.getD a 0) 0))
        else (List.replicate (cp.length / 2) (0:ℚ),
          List.replicate (cp.length / 2) (0:ℚ), cp))
        = (List.replicate (cp.length / 2) (0:ℚ),
           List.replicate (cp.length / 2) (0:ℚ), cp) := by
      rw [if_neg]
      rw [getD_replicate_zero, hmc]
      exact lt_irrefl 0
    dsimp only
    rw [hstep]
    dsimp only
    rw [if_neg (by rw [getD_replicate_zero, hms]; exact lt_irrefl 0)]
    exact ih

theorem postAssign_id (sg : List ℕ) (mcMap msMap cp : List ℚ)
    (hmc : ∀ i, mcMap.getD i 0 = 0) (hms : ∀ i, msMap.getD i 0 = 0)
    (hcp : ∀ i, 0 ≤ cp.getD i 0) :
    ∀ l : List ℕ,
      l.foldl (fun c n =>
        let r := sg.getD n 0
        let c1 := if c.getD (r*2) 0 < mcMap.getD n 0 then
          c.set (r*2) (mcMap.getD n 0) else c
        if c1.getD (r*2+1) 0 < msMap.getD n 0 then c1.set (r*2+1) (msMap.getD n 0)
        else c1) cp = cp := by
  intro l
  induction l with
  | nil => rfl
  | cons a l ih =>
    rw [List.foldl_cons]
    dsimp only
    have h1 : ¬(cp.getD ((sg.getD a 0)*2) 0 < mcMap.getD a 0) := by
      rw [hmc]
      exact not_lt.mpr (hcp _)
    rw [if_neg h1]
    have h2 : ¬(cp.getD ((sg.getD a 0)*2+1) 0 < msMap.getD a 0) := by
      rw [hms]
      exact not_lt.mpr (hcp _)
    rw [if_neg h2]
    exact ih

set_option maxHeartbeats 1000000 in
theorem assignSuperpixelLabel_cp (labData : List ℚ) (sqrtQ : ℚ → ℚ)
    (seg : List ℕ) (mcMap msMap centers cp : List ℚ) (nRX nRY S imW imH : ℕ)
    (hmc : ∀ i, mcMap.getD i 0 = 0) (hms : ∀ i, msMap.getD i 0 = 0)
    (hcp : ∀ i, 0 ≤ cp.getD i 0) :
    (assignSuperpixelLabel labData sqrtQ seg mcMap msMap centers cp
      nRX nRY S imW imH).2 = cp :=
  postAssign_id ((List.range (nRX*nRY)).foldl
      (assignRegion labData sqrtQ centers cp S imW imH)
      (seg, List.replicate (imW*imH) ⊤)).1
    mcMap msMap cp hmc hms hcp (List.range (imW*imH))

theorem initParams_nonneg (labData edgeMap : List ℚ)
    (nRX nRY rs imW imH : ℕ) :
    ∀ i, 0 ≤ (initializeKmeansCenters labData edgeMap nRX nRY rs imW imH).2.getD i 0 := by
  intro i
  have hL : ∀ x ∈ (initializeKmeansCenters labData edgeMap nRX nRY rs imW imH).2,
      (0:ℚ) ≤ x := by
    intro x hx
    have hx' : x ∈ (List.range (nRY*nRX)).flatMap (fun _ =>
        [(10*10 : ℚ), (rs : ℚ) * (rs : ℚ)]) := hx
    rw [List.mem_flatMap] at hx'
    obtain ⟨-, -, hv⟩ := hx'
    rcases List.mem_cons.mp hv with rfl | hv'
    · norm_num
    · rcases List.mem_cons.mp hv' with rfl | hv''
      · positivity
      · exact absurd hv'' (List.not_mem_nil _)
  rcases lt_or_le i (initializeKmeansCenters labData edgeMap nRX nRY rs imW imH).2.length
    with h | h
  · rw [List.getD_eq_getElem _ _ h]
    exact hL _ (List.getElem_mem h)
  · rw [List.getD_eq_default _ _ h]

theorem slicIter_frozen (labData : List ℚ) (sqrtQ : ℚ → ℚ)
    (nRX nRY rs imW imH numRegions : ℕ) :
    ∀ (fuel : ℕ) (st : SlicSt),
    (∀ i, st.mcMap.getD i 0 = 0) → (∀ i, st.msMap.getD i 0 = 0) →
    (∀ i, 0 ≤ st.cp.getD i 0) →
    (slicIter labData sqrtQ nRX nRY rs imW imH numRegions fuel st).cp = st.cp ∧
    (slicIter labData sqrtQ nRX nRY rs imW imH numRegions fuel st).mcMap = st.mcMap ∧
    (slicIter labData sqrtQ nRX nRY rs imW imH numRegions fuel st).msMap = st.msMap := by
  intro fuel
  induction fuel with
  | zero =>
    intro st _ _ _
    exact ⟨rfl, rfl, rfl⟩
  | succ fuel ih =>
    intro st hmc hms hcp
    rw [slicIter]
    have hcp1 : (assignSuperpixelLabel labData sqrtQ st.seg st.mcMap st.msMap
        st.centers st.cp nRX nRY rs imW imH).2 = st.cp :=
      assignSuperpixelLabel_cp _ _ _ _ _ _ _ _ _ _ _ _ hmc hms hcp
    rw [hcp1]
    rw [updateClusterParams_id _ _ _ _ hmc hms]
    by_cases herr : computeResidualError sqrtQ st.centers
        (computeCenters labData (assignSuperpixelLabel labData sqrtQ st.seg
          st.mcMap st.msMap st.centers st.cp nRX nRY rs imW imH).1
          numRegions imW imH) < 0.00001
    · rw [if_pos herr]
      exact ⟨rfl, rfl, rfl⟩
    · rw [if_neg herr]
      exact ih _ hmc hms hcp

/-- The sizes recorded at the roots partition the pixels. -/
theorem sizes_sum {u : Univ} (h : UnivInv u) :
    (∑ r ∈ rootsSet u, u.size r) = u.n := by
  have hcong : ∀ r ∈ rootsSet u, u.size r = (classOf u r).card := by
    intro r hr
    obtain ⟨hrlt, hrroot⟩ := mem_rootsSet.mp hr
    exact h.size_eq r hrlt hrroot
  have hdisj : ∀ r ∈ rootsSet u, ∀ r' ∈ rootsSet u, r ≠ r' →
      Disjoint (classOf u r) (classOf u r') := by
    intro r _ r' _ hne
    rw [Finset.disjoint_left]
    intro i hir hir'
    have h1 := (mem_classOf.mp hir).2
    have h2 := (mem_classOf.mp hir').2
    exact hne (h1.symm.trans h2)
  have hbiU : (rootsSet u).biUnion (classOf u) = Finset.range u.n := by
    ext i
    simp only [Finset.mem_biUnion, Finset.mem_range]
    constructor
    · rintro ⟨r, -, hir⟩
      exact (mem_classOf.mp hir).1
    · intro hi
      obtain ⟨h1, h2, -, -⟩ := rootOf_spec h hi
      exact ⟨rootOf u i, mem_rootsSet.mpr ⟨h1, h2⟩, mem_classOf.mpr ⟨hi, rfl⟩⟩
  rw [Finset.sum_congr rfl hcong, ← Finset.card_biUnion hdisj, hbiU,
    Finset.card_range]

/-- An exact integer square root on the rationals whose numerators are
perfect squares below `2^16` (the only values `Math.sqrt` receives in the
counterexample below, where the squared color distances are perfect
squares). -/
def ratSqrt (q : ℚ) : ℚ :=
  (List.range 256).foldl (fun acc k => if ((k*k : ℕ) : ℚ) ≤ q then (k : ℚ) else acc) 0

/-- A 3×2 RGBA image (red channel `202,131,9,5,214,215`, green/blue/alpha
zero) on which the segment count is not antitone in the threshold
constant. -/
def c8Image : List ℕ :=
  [202,0,0,0, 131,0,0,0, 9,0,0,0, 5,0,0,0, 214,0,0,0, 215,0,0,0]

/-! ### An array-backed mirror of the universe, for concrete runs

The JS `universe` keeps `rank`, `p`, `size` and `threshold` in typed
arrays.  The function-backed `Univ` above is convenient for stating
invariants; to evaluate the algorithm on concrete inputs the same state is
mirrored in lists, and the two representations are proved to run in
lockstep (`segmentGraphOn_eq_absL`).  The `getD` defaults are chosen to
agree with the values `createUniverse` assigns, so that the read-back
`absL` is a plain function equality. -/

structure UnivL where
  n : ℕ
  nodes : ℕ
  rank : List ℕ
  p : List ℕ
  size : List ℕ
  threshold : List ℚ
deriving DecidableEq

def createUniverseL (n : ℕ) (c : ℚ) : UnivL :=
  { n := n, nodes := n, rank := List.replicate n 0, p := List.range n
    size := List.replicate n 1, threshold := List.replicate n c }

def findLoopL (p : List ℕ) : ℕ → ℕ → ℕ
  | 0, i => i
  | fuel + 1, i => if p.getD i i = i then i else findLoopL p fuel (p.getD i i)

def rootOfL (v : UnivL) (x : ℕ) : ℕ := findLoopL v.p v.n x

def findNodeL (v : UnivL) (x : ℕ) : UnivL × ℕ :=
  let r := rootOfL v x
  ({ v with p := v.p.set x r }, r)

def joinNodeL (v : UnivL) (a b : ℕ) : UnivL :=
  if v.rank.getD b 0 < v.rank.getD a 0 then
    { v with p := v.p.set b a
             size := v.size.set a (v.size.getD a 1 + v.size.getD b 1)
             nodes := v.nodes - 1 }
  else
    { v with p := v.p.set a b
             size := v.size.set b (v.size.getD b 1 + v.size.getD a 1)
             rank := if v.rank.getD a 0 = v.rank.getD b 0
                     then v.rank.set b (v.rank.getD b 0 + 1) else v.rank
             nodes := v.nodes - 1 }

def mergeStepL (c : ℚ) (v : UnivL) (e : Edge) : UnivL :=
  let f1 := findNodeL v e.a
  let f2 := findNodeL f1.1 e.b
  let a := f1.2
  let b := f2.2
  let u2 := f2.1
  if a ≠ b ∧ e.w ≤ u2.threshold.getD a c ∧ e.w ≤ u2.threshold.getD b c then
    let u3 := joinNodeL u2 a b
    let f3 := findNodeL u3 a
    let u4 := f3.1
    let r := f3.2
    { u4 with threshold := u4.threshold.set r (e.w + c / (u4.size.getD r 1 : ℚ)) }
  else u2

def smallStepL (minSize : ℚ) (v : UnivL) (e : Edge) : UnivL :=
  let f1 := findNodeL v e.a
  let f2 := findNodeL f1.1 e.b
  let a := f1.2
  let b := f2.2
  let u2 := f2.1
  if a ≠ b ∧ (((u2.size.getD a 1 : ℚ) < minSize) ∨ ((u2.size.getD b 1 : ℚ) < minSize)) then
    joinNodeL u2 a b
  else u2

def segmentGraphOnL (n : ℕ) (E : List Edge) (c : ℚ) (minSize : ℚ) : UnivL :=
  let es := sortEdges E
  let u0 := createUniverseL n c
  let u1 := es.foldl (mergeStepL c) u0
  es.foldl (smallStepL minSize) u1

/-- Reading the list-backed state back as a function-backed universe.
Out-of-range slots take the values `createUniverse` gives them (the
threshold default is the constant `c` of the run). -/
def absL (c : ℚ) (v : UnivL) : Univ :=
  { n := v.n, nodes := v.nodes,
    rank := fun i => v.rank.getD i 0,
    p := fun i => v.p.getD i i,
    size := fun i => v.size.getD i 1,
    threshold := fun i => v.threshold.getD i c }

/-- Well-formedness of the list-backed state: the four arrays have length
`n` and parents of in-range nodes are in range. -/
structure LInv (v : UnivL) : Prop where
  rank_len : v.rank.length = v.n
  p_len : v.p.length = v.n
  size_len : v.size.length = v.n
  thr_len : v.threshold.length = v.n
  p_lt : ∀ i < v.n, v.p.getD i i < v.n

theorem getD_set_self {α : Type} {l : List α} {m : ℕ} {a d : α} (h : m < l.length) :
    (l.set m a).getD m d = a := by
  rw [List.getD_eq_getElem?_getD, List.getElem?_set_self h]
  rfl

theorem getD_set_ne {α : Type} {l : List α} {m i : ℕ} {a d : α} (h : i ≠ m) :
    (l.set m a).getD i d = l.getD i d := by
  rw [List.getD_eq_getElem?_getD, List.getElem?_set_ne (by omega),
    ← List.getD_eq_getElem?_getD]

theorem update_getD_id {l : List ℕ} {x r : ℕ} (hx : x < l.length) :
    Function.update (fun i => l.getD i i) x r = fun i => (l.set x r).getD i i := by
  funext i
  rcases eq_or_ne i x with rfl | h
  · rw [Function.update_same, getD_set_self hx]
  · rw [Function.update_noteq h, getD_set_ne h]

theorem update_getD_const {α : Type} {l : List α} {x : ℕ} {r d : α} (hx : x < l.length) :
    Function.update (fun i => l.getD i d) x r = fun i => (l.set x r).getD i d := by
  funext i
  rcases eq_or_ne i x with rfl | h
  · rw [Function.update_same, getD_set_self hx]
  · rw [Function.update_noteq h, getD_set_ne h]

theorem findLoopL_eq (p : List ℕ) :
    ∀ fuel x, findLoop (fun i => p.getD i i) fuel x = findLoopL p fuel x := by
  intro fuel
  induction fuel with
  | zero => intro x; rfl
  | succ m ih =>
    intro x
    show (if p.getD x x = x then x else findLoop (fun i => p.getD i i) m (p.getD x x)) = _
    rw [findLoopL]
    by_cases h : p.getD x x = x
    · rw [if_pos h, if_pos h]
    · rw [if_neg h, if_neg h, ih]

theorem findLoopL_lt {p : List ℕ} {n : ℕ} (hp : ∀ i < n, p.getD i i < n) :
    ∀ fuel x, x < n → findLoopL p fuel x < n := by
  intro fuel
  induction fuel with
  | zero => intro x hx; exact hx
  | succ m ih =>
    intro x hx
    rw [findLoopL]
    by_cases h : p.getD x x = x
    · rw [if_pos h]; exact hx
    · rw [if_neg h]; exact ih _ (hp x hx)

theorem rootOf_absL {v : UnivL} {c : ℚ} {x : ℕ} :
    rootOf (absL c v) x = rootOfL v x :=
  findLoopL_eq v.p v.n x

theorem findNodeL_comm {v : UnivL} (c : ℚ) (hv : LInv v) {x : ℕ} (hx : x < v.n) :
    findNode (absL c v) x = (absL c (findNodeL v x).1, (findNodeL v x).2) ∧
    LInv (findNodeL v x).1 ∧ (findNodeL v x).1.n = v.n ∧ (findNodeL v x).2 < v.n := by
  have hrlt : rootOfL v x < v.n := findLoopL_lt hv.p_lt v.n x hx
  refine ⟨?_, ?_, rfl, hrlt⟩
  · unfold findNode findNodeL
    dsimp only
    rw [rootOf_absL]
    refine Prod.ext ?_ rfl
    show ({ absL c v with p := Function.update (absL c v).p x (rootOfL v x) } : Univ) = _
    simp only [absL]
    rw [update_getD_id (by rw [hv.p_len]; exact hx)]
  · unfold findNodeL
    dsimp only
    refine ⟨hv.rank_len, ?_, hv.size_len, hv.thr_len, ?_⟩
    · rw [List.length_set]; exact hv.p_len
    · intro i hi
      rcases eq_or_ne i x with rfl | h
      · rw [getD_set_self (by rw [hv.p_len]; exact hx)]; exact hrlt
      · rw [getD_set_ne h]; exact hv.p_lt i hi

theorem joinNodeL_comm {v : UnivL} (c : ℚ) (hv : LInv v) {a b : ℕ}
    (ha : a < v.n) (hb : b < v.n) :
    joinNode (absL c v) a b = absL c (joinNodeL v a b) ∧
    LInv (joinNodeL v a b) ∧ (joinNodeL v a b).n = v.n := by
  have hal : a < v.p.length := by rw [hv.p_len]; exact ha
  have hbl : b < v.p.length := by rw [hv.p_len]; exact hb
  have has : a < v.size.length := by rw [hv.size_len]; exact ha
  have hbs : b < v.size.length := by rw [hv.size_len]; exact hb
  have hbr : b < v.rank.length := by rw [hv.rank_len]; exact hb
  unfold joinNode joinNodeL
  by_cases hr : v.rank.getD b 0 < v.rank.getD a 0
  · have hrA : (absL c v).rank b < (absL c v).rank a := hr
    rw [if_pos hrA, if_pos hr]
    refine ⟨?_, ?_, rfl⟩
    · dsimp only [absL]
      rw [update_getD_id hbl, update_getD_const has]
    · refine ⟨hv.rank_len, ?_, ?_, hv.thr_len, ?_⟩
      · rw [List.length_set]; exact hv.p_len
      · rw [List.length_set]; exact hv.size_len
      · intro i hi
        rcases eq_or_ne i b with rfl | h
        · rw [getD_set_self hbl]; exact ha
        · rw [getD_set_ne h]; exact hv.p_lt i hi
  · have hrA : ¬ ((absL c v).rank b < (absL c v).rank a) := hr
    rw [if_neg hrA, if_neg hr]
    by_cases he : v.rank.getD a 0 = v.rank.getD b 0
    · have heA : (absL c v).rank a = (absL c v).rank b := he
      rw [if_pos heA, if_pos he]
      refine ⟨?_, ?_, rfl⟩
      · dsimp only [absL]
        rw [update_getD_id hal, update_getD_const hbs, update_getD_const hbr]
      · refine ⟨?_, ?_, ?_, hv.thr_len, ?_⟩
        · rw [List.length_set]; exact hv.rank_len
        · rw [List.length_set]; exact hv.p_len
        · rw [List.length_set]; exact hv.size_len
        · intro i hi
          rcases eq_or_ne i a with rfl | h
          · rw [getD_set_self hal]; exact hb
          · rw [getD_set_ne h]; exact hv.p_lt i hi
    · have heA : ¬ ((absL c v).rank a = (absL c v).rank b) := he
      rw [if_neg heA, if_neg he]
      refine ⟨?_, ?_, rfl⟩
      · dsimp only [absL]
        rw [update_getD_id hal, update_getD_const hbs]
      · refine ⟨hv.rank_len, ?_, ?_, hv.thr_len, ?_⟩
        · rw [List.length_set]; exact hv.p_len
        · rw [List.length_set]; exact hv.size_len
        · intro i hi
          rcases eq_or_ne i a with rfl | h
          · rw [getD_set_self hal]; exact hb
          · rw [getD_set_ne h]; exact hv.p_lt i hi

theorem mergeStepL_comm {v : UnivL} {c : ℚ} (hv : LInv v) {e : Edge}
    (ha : e.a < v.n) (hb : e.b < v.n) :
    mergeStep c (absL c v) e = absL c (mergeStepL c v e) ∧
    LInv (mergeStepL c v e) ∧ (mergeStepL c v e).n = v.n := by
  obtain ⟨h1eq, h1inv, h1n, h1lt⟩ := findNodeL_comm c hv ha
  obtain ⟨h2eq, h2inv, h2n, h2lt⟩ :=
    findNodeL_comm (x := e.b) c h1inv (by rw [h1n]; exact hb)
  have hA2 : (findNodeL v e.a).2 < (findNodeL (findNodeL v e.a).1 e.b).1.n := by
    rw [h2n, h1n]; exact h1lt
  have hB2 : (findNodeL (findNodeL v e.a).1 e.b).2 <
      (findNodeL (findNodeL v e.a).1 e.b).1.n := by
    rw [h2n]; exact h2lt
  obtain ⟨h3eq, h3inv, h3n⟩ := joinNodeL_comm c h2inv hA2 hB2
  obtain ⟨h4eq, h4inv, h4n, h4lt⟩ :=
    findNodeL_comm (x := (findNodeL v e.a).2) c h3inv (by rw [h3n]; exact hA2)
  unfold mergeStep mergeStepL
  dsimp only
  rw [h1eq]
  dsimp only
  rw [h2eq]
  dsimp only
  by_cases hg : (findNodeL v e.a).2 ≠ (findNodeL (findNodeL v e.a).1 e.b).2 ∧
      e.w ≤ (findNodeL (findNodeL v e.a).1 e.b).1.threshold.getD ((findNodeL v e.a).2) c ∧
      e.w ≤ (findNodeL (findNodeL v e.a).1 e.b).1.threshold.getD
        ((findNodeL (findNodeL v e.a).1 e.b).2) c
  · have hgA : (findNodeL v e.a).2 ≠ (findNodeL (findNodeL v e.a).1 e.b).2 ∧
        e.w ≤ (absL c (findNodeL (findNodeL v e.a).1 e.b).1).threshold ((findNodeL v e.a).2) ∧
        e.w ≤ (absL c (findNodeL (findNodeL v e.a).1 e.b).1).threshold
          ((findNodeL (findNodeL v e.a).1 e.b).2) := hg
    rw [if_pos hgA, if_pos hg]
    rw [h3eq]
    rw [h4eq]
    dsimp only
    have hthr : (findNodeL (joinNodeL (findNodeL (findNodeL v e.a).1 e.b).1
        ((findNodeL v e.a).2) ((findNodeL (findNodeL v e.a).1 e.b).2)) ((findNodeL v e.a).2)).2 <
        (findNodeL (joinNodeL (findNodeL (findNodeL v e.a).1 e.b).1
        ((findNodeL v e.a).2) ((findNodeL (findNodeL v e.a).1 e.b).2)) ((findNodeL v e.a).2)).1.threshold.length := by
      rw [h4inv.thr_len, h4n]; exact h4lt
    refine ⟨?_, ?_, ?_⟩
    · dsimp only [absL]
      rw [update_getD_const hthr]
    · exact ⟨h4inv.rank_len, h4inv.p_len, h4inv.size_len,
        by rw [List.length_set]; exact h4inv.thr_len, h4inv.p_lt⟩
    · show (findNodeL _ _).1.n = v.n
      rw [h4n, h3n, h2n, h1n]
  · have hgA : ¬ ((findNodeL v e.a).2 ≠ (findNodeL (findNodeL v e.a).1 e.b).2 ∧
        e.w ≤ (absL c (findNodeL (findNodeL v e.a).1 e.b).1).threshold ((findNodeL v e.a).2) ∧
        e.w ≤ (absL c (findNodeL (findNodeL v e.a).1 e.b).1).threshold
          ((findNodeL (findNodeL v e.a).1 e.b).2)) := hg
    rw [if_neg hgA, if_neg hg]
    exact ⟨rfl, h2inv, by rw [h2n, h1n]⟩

theorem smallStepL_comm {v : UnivL} {c m : ℚ} (hv : LInv v) {e : Edge}
    (ha : e.a < v.n) (hb : e.b < v.n) :
    smallStep m (absL c v) e = absL c (smallStepL m v e) ∧
    LInv (smallStepL m v e) ∧ (smallStepL m v e).n = v.n := by
  obtain ⟨h1eq, h1inv, h1n, h1lt⟩ := findNodeL_comm c hv ha
  obtain ⟨h2eq, h2inv, h2n, h2lt⟩ :=
    findNodeL_comm (x := e.b) c h1inv (by rw [h1n]; exact hb)
  have hA2 : (findNodeL v e.a).2 < (findNodeL (findNodeL v e.a).1 e.b).1.n := by
    rw [h2n, h1n]; exact h1lt
  have hB2 : (findNodeL (findNodeL v e.a).1 e.b).2 <
      (findNodeL (findNodeL v e.a).1 e.b).1.n := by
    rw [h2n]; exact h2lt
  obtain ⟨h3eq, h3inv, h3n⟩ := joinNodeL_comm c h2inv hA2 hB2
  unfold smallStep smallStepL
  dsimp only
  rw [h1eq]
  dsimp only
  rw [h2eq]
  dsimp only
  by_cases hg : (findNodeL v e.a).2 ≠ (findNodeL (findNodeL v e.a).1 e.b).2 ∧
      (((findNodeL (findNodeL v e.a).1 e.b).1.size.getD ((findNodeL v e.a).2) 1 : ℚ) < m ∨
       ((findNodeL (findNodeL v e.a).1 e.b).1.size.getD
         ((findNodeL (findNodeL v e.a).1 e.b).2) 1 : ℚ) < m)
  · have hgA : (findNodeL v e.a).2 ≠ (findNodeL (findNodeL v e.a).1 e.b).2 ∧
        (((absL c (findNodeL (findNodeL v e.a).1 e.b).1).size ((findNodeL v e.a).2) : ℚ) < m ∨
         ((absL c (findNodeL (findNodeL v e.a).1 e.b).1).size
           ((findNodeL (findNodeL v e.a).1 e.b).2) : ℚ) < m) := hg
    rw [if_pos hgA, if_pos hg]
    exact ⟨h3eq, h3inv, by rw [h3n, h2n, h1n]⟩
  · have hgA : ¬ ((findNodeL v e.a).2 ≠ (findNodeL (findNodeL v e.a).1 e.b).2 ∧
        (((absL c (findNodeL (findNodeL v e.a).1 e.b).1).size ((findNodeL v e.a).2) : ℚ) < m ∨
         ((absL c (findNodeL (findNodeL v e.a).1 e.b).1).size
           ((findNodeL (findNodeL v e.a).1 e.b).2) : ℚ) < m)) := hg
    rw [if_neg hgA, if_neg hg]
    exact ⟨rfl, h2inv, by rw [h2n, h1n]⟩

theorem foldl_comm_of_step {f : Univ → Edge → Univ} {g : UnivL → Edge → UnivL} {c : ℚ}
    (hstep : ∀ v e, LInv v → e.a < v.n → e.b < v.n →
      f (absL c v) e = absL c (g v e) ∧ LInv (g v e) ∧ (g v e).n = v.n) :
    ∀ (es : List Edge) (v : UnivL), LInv v → (∀ e ∈ es, e.a < v.n ∧ e.b < v.n) →
      es.foldl f (absL c v) = absL c (es.foldl g v) ∧ LInv (es.foldl g v) ∧
      (es.foldl g v).n = v.n := by
  intro es
  induction es with
  | nil => intro v hv _; exact ⟨rfl, hv, rfl⟩
  | cons e tl ih =>
    intro v hv he
    obtain ⟨h1, h2, h3⟩ := hstep v e hv (he e (.head _)).1 (he e (.head _)).2
    simp only [List.foldl_cons]
    rw [h1]
    obtain ⟨g1, g2, g3⟩ := ih (g v e) h2
      (fun f' hf' => by rw [h3]; exact he f' (.tail _ hf'))
    exact ⟨g1, g2, by rw [g3, h3]⟩

theorem createUniverseL_comm (n : ℕ) (c : ℚ) :
    createUniverse n c = absL c (createUniverseL n c) ∧ LInv (createUniverseL n c) := by
  constructor
  · unfold createUniverse createUniverseL absL
    dsimp only
    have hrk : (fun _ : ℕ => 0) = fun i => (List.replicate n 0).getD i 0 := by
      funext i
      by_cases hi : i < n
      · rw [List.getD_eq_getElem _ _ (by simpa using hi), List.getElem_replicate]
      · rw [List.getD_eq_default _ _ (by simpa using hi)]
    have hsz : (fun _ : ℕ => 1) = fun i => (List.replicate n 1).getD i 1 := by
      funext i
      by_cases hi : i < n
      · rw [List.getD_eq_getElem _ _ (by simpa using hi), List.getElem_replicate]
      · rw [List.getD_eq_default _ _ (by simpa using hi)]
    have hth : (fun _ : ℕ => c) = fun i => (List.replicate n c).getD i c := by
      funext i
      by_cases hi : i < n
      · rw [List.getD_eq_getElem _ _ (by simpa using hi), List.getElem_replicate]
      · rw [List.getD_eq_default _ _ (by simpa using hi)]
    have hp : (fun i : ℕ => i) = fun i => (List.range n).getD i i := by
      funext i
      by_cases hi : i < n
      · rw [List.getD_eq_getElem _ _ (by simpa using hi), List.getElem_range]
      · rw [List.getD_eq_default _ _ (by simpa using hi)]
    rw [← hrk, ← hsz, ← hth, ← hp]
  · refine ⟨List.length_replicate _ _, List.length_range _, List.length_replicate _ _,
      List.length_replicate _ _, ?_⟩
    intro i hi
    show (List.range n).getD i i < n
    rw [List.getD_eq_getElem _ _ (by simpa using hi), List.getElem_range]
    exact hi

/-- The function-backed and the array-backed runs of `segmentGraph`
coincide on every edge list whose endpoints are in range. -/
theorem segmentGraphOn_eq_absL {n : ℕ} {E : List Edge} {c m : ℚ}
    (hE : ∀ e ∈ E, e.a < n ∧ e.b < n) :
    segmentGraphOn n E c m = absL c (segmentGraphOnL n E c m) := by
  obtain ⟨hc0, hinv0⟩ := createUniverseL_comm n c
  have hes : ∀ e ∈ sortEdges E, e.a < (createUniverseL n c).n ∧
      e.b < (createUniverseL n c).n :=
    fun e he => hE e (sortEdges_mem.mp he)
  unfold segmentGraphOn segmentGraphOnL
  dsimp only
  rw [hc0]
  obtain ⟨m1, m2, m3⟩ := foldl_comm_of_step
    (fun v e hv ha hb => mergeStepL_comm hv ha hb) (sortEdges E) _ hinv0 hes
  rw [m1]
  obtain ⟨s1, s2, s3⟩ := foldl_comm_of_step
    (fun v e hv ha hb => smallStepL_comm (m := m) hv ha hb)
    (sortEdges E) _ m2 (fun e he => by rw [m3]; exact hes e he)
  rw [s1]

/-! ### Concrete data for the graph-based threshold counterexample -/

/-- The stand-in for `Math.exp` in the concrete run: with `sigma = 1/100`
the Gaussian mask only evaluates `Math.exp` at `0` and at `-5000`, where
IEEE doubles give exactly `1` and (by underflow) exactly `0`, so this
function agrees with `Math.exp` at every point the run reads. -/
def c8Exp : ℚ → ℚ := fun q => if q = 0 then 1 else 0

/-- The edge list `createEdges` produces on `c8Image` (proved below): all
squared color distances are perfect squares, so the weights are exact. -/
def c8Edges : List Edge :=
  [⟨0,1,71⟩, ⟨0,3,197⟩, ⟨0,4,12⟩, ⟨1,2,122⟩, ⟨1,4,83⟩, ⟨1,5,84⟩,
   ⟨2,5,206⟩, ⟨3,4,209⟩, ⟨3,1,126⟩, ⟨4,5,1⟩, ⟨4,2,205⟩]

set_option maxRecDepth 100000 in
set_option maxHeartbeats 1000000 in
unseal Rat.add Rat.mul Rat.sub Rat.inv Rat.ofScientific in
theorem c8_smooth_eq : smoothImage c8Exp 3 2 c8Image (1/100) = c8Image := by decide

set_option maxRecDepth 100000 in
set_option maxHeartbeats 3000000 in
unseal Rat.add Rat.mul Rat.sub Rat.inv Rat.ofScientific in
theorem c8_edges_eq : createEdges 3 2 c8Image ratSqrt = c8Edges := by decide

set_option maxRecDepth 100000 in
set_option maxHeartbeats 2000000 in
unseal Rat.add Rat.mul Rat.sub Rat.inv Rat.ofScientific in
theorem c8_nodesL_165 : (segmentGraphOnL 6 c8Edges 165 1).nodes = 2 := by decide

set_option maxRecDepth 100000 in
set_option maxHeartbeats 2000000 in
unseal Rat.add Rat.mul Rat.sub Rat.inv Rat.ofScientific in
theorem c8_nodesL_196 : (segmentGraphOnL 6 c8Edges 196 1).nodes = 3 := by decide

theorem absL_nodes (c : ℚ) (v : UnivL) : (absL c v).nodes = v.nodes := rfl

theorem c8_edges_bound : ∀ e ∈ c8Edges, e.a < 6 ∧ e.b < 6 := by decide

set_option maxRecDepth 100000 in
set_option maxHeartbeats 1000000 in
theorem c8_size_eq (c : ℚ) :
    (computeSegmentationPF 3 2 c8Image c8Exp ratSqrt (1/100) c 1).1.size =
    (segmentGraphOn 6 (createEdges 3 2
      (smoothImage c8Exp 3 2 c8Image (1/100)) ratSqrt) c 1).nodes := rfl

set_option maxRecDepth 100000 in
set_option maxHeartbeats 1000000 in
/-- The size reported by the full graph-based run on `c8Image` equals the
live-node count of the array-backed run on the concrete edge list. -/
theorem c8_run (c : ℚ) :
    (computeSegmentationPF 3 2 c8Image c8Exp ratSqrt (1/100) c 1).1.size =
    (segmentGraphOnL 6 c8Edges c 1).nodes :=
  ((((c8_size_eq c).trans
    (congrArg (fun l => (segmentGraphOn 6 (createEdges 3 2 l ratSqrt) c 1).nodes)
      c8_smooth_eq)).trans
    (congrArg (fun E => (segmentGraphOn 6 E c 1).nodes) c8_edges_eq)).trans
    (congrArg Univ.nodes (segmentGraphOn_eq_absL (n := 6) c8_edges_bound))).trans
    (absL_nodes c _)

/-! ### Concrete data for the buffer-mutation counterexample -/

/-- A 1×2 RGBA image (red bytes 0 and 255) whose smoothing changes byte 0. -/
def c5Image : List ℕ := [0,0,0,0, 255,0,0,0]

/-- The stand-in for `Math.exp` in the mutation counterexample: with the
default `sigma = 1/2` the Gaussian mask evaluates `Math.exp` at `0`, `-2`
and `-8` only; the values below are rational approximations of
`1`, `e^-2 = 0.1353...` and `e^-8 = 0.000335...`. -/
def c5Exp : ℚ → ℚ :=
  fun q => if q = 0 then 1 else if q = -2 then 27/200 else if q = -8 then 67/200000 else 0

/-- In a universe with one live component, the root's accumulated size is
the whole pixel count. -/
theorem single_component_count {u : Univ} (h : UnivInv u) (hone : u.nodes = 1)
    {r : ℕ} (hr : r < u.n) (hroot : u.p r = r) : u.size r = u.n := by
  have hcard : (rootsSet u).card = 1 := by rw [← h.nodes_eq]; exact hone
  obtain ⟨r', hr'⟩ := Finset.card_eq_one.mp hcard
  have hmem : r ∈ rootsSet u := mem_rootsSet.mpr ⟨hr, hroot⟩
  rw [hr', Finset.mem_singleton] at hmem
  subst hmem
  have hsum := sizes_sum h
  rw [hr', Finset.sum_singleton] at hsum
  exact hsum

/-! ### Claim theorems -/

/-- C1: for every input image and configuration, on both the graph-based
path and the superpixel path, the `indexMap` of the returned result
contains exactly the values `{0, ..., size-1}` — membership in the output
holds precisely for the labels below the reported segment count, so every
such value occurs at least once. -/
theorem C1_label_contiguity :
    (∀ (W H : ℕ) (data : List ℕ) (expQ sqrtQ : ℚ → ℚ) (sigma c m : ℚ) (v : ℕ),
      v ∈ (computeSegmentationPF W H data expQ sqrtQ sigma c m).1.indexMap ↔
      v < (computeSegmentationPF W H data expQ sqrtQ sigma c m).1.size) ∧
    (∀ (powG cbrt sqrtQ : ℚ → ℚ) (W H rs : ℕ) (minR : ℚ) (data : List ℕ) (v : ℕ),
      v ∈ (computeSegmentationSLIC powG cbrt sqrtQ W H rs minR data).indexMap ↔
      v < (computeSegmentationSLIC powG cbrt sqrtQ W H rs minR data).size) := by
  constructor
  · intro W H data expQ sqrtQ sigma c m v
    obtain ⟨hinv, -, -⟩ := segmentGraphOn_spec (n := W*H)
      (E := createEdges W H (smoothImage expQ W H data sigma) sqrtQ) (c := c) (m := m)
      (@createEdgesW_bound W H _)
    exact (compact_spec hinv).1 v
  · intro powG cbrt sqrtQ W H rs minR data v
    exact (remapInv_fold (computeSLICSegmentation powG cbrt sqrtQ W H rs minR data)).mem_out v

/-- C3: the merge pass initialises every threshold to the constant `c`,
visits the edges in ascending weight order (a permutation of the built
edge list), performs a union exactly when the roots differ and the weight
is below both thresholds, and then gives the surviving root the combined
size and the refreshed threshold `w + c / size`; the whole
`segmentGraph` is the two sorted folds from the fresh universe. -/
theorem C3_merge_pass :
    (∀ (n : ℕ) (c : ℚ) (i : ℕ), (createUniverse n c).threshold i = c) ∧
    (∀ E : List Edge, (sortEdges E).Perm E ∧
      (sortEdges E).Pairwise (fun e f => e.w ≤ f.w)) ∧
    (∀ (n : ℕ) (E : List Edge) (c m : ℚ),
      segmentGraphOn n E c m =
        (sortEdges E).foldl (smallStep m)
          ((sortEdges E).foldl (mergeStep c) (createUniverse n c))) ∧
    (∀ (u : Univ) (c : ℚ) (e : Edge), UnivInv u → e.a < u.n → e.b < u.n →
      (mergeCond u e ↔ (rootOf u e.a ≠ rootOf u e.b ∧
        e.w ≤ u.threshold (rootOf u e.a) ∧ e.w ≤ u.threshold (rootOf u e.b))) ∧
      (mergeCond u e → (mergeStep c u e).nodes + 1 = u.nodes ∧
        ∃ r, (r = rootOf u e.a ∨ r = rootOf u e.b) ∧ (mergeStep c u e).p r = r ∧
          (mergeStep c u e).size r = u.size (rootOf u e.a) + u.size (rootOf u e.b) ∧
          (mergeStep c u e).threshold r = e.w + c / ((mergeStep c u e).size r : ℚ) ∧
          (∀ y, y < u.n → rootOf (mergeStep c u e) y =
            if rootOf u y = rootOf u e.a ∨ rootOf u y = rootOf u e.b
            then r else rootOf u y)) ∧
      (¬ mergeCond u e → (mergeStep c u e).nodes = u.nodes ∧
        (mergeStep c u e).threshold = u.threshold ∧
        (∀ y, y < u.n → rootOf (mergeStep c u e) y = rootOf u y))) := by
  refine ⟨fun n c i => rfl, fun E => ⟨sortEdges_perm E, sortEdges_sorted E⟩,
    fun n E c m => rfl, fun u c e h hea heb => ⟨Iff.rfl, ?_, ?_⟩⟩
  · intro hc
    obtain ⟨-, -, -, hmerge, -⟩ := mergeStep_spec h c hea heb
    obtain ⟨hn1, r, hr1, hr2, hr3, hr4, hr5, -, -⟩ := hmerge hc
    exact ⟨hn1, r, hr1, hr2, hr3, hr4, hr5⟩
  · intro hc
    obtain ⟨-, -, -, -, hskip⟩ := mergeStep_spec h c hea heb
    obtain ⟨h1, -, h3, h4⟩ := hskip hc
    exact ⟨h1, h3, h4⟩

/-- C4 (code bug): the adaptive per-cluster parameter update never fires.
In the real pipeline the per-pixel arrays `mcMap`/`msMap` are allocated
zero-filled and never written, so every clustering iteration of `slicIter`
(the pipeline's exact initial state is spelled out below) leaves the
cluster parameters and both arrays at their initial values — the spec'd
raising of the maximum observed color/spatial distances does not occur. -/
theorem C4_params_frozen (powG cbrt sqrtQ : ℚ → ℚ) (W H rs : ℕ)
    (data : List ℕ) (fuel : ℕ) :
    (slicIter (xyz2lab cbrt (rgb2xyz powG data W H) W H) sqrtQ (W / rs) (H / rs)
        rs W H ((W / rs) * (H / rs)) fuel
        { seg := List.replicate (W*H) 0,
          mcMap := List.replicate (W*H) 0,
          msMap := List.replicate (W*H) 0,
          cp := (initializeKmeansCenters (xyz2lab cbrt (rgb2xyz powG data W H) W H)
                  (computeEdge (xyz2lab cbrt (rgb2xyz powG data W H) W H) W H)
                  (W / rs) (H / rs) rs W H).2,
          centers := (initializeKmeansCenters (xyz2lab cbrt (rgb2xyz powG data W H) W H)
                  (computeEdge (xyz2lab cbrt (rgb2xyz powG data W H) W H) W H)
                  (W / rs) (H / rs) rs W H).1 }).cp =
      (initializeKmeansCenters (xyz2lab cbrt (rgb2xyz powG data W H) W H)
        (computeEdge (xyz2lab cbrt (rgb2xyz powG data W H) W H) W H)
        (W / rs) (H / rs) rs W H).2 ∧
    (slicIter (xyz2lab cbrt (rgb2xyz powG data W H) W H) sqrtQ (W / rs) (H / rs)
        rs W H ((W / rs) * (H / rs)) fuel
        { seg := List.replicate (W*H) 0,
          mcMap := List.replicate (W*H) 0,
          msMap := List.replicate (W*H) 0,
          cp := (initializeKmeansCenters (xyz2lab cbrt (rgb2xyz powG data W H) W H)
                  (computeEdge (xyz2lab cbrt (rgb2xyz powG data W H) W H) W H)
                  (W / rs) (H / rs) rs W H).2,
          centers := (initializeKmeansCenters (xyz2lab cbrt (rgb2xyz powG data W H) W H)
                  (computeEdge (xyz2lab cbrt (rgb2xyz powG data W H) W H) W H)
                  (W / rs) (H / rs) rs W H).1 }).mcMap = List.replicate (W*H) 0 ∧
    (slicIter (xyz2lab cbrt (rgb2xyz powG data W H) W H) sqrtQ (W / rs) (H / rs)
        rs W H ((W / rs) * (H / rs)) fuel
        { seg := List.replicate (W*H) 0,
          mcMap := List.replicate (W*H) 0,
          msMap := List.replicate (W*H) 0,
          cp := (initializeKmeansCenters (xyz2lab cbrt (rgb2xyz powG data W H) W H)
                  (computeEdge (xyz2lab cbrt (rgb2xyz powG data W H) W H) W H)
                  (W / rs) (H / rs) rs W H).2,
          centers := (initializeKmeansCenters (xyz2lab cbrt (rgb2xyz powG data W H) W H)
                  (computeEdge (xyz2lab cbrt (rgb2xyz powG data W H) W H) W H)
                  (W / rs) (H / rs) rs W H).1 }).msMap = List.replicate (W*H) 0 :=
  slicIter_frozen (xyz2lab cbrt (rgb2xyz powG data W H) W H) sqrtQ (W / rs) (H / rs)
    rs W H ((W / rs) * (H / rs)) fuel _
    (fun i => getD_replicate_zero _ i) (fun i => getD_replicate_zero _ i)
    (initParams_nonneg (xyz2lab cbrt (rgb2xyz powG data W H) W H)
      (computeEdge (xyz2lab cbrt (rgb2xyz powG data W H) W H) W H)
      (W / rs) (H / rs) rs W H)

/-- C5 (amended): the superpixel path leaves the caller's buffer untouched
(the result's `rgbData` is the input list itself), but the graph-based
path smooths the caller-supplied buffer in place: after a run the buffer
holds the smoothed image (which is also what the result's `rgbData`
aliases), and only the alpha bytes are preserved. -/
theorem C5_buffer :
    (∀ (W H : ℕ) (src : List ℕ) (expQ sqrtQ : ℚ → ℚ) (sigma c m : ℚ),
      (computeSegmentationPF W H src expQ sqrtQ sigma c m).2 =
        smoothImage expQ W H src sigma ∧
      (computeSegmentationPF W H src expQ sqrtQ sigma c m).1.rgbData =
        smoothImage expQ W H src sigma) ∧
    (∀ (W H : ℕ) (src : List ℕ) (expQ : ℚ → ℚ) (sigma : ℚ) (p : ℕ), p < W*H →
      (smoothImage expQ W H src sigma).getD (4*p+3) 0 = src.getD (4*p+3) 0) ∧
    (∀ (powG cbrt sqrtQ : ℚ → ℚ) (W H rs : ℕ) (minR : ℚ) (data : List ℕ),
      (computeSegmentationSLIC powG cbrt sqrtQ W H rs minR data).rgbData = data) :=
  ⟨fun _ _ _ _ _ _ _ _ => ⟨rfl, rfl⟩,
   fun _ _ _ _ _ _ hp => convolveEven_alpha hp,
   fun _ _ _ _ _ _ _ _ => rfl⟩

/-- C6 (amended): neither entry point validates its arguments — for every
image and every option record both `PFSegmentation` and `SLICSegmentation`
run to completion and deliver an `ok` result; no rejection path exists. -/
theorem C6_always_ok :
    (∀ (expQ sqrtQ : ℚ → ℚ) (W H : ℕ) (data : List ℕ)
        (oSigma oThreshold oMinSize : Option ℚ),
      ∃ r, PFSegmentationRun expQ sqrtQ W H data oSigma oThreshold oMinSize =
        Except.ok r) ∧
    (∀ (powG cbrt sqrtQ : ℚ → ℚ) (W H : ℕ) (data : List ℕ)
        (oRegionSize : Option ℕ) (oMinRegionSize : Option ℚ),
      ∃ r, SLICSegmentationRun powG cbrt sqrtQ W H data oRegionSize oMinRegionSize =
        Except.ok r) :=
  ⟨fun _ _ _ _ _ _ _ _ => ⟨_, rfl⟩, fun _ _ _ _ _ _ _ _ => ⟨_, rfl⟩⟩

/-- C7: for every grid with `W, H ≥ 1` and every weight function, the edge
builder emits exactly `4WH - 3W - 3H + 2` edges, every emitted edge joins
8-neighbourhood-adjacent pixels, every adjacent unordered pair appears as
exactly one edge, and `createEdges` is this builder applied to the
square-root color distance of the buffer. -/
theorem C7_edge_structure :
    (∀ (W H : ℕ) (wf : ℕ → ℕ → ℚ), 1 ≤ W → 1 ≤ H →
      ((createEdgesW W H wf).length : ℤ) = 4*W*H - 3*W - 3*H + 2) ∧
    (∀ (W H : ℕ) (wf : ℕ → ℕ → ℚ), ∀ e ∈ createEdgesW W H wf,
      adjacent8 W H e.a e.b) ∧
    (∀ (W H p q : ℕ) (wf : ℕ → ℕ → ℚ), adjacent8 W H p q →
      (createEdgesW W H wf).countP
        (fun e => (e.a = p ∧ e.b = q) ∨ (e.a = q ∧ e.b = p)) = 1) ∧
    (∀ (W H : ℕ) (buf : List ℕ) (sqrtQ : ℚ → ℚ),
      createEdges W H buf sqrtQ =
        createEdgesW W H (fun a b => sqrtQ (sqDist buf a b))) :=
  ⟨fun _ _ wf hW hH => createEdgesW_length hW hH wf,
   fun _ _ wf => createEdgesW_adj wf,
   fun _ _ _ _ wf hadj => createEdgesW_count wf hadj,
   fun _ _ _ _ => rfl⟩

/-- C2 (amended): on the graph-based path every label of the compacted map
is carried by at least `minSize` pixels unless the image itself is smaller
than `minSize` (then there is a single segment); on the superpixel path
the bound holds for every label except label `0` — the region of pixel 0
is exempt from the small-region elimination. -/
theorem C2_size_bound :
    (∀ (W H : ℕ) (data : List ℕ) (expQ sqrtQ : ℚ → ℚ) (sigma c m : ℚ),
      1 ≤ W →
      ∀ v ∈ (computeSegmentationPF W H data expQ sqrtQ sigma c m).1.indexMap,
        m ≤ ((computeSegmentationPF W H data expQ sqrtQ sigma c m).1.indexMap.count v : ℚ) ∨
        (((W*H : ℕ) : ℚ) < m ∧
          (computeSegmentationPF W H data expQ sqrtQ sigma c m).1.size = 1)) ∧
    (∀ (powG cbrt sqrtQ : ℚ → ℚ) (W H rs : ℕ) (minR : ℚ) (data : List ℕ),
      ∀ v ∈ (computeSegmentationSLIC powG cbrt sqrtQ W H rs minR data).indexMap,
        minR ≤ ((computeSegmentationSLIC powG cbrt sqrtQ W H rs minR data).indexMap.count v : ℚ) ∨
        v = 0) := by
  constructor
  · intro W H data expQ sqrtQ sigma c m hW v hv
    obtain ⟨hinv, hn, -⟩ := segmentGraphOn_spec (n := W*H)
      (E := createEdges W H (smoothImage expQ W H data sigma) sqrtQ) (c := c) (m := m)
      (@createEdgesW_bound W H _)
    obtain ⟨hmem, -, -, hcount, -⟩ := compact_spec hinv
    have hv2 : v ∈ (createIndexMap (segmentGraphOn (W*H)
        (createEdges W H (smoothImage expQ W H data sigma) sqrtQ) c m)).1 := hv
    have hv3 := (hmem v).mp hv2
    obtain ⟨r, hrn, hroot, hcnt⟩ := hcount v hv3
    show m ≤ ((createIndexMap (segmentGraphOn (W*H)
        (createEdges W H (smoothImage expQ W H data sigma) sqrtQ) c m)).1.count v : ℚ) ∨
      (((W*H : ℕ) : ℚ) < m ∧
        (segmentGraphOn (W*H)
          (createEdges W H (smoothImage expQ W H data sigma) sqrtQ) c m).nodes = 1)
    rw [hcnt]
    have hdich := pf_dichotomy (W := W) (H := H) hW
      (fun a b => sqrtQ (sqDist (smoothImage expQ W H data sigma) a b)) c m r hrn hroot
    rcases hdich with hge | hone
    · exact Or.inl hge
    · rcases le_or_lt m (((W*H : ℕ) : ℚ)) with hm | hm
      · left
        rw [single_component_count hinv hone hrn hroot, hn]
        exact hm
      · exact Or.inr ⟨hm, hone⟩
  · intro powG cbrt sqrtQ W H rs minR data v hv
    exact slic_cleanup_bound W H _ minR v hv

set_option maxRecDepth 100000 in
unseal Rat.add Rat.mul Rat.sub Rat.inv Rat.ofScientific in
/-- C2 counterexample: on the superpixel cleanup, with a 2×2 image,
`minRegionSize = 2` (the image, 4 pixels, is not smaller than the bound)
and pre-cleanup labels `[0,1,1,1]`, the final compacted map keeps a label
(label 0, the region of pixel 0) that is carried by a single pixel. -/
theorem C2_zero_label :
    (remapLabels ((List.range (2*2)).map
      (eliminateSmallRegions 2 2 (fun i => [0,1,1,1].getD i 0) 2))).1.count 0 = 1 ∧
    ¬ ((2 : ℚ) ≤ (((remapLabels ((List.range (2*2)).map
      (eliminateSmallRegions 2 2 (fun i => [0,1,1,1].getD i 0) 2))).1.count 0 : ℕ) : ℚ)) ∧
    (2 : ℚ) ≤ ((2*2 : ℕ) : ℚ) := by decide

/-- C8 (amended): the segment count is not antitone in the threshold
constant in general (see the counterexample), but a sufficiently large
constant — at least `W·H` times every (nonnegative) edge weight — always
reaches the minimum: the merge pass then collapses the grid to a single
segment, a lower bound for the count under any other constant. -/
theorem C8_big_threshold {W H : ℕ} (wf : ℕ → ℕ → ℚ) (c1 c2 m : ℚ)
    (hW : 1 ≤ W) (hH : 1 ≤ H)
    (hwts : ∀ e ∈ createEdgesW W H wf, 0 ≤ e.w ∧ ((W*H : ℕ) : ℚ) * e.w ≤ c2) :
    (segmentGraphOn (W*H) (createEdgesW W H wf) c2 m).nodes ≤
    (segmentGraphOn (W*H) (createEdgesW W H wf) c1 m).nodes := by
  rw [segmentGraphOn_bigc hW hH wf hwts]
  obtain ⟨hinv, hn, -⟩ := segmentGraphOn_spec (c := c1) (m := m)
    (@createEdgesW_bound W H wf)
  have hpos : 0 < (segmentGraphOn (W*H) (createEdgesW W H wf) c1 m).nodes := by
    apply nodes_pos hinv
    rw [hn]
    exact Nat.mul_pos hW hH
  omega

/-- C8 witness: on the 1×1 grid (no edges) the big-threshold bound applies
with `c2 = 0` against `c1 = 5`. -/
theorem C8_big_threshold_witness :
    (segmentGraphOn (1*1) (createEdgesW 1 1 (fun _ _ => 0)) 0 17).nodes ≤
    (segmentGraphOn (1*1) (createEdgesW 1 1 (fun _ _ => 0)) 5 17).nodes :=
  C8_big_threshold (fun _ _ => 0) 5 0 17 (by decide) (by decide) (by decide)

/-- C8 counterexample: on a fixed 3×2 image with fixed sigma (`1/100`) and
fixed `minSize` (`1`), raising the threshold constant from 165 to 196
raises the reported segment count from 2 to 3. -/
theorem C8_not_antitone :
    (165 : ℚ) ≤ 196 ∧
    (computeSegmentationPF 3 2 c8Image c8Exp ratSqrt (1/100) 165 1).1.size = 2 ∧
    (computeSegmentationPF 3 2 c8Image c8Exp ratSqrt (1/100) 196 1).1.size = 3 :=
  ⟨by norm_num, (c8_run 165).trans c8_nodesL_165, (c8_run 196).trans c8_nodesL_196⟩

/-- C9 (amended): packing a label into bytes `(L & 255, (L>>8) & 255,
(L>>16) & 255, 0)` and importing through the pre-segmentation path is a
round-trip exactly on label values below 256 (the import reads the red
byte only). -/
theorem C9_roundtrip_small {W H : ℕ} {indexMap : List ℕ}
    (hlen : indexMap.length = W*H) (hlt : ∀ v ∈ indexMap, v < 256) :
    computePreSegmentation W H (getDataURLBytes indexMap) = indexMap :=
  preseg_roundtrip hlen hlt

/-- C9 witness: the round-trip on the concrete 2×1 label map `[7, 250]`. -/
theorem C9_roundtrip_witness :
    ([7, 250] : List ℕ).length = 2*1 ∧ (∀ v ∈ ([7, 250] : List ℕ), v < 256) ∧
    computePreSegmentation 2 1 (getDataURLBytes [7, 250]) = [7, 250] :=
  ⟨by decide, by decide, C9_roundtrip_small (by decide) (by decide)⟩

/-- C9 counterexample: the label 256 does not survive the round-trip — the
pre-segmentation reader takes the red byte only and yields 0. -/
theorem C9_roundtrip_fails :
    computePreSegmentation 1 1 (getDataURLBytes [256]) ≠ [256] ∧
    computePreSegmentation 1 1 (getDataURLBytes [256]) = [0] := by decide

/-- C10: the disjoint-set invariant — in-range parents, ranks strictly
increasing towards a root, root sizes counting their classes exactly (so
they sum to the pixel count) and the live-node counter counting the
distinct roots — holds for the fresh universe and is preserved by both
operations; `findNode` changes no node's component and `joinNode` merges
two distinct roots, decrementing the counter by exactly one. -/
theorem C10_union_find :
    (∀ (n : ℕ) (c : ℚ), UnivInv (createUniverse n c)) ∧
    (∀ (u : Univ) (x : ℕ), UnivInv u → x < u.n →
      UnivInv (findNode u x).1 ∧ (findNode u x).2 = rootOf u x ∧
      (findNode u x).1.n = u.n ∧ (findNode u x).1.nodes = u.nodes ∧
      (∀ y, y < u.n → rootOf (findNode u x).1 y = rootOf u y)) ∧
    (∀ (u : Univ) (a b : ℕ), UnivInv u → a < u.n → b < u.n →
      u.p a = a → u.p b = b → a ≠ b →
      UnivInv (joinNode u a b) ∧ (joinNode u a b).nodes + 1 = u.nodes ∧
      (joinNode u a b).size (joinWinner u a b) = u.size a + u.size b) ∧
    (∀ u : Univ, UnivInv u →
      ((∑ r ∈ rootsSet u, u.size r) = u.n ∧ u.nodes = (rootsSet u).card ∧
       (∀ r, r < u.n → u.p r = r → u.size r = (classOf u r).card))) := by
  refine ⟨createUniverse_inv, ?_, ?_, ?_⟩
  · intro u x h hx
    exact ⟨compressAt_inv h hx, rfl, rfl, rfl, compress_rootOf h hx⟩
  · intro u a b h ha hb hra hrb hab
    exact joinNode_inv h ha hb hra hrb hab
  · intro u h
    exact ⟨sizes_sum h, h.nodes_eq, h.size_eq⟩

set_option maxRecDepth 100000 in
set_option maxHeartbeats 1000000 in
unseal Rat.add Rat.mul Rat.sub Rat.inv Rat.ofScientific in
/-- C5 counterexample: a graph-based run with the default configuration
(`sigma = 1/2`, `threshold = 500`, `minSize = 20`) on a 1×2 image leaves
the caller's buffer changed — the smoothing wrote back into it. -/
theorem C5_buffer_mutation :
    (computeSegmentationPF 1 2 c5Image c5Exp ratSqrt (1/2) 500 20).2 ≠ c5Image := by
  decide

set_option maxRecDepth 100000 in
set_option maxHeartbeats 1000000 in
unseal Rat.add Rat.mul Rat.sub Rat.inv Rat.ofScientific in
/-- C6 counterexample: a zero-area image — listed by the spec as a case to
reject before computation — is accepted by both entry points, which run to
completion and deliver an `ok` result. -/
theorem C6_no_reject :
    PFSegmentationRun c8Exp ratSqrt 0 0 [] none none none =
      Except.ok ⟨0, 0, 0, [], []⟩ ∧
    SLICSegmentationRun c8Exp c8Exp c8Exp 0 0 [] none none =
      Except.ok ⟨0, 0, 0, [], []⟩ := by
  constructor <;> rfl
